import Mathlib

/-!
# cisextractor: a verification development

Shallow embedding of `cisextractor.go` (the CIS benchmark PDF extractor) and
theorems about its title classification, rule catalogue, location resolution
and section segmentation.

Modelling conventions
* A Go `string` is a `List Char` (`Str`).  Go strings are byte sequences; the
  embedding is exact for valid UTF-8 text, where byte-wise `HasPrefix`,
  `HasSuffix`, `Split` and `ReplaceAll` agree with their rune-wise reading.
* A Go `map[string]string` is an association list (`StrMap`) read through
  `mapGet` and written through `mapSet`; only lookups are observable.  Maps
  are non-nil, as every map the program creates is (`map[string]string{}`).
* Every compiled regular expression of the source is embedded as the matching
  function of that one pattern, written after the pattern's structure and Go's
  leftmost-first (`regexp`) or backtracking (`regexp2`) matching order.
* The character classes of `regexp2` patterns are those of the library:
  `\s` is `unicode.IsSpace`; `\d` is embedded on the ASCII range (see
  `isDigitNet`).
* A run-time panic is the value `none` of an `Option` result (`cropTitles`).
* Of `writeResultFile` the records handed to the CSV writer are embedded;
  creating and writing the file is not.
* Console output (`fmt.Printf`) is not modelled.
-/

namespace CisExtractor

/-- A Go string, as its sequence of characters. -/
abbrev Str := List Char

/-- A Go `map[string]string`. -/
abbrev StrMap := List (Str × Str)

/-- Map read `v, ok := m[k]`. -/
def mapGet : StrMap → Str → Option Str
  | [], _ => none
  | (k', v) :: rest, k => if k' = k then some v else mapGet rest k

/-- Map write `m[k] = v`: overwrite the entry for `k`, or add one. -/
def mapSet : StrMap → Str → Str → StrMap
  | [], k, v => [(k, v)]
  | (k', v') :: rest, k, v => if k' = k then (k, v) :: rest else (k', v') :: mapSet rest k v

/-- Go `type Location struct { ID, Name string }`. -/
structure Location where
  ID : Str
  Name : Str
deriving DecidableEq, Repr

/-- Go `type namedValue struct { name, value string }`. -/
structure namedValue where
  name : Str
  value : Str
deriving DecidableEq, Repr

/-- Go `type Rule struct`. -/
structure Rule where
  ID : Str
  Name : Str
  Automated : Bool
  Location : List Location
  Sections : StrMap
deriving DecidableEq, Repr

/-! ## The `strings` package -/

/-- Go `strings.HasPrefix(s, prefix)`. -/
def hasPrefix (s pre : Str) : Bool := pre.isPrefixOf s

/-- Go `strings.HasSuffix(s, suffix)`. -/
def hasSuffix (s suf : Str) : Bool := suf.isSuffixOf s

/-- Go `strings.TrimPrefix(s, prefix)`. -/
def trimPrefix (s pre : Str) : Str :=
  if hasPrefix s pre then s.drop pre.length else s

/-- Go `strings.TrimSuffix(s, suffix)`. -/
def trimSuffix (s suf : Str) : Str :=
  if hasSuffix s suf then s.take (s.length - suf.length) else s

/-- Go `strings.Split(s, sep)` for a one-character separator: the text between
consecutive separators, `count(sep) + 1` parts, a single empty part for the
empty string. -/
def stringsSplit : Str → Char → List Str
  | [], _ => [[]]
  | c :: cs, sep =>
    if c = sep then [] :: stringsSplit cs sep
    else
      match stringsSplit cs sep with
      | [] => [[c]]
      | p :: ps => (c :: p) :: ps

/-- Go `strings.Join(elems, sep)`. -/
def stringsJoin : List Str → Str → Str
  | [], _ => []
  | [a], _ => a
  | a :: b :: t, sep => a ++ sep ++ stringsJoin (b :: t) sep

/-- Worker of `replaceAll`: `skip` characters of a matched occurrence are
still to be passed over. -/
def replaceAllAux (old new : Str) : Nat → Str → Str
  | _, [] => []
  | skip + 1, _ :: cs => replaceAllAux old new skip cs
  | 0, c :: cs =>
    if old.isPrefixOf (c :: cs) then new ++ replaceAllAux old new (old.length - 1) cs
    else c :: replaceAllAux old new 0 cs

/-- Go `strings.ReplaceAll(s, old, new)` for a non-empty `old` (every call of the
source passes a non-empty literal): the non-overlapping occurrences of `old`,
found left to right, are replaced by `new`. -/
def replaceAll (s old new : Str) : Str := replaceAllAux old new 0 s

/-! ## `getRuleLocation` -/

/-- Go `getRuleLocation`: the parent chapters of a rule ID that the map knows. -/
def getRuleLocation (ruleIDToName : StrMap) (ruleID : Str) : List Location :=
  let sep : Str := ['.']
  let parts := stringsSplit ruleID '.'
  (List.range (parts.length - 1)).foldl
    (fun loc i =>
      let parentID := stringsJoin (parts.take (i + 1)) sep
      match mapGet ruleIDToName parentID with
      | some parentName => loc ++ [{ ID := parentID, Name := parentName }]
      | none => loc)
    []

/-- The location as the specification words it: for `k = 1 .. n-1` the prefix
`p1.….pk` of the dotted ID, kept when it is a key of the map and paired with
its name. -/
def locationSpec (m : StrMap) (r : Str) : List Location :=
  let parts := stringsSplit r '.'
  (List.range' 1 (parts.length - 1)).filterMap
    (fun k =>
      let pre := stringsJoin (parts.take k) ['.']
      (mapGet m pre).map (fun nm => { ID := pre, Name := nm }))

/-! ## Character classes and the `whitespace` pattern -/

/-- The class `\d` of Go's `regexp`: an ASCII decimal digit. -/
def isDigitRE (c : Char) : Bool := c.isDigit

/-- The class `\s` of Go's `regexp`: `[\t\n\f\r ]`. -/
def isSpaceRE (c : Char) : Bool :=
  c = '\t' || c = '\n' || c = '\x0c' || c = '\r' || c = ' '

/-- Go `unicode.IsSpace`, the characters `strings.TrimSpace` removes. -/
def isUnicodeSpace (c : Char) : Bool :=
  (9 ≤ c.toNat && c.toNat ≤ 13) || c = ' ' || c.toNat = 0x85 || c.toNat = 0xA0 ||
  c.toNat = 0x1680 || (0x2000 ≤ c.toNat && c.toNat ≤ 0x200A) || c.toNat = 0x2028 ||
  c.toNat = 0x2029 || c.toNat = 0x202F || c.toNat = 0x205F || c.toNat = 0x3000

/-- Go `strings.TrimSpace`. -/
def trimSpace (s : Str) : Str := (s.dropWhile isUnicodeSpace).rdropWhile isUnicodeSpace

/-- Go `strings.Trim(s, cutset)`. -/
def stringsTrim (s cutset : Str) : Str :=
  (s.dropWhile (fun c => decide (c ∈ cutset))).rdropWhile (fun c => decide (c ∈ cutset))

/-- Go `strings.ToLower` on the ASCII range (`A`-`Z` mapped to `a`-`z`); the
embedding leaves other characters as they are. -/
def toLower (s : Str) : Str := s.map Char.toLower

/-- Worker of `whitespaceReplaceAll`; `inRun` says that the previous
character belonged to the run of `\s` being replaced. -/
def whitespaceReplaceAux (repl : Str) : Bool → Str → Str
  | _, [] => []
  | inRun, c :: cs =>
    if isSpaceRE c then
      if inRun then whitespaceReplaceAux repl true cs
      else repl ++ whitespaceReplaceAux repl true cs
    else c :: whitespaceReplaceAux repl false cs

/-- Go `whitespace.ReplaceAllString(s, repl)` for `whitespace = \s+` (and a
replacement without `$`): every maximal run of `\s` becomes `repl`. -/
def whitespaceReplaceAll (s repl : Str) : Str := whitespaceReplaceAux repl false s

/-- Go `replaceWhitespaces`. -/
def replaceWhitespaces (content : Str) : Str := whitespaceReplaceAll content [' ']

/-! ## `splitTitle` -/

/-- Go `hasSuffixAny`. -/
def hasSuffixAny (s : Str) : List Str → Bool
  | [] => false
  | suf :: rest => if hasSuffix s suf then true else hasSuffixAny s rest

/-- Go `removeSuffixAny`: for the first listed suffix that `s` ends with, every
occurrence of it is removed from `s`. -/
def removeSuffixAny (s : Str) : List Str → Str
  | [] => []
  | suf :: rest => if hasSuffix s suf then replaceAll s suf [] else removeSuffixAny s rest

/-- Group 1 of `titleIDRegex`, `(\d{1,3}\.?(?:\d{1,3}\.?)*)+`, run greedily:
digits are consumed (a run longer than three digits continues as the next
`\d{1,3}`), a dot is consumed only right after a digit, anything else ends
the group.  `prevDigit` says that the previous character was a digit.
Returns the text consumed and the text left. -/
def titleIDScan : Bool → Str → Str × Str
  | _, [] => ([], [])
  | prevDigit, c :: cs =>
    if isDigitRE c then ((c :: (titleIDScan true cs).1), (titleIDScan true cs).2)
    else if c = '.' && prevDigit then ((c :: (titleIDScan false cs).1), (titleIDScan false cs).2)
    else ([], c :: cs)

/-- Go `titleIDRegex.FindStringSubmatch` for
`^(\d{1,3}\.?(?:\d{1,3}\.?)*)+((.+?)*)$`: `none` when there is no match,
otherwise groups 1 and 2.  The pattern is anchored at both ends, `.` excludes
the line feed, and group 2 accepts any text without a line feed, so the
greedy first choice for group 1 is the one taken and the match exists exactly
when the text starts with a digit and holds no line feed. -/
def titleIDRegexFindStringSubmatch (title : Str) : Option (Str × Str) :=
  match title with
  | [] => none
  | c :: _ =>
    if isDigitRE c && !(title.contains '\n') then some (titleIDScan false title) else none

/-- The five results of `splitTitle`; `err` is the Go `error` (`none` is `nil`). -/
structure SplitResult where
  id : Str
  name : Str
  isActualRule : Bool
  automated : Bool
  err : Option Str
deriving DecidableEq, Repr

/-- The status suffixes `rStr` of `splitTitle`. -/
def rStr : List Str :=
  ["(Automated)".toList, "(Scored)".toList, "(Manual)".toList, "(Not Scored)".toList]

/-- Go `splitTitle`.  The named result `err` is assigned nowhere in the source,
so both exits return it as `nil`; the bare `return` after a failed match
returns the named results as they stand then. -/
def splitTitle (title : Str) : SplitResult :=
  let isActualRule := hasSuffixAny title rStr
  let automated := isActualRule && hasSuffixAny title (rStr.take 2)
  let title := if isActualRule then removeSuffixAny title rStr else title
  match titleIDRegexFindStringSubmatch title with
  | none => { id := [], name := [], isActualRule := isActualRule, automated := automated, err := none }
  | some titleParts =>
    { id := trimSpace (replaceWhitespaces titleParts.1)
      name := trimSpace (replaceWhitespaces titleParts.2)
      isActualRule := isActualRule
      automated := automated
      err := none }

/-! ## `prepareRules` -/

/-- Go `regexp.QuoteMeta`: a backslash before each of the characters that a
pattern reads as syntax (backslash, dot, plus, star, question mark, round,
square and curly brackets, bar, caret, dollar). -/
def quoteMeta : Str → Str
  | [] => []
  | c :: cs =>
    if c ∈ "\\.+*?()|[]\x7b\x7d^$".toList then '\\' :: c :: quoteMeta cs else c :: quoteMeta cs

/-- Puts a character in front of the first alternative. -/
def pushFirst (c : Char) : List Str → List Str
  | [] => [[c]]
  | p :: ps => (c :: p) :: ps

/-- The alternatives of a pattern text made of literal characters, escaped
characters `\c` and the alternation bar: what `regexp.MustCompile` reads from
a `|`-joined list of `QuoteMeta` outputs.  The empty text is the single empty
alternative. -/
def parseAlternation : Str → List Str
  | [] => [[]]
  | [c] => if c = '|' then [[], []] else [[c]]
  | c :: d :: cs =>
    if c = '\\' then pushFirst d (parseAlternation cs)
    else if c = '|' then [] :: parseAlternation (d :: cs)
    else pushFirst c (parseAlternation (d :: cs))

/-- The compiled cleanup pattern `(` + inner + `)[\s\S]*`: `source` is the
pattern text handed to `regexp.MustCompile`, `alts` the literal alternatives
of its group. -/
structure CleanRegexp where
  source : Str
  alts : List Str
deriving DecidableEq, Repr

/-- Go `regexp.MustCompile("(" + inner + ")[\s\S]*")`. -/
def mustCompileClean (inner : Str) : CleanRegexp :=
  { source := "(".toList ++ inner ++ ")[\\s\\S]*".toList, alts := parseAlternation inner }

/-- Go `re.ReplaceAllString(text, "")` for a compiled cleanup pattern: the
leftmost place where an alternative matches starts a match that `[\s\S]*`
extends to the end of the text, so the text is cut there. -/
def CleanRegexp.replaceAllEmpty (re : CleanRegexp) : Str → Str
  | [] => []
  | c :: cs =>
    if re.alts.any (fun a => a.isPrefixOf (c :: cs)) then []
    else c :: re.replaceAllEmpty cs

/-- The variables of the `prepareRules` loop. -/
structure PrepState where
  noRuleCount : Nat
  ruleIDToName : StrMap
  noRuleString : Str
  rules : List Rule
deriving DecidableEq, Repr

/-- One iteration of the loop of `prepareRules`. -/
def prepareStep (st : PrepState) (title : Str) : PrepState :=
  let r := splitTitle title
  match r.err with
  | some _ => st
  | none =>
    let m := mapSet st.ruleIDToName r.id r.name
    if r.isActualRule then
      { st with
        ruleIDToName := m
        rules := st.rules ++
          [{ ID := r.id, Automated := r.automated, Name := r.name, Location := [], Sections := [] }] }
    else
      { st with
        ruleIDToName := m
        noRuleCount := st.noRuleCount + 1
        noRuleString := st.noRuleString ++ "|".toList ++ quoteMeta r.id ++ " ".toList ++ quoteMeta r.name }

/-- The state of `prepareRules` when its loop ends. -/
def prepareLoop (titles : List Str) : PrepState :=
  titles.foldl prepareStep { noRuleCount := 0, ruleIDToName := [], noRuleString := [], rules := [] }

/-- Go `prepareRules`: `(noRuleCount, ruleIDToName, noRuleRegexClean, rules)`. -/
def prepareRules (titles : List Str) : Nat × StrMap × CleanRegexp × List Rule :=
  let st := prepareLoop titles
  let noRuleString := trimPrefix st.noRuleString "|".toList
  (st.noRuleCount, st.ruleIDToName, mustCompileClean (trimPrefix noRuleString "|".toList), st.rules)

/-! ## `sectionRegex` and `findNamedValuesByRegex` -/

/-- One position of a label of `sectionRegex`: a literal character, or `\s`. -/
inductive LabelAtom where
  | lit (c : Char)
  | space
deriving DecidableEq, Repr

/-- A label written with literal characters only. -/
def litLabel (s : String) : List LabelAtom := s.toList.map LabelAtom.lit

/-- The nine alternatives of `sectionRegex`, in the order of the pattern
`Profile Applicability|Description|Rationale|Audit|Remediation|Impact|Default\sValue|References|CIS\sControls`. -/
def sectionLabels : List (List LabelAtom) :=
  [ litLabel "Profile Applicability", litLabel "Description", litLabel "Rationale",
    litLabel "Audit", litLabel "Remediation", litLabel "Impact",
    litLabel "Default" ++ [LabelAtom.space] ++ litLabel "Value",
    litLabel "References",
    litLabel "CIS" ++ [LabelAtom.space] ++ litLabel "Controls" ]

/-- Matches a label at the start of the text; returns the text after it. -/
def matchLabel : List LabelAtom → Str → Option Str
  | [], s => some s
  | _ :: _, [] => none
  | LabelAtom.lit a :: as, c :: cs => if a = c then matchLabel as cs else none
  | LabelAtom.space :: as, c :: cs => if isSpaceRE c then matchLabel as cs else none

/-- The length of the match of one alternative `label\:\s+` at the start of
the text (the `\s+` is greedy), if it matches there. -/
def matchSectionAlt (label : List LabelAtom) (s : Str) : Option Nat :=
  match matchLabel label s with
  | some (':' :: rest) =>
    let ws := (rest.takeWhile isSpaceRE).length
    if 1 ≤ ws then some (label.length + 1 + ws) else none
  | _ => none

/-- The length of the match of `sectionRegex` that starts at the start of the
text: the first alternative, in pattern order, that matches. -/
def sectionRegexMatchLen (s : Str) : Option Nat :=
  sectionLabels.findSome? (fun label => matchSectionAlt label s)

/-- Worker of `sectionRegex`: scans from offset `pos`, passing over the
remaining `skip` characters of the match found last. -/
def sectionRegexScan : Nat → Nat → Str → List (Nat × Nat)
  | _, _, [] => []
  | skip + 1, pos, _ :: cs => sectionRegexScan skip (pos + 1) cs
  | 0, pos, c :: cs =>
    match sectionRegexMatchLen (c :: cs) with
    | some n => (pos, pos + n) :: sectionRegexScan (n - 1) (pos + 1) cs
    | none => sectionRegexScan 0 (pos + 1) cs

/-- Go `sectionRegex.FindAllStringSubmatchIndex(s, -1)`, each hit reduced to the
two indexes the program reads, `hit[0]` and `hit[1]`: start and end of the
successive non-overlapping leftmost matches. -/
def sectionRegex (s : Str) : List (Nat × Nat) := sectionRegexScan 0 0 s

/-- The Go slice expression `s[a:b]`. -/
def slice (s : Str) (a b : Nat) : Str := (s.drop a).take (b - a)

/-- Go `findNamedValuesByRegex(s, r)`; the pattern `r` is given by its
`FindAllStringSubmatchIndex`. -/
def findNamedValuesByRegex (s : Str) (r : Str → List (Nat × Nat)) : List namedValue :=
  let hits := r s
  (List.range hits.length).foldl
    (fun result h =>
      let hit := hits.getD h (0, 0)
      let name := slice s hit.1 hit.2
      let value :=
        if h ≠ hits.length - 1 then slice s hit.2 (hits.getD (h + 1) (0, 0)).1
        else s.drop hit.2
      result ++ [{ name := name, value := value }])
    []

/-- Go `sectionKeyName`. -/
def sectionKeyName (name : Str) : Str :=
  let key := toLower (stringsTrim name " :\t\n".toList)
  whitespaceReplaceAll key "_".toList

/-! ## `sectionContent` -/

/-- Go `nonASCIIRegex.ReplaceAllLiteralString(s, "")` for `[[:^ascii:]]`. -/
def removeNonASCII (s : Str) : Str := s.filter (fun c => decide (c.toNat ≤ 0x7F))

/-- The match of `(\r\n?|\n){3,}` at the start of the text, searched in the
order of a backtracking matcher: a line break `\r\n` is tried before `\r`,
one more repetition before stopping, and stopping needs three repetitions.
`count` repetitions are done, `last` is the text of the latest one (group 1).
Returns group 1 and the text after the match. -/
def linebreakMatch : Nat → Nat → Str → Str → Option (Str × Str)
  | 0, count, last, s => if 3 ≤ count then some (last, s) else none
  | fuel + 1, count, last, s =>
    let stop : Option (Str × Str) := if 3 ≤ count then some (last, s) else none
    match s with
    | [] => stop
    | c :: t =>
      if c = '\r' then
        match t with
        | d :: u =>
          if d = '\n' then
            ((linebreakMatch fuel (count + 1) ['\r', '\n'] u).orElse
              (fun _ => linebreakMatch fuel (count + 1) ['\r'] t)).orElse (fun _ => stop)
          else (linebreakMatch fuel (count + 1) ['\r'] t).orElse (fun _ => stop)
        | [] => (linebreakMatch fuel (count + 1) ['\r'] t).orElse (fun _ => stop)
      else if c = '\n' then (linebreakMatch fuel (count + 1) ['\n'] t).orElse (fun _ => stop)
      else stop

/-- Worker of `reduceLinebreaks`. -/
def reduceLinebreaksAux : Nat → Str → Str
  | _, [] => []
  | skip + 1, _ :: cs => reduceLinebreaksAux skip cs
  | 0, c :: cs =>
    match linebreakMatch (cs.length + 2) 0 [] (c :: cs) with
    | some (last, rest) => last ++ reduceLinebreaksAux (cs.length - rest.length) cs
    | none => c :: reduceLinebreaksAux 0 cs

/-- Go `reduceLinebreakRegex.ReplaceAllString(s, "$1")`: each match is replaced
by its group 1, the line break matched last. -/
def reduceLinebreaks (s : Str) : Str := reduceLinebreaksAux 0 s

/-- Go `sectionContent`; the flag `*trimBreaks` is a parameter. -/
def sectionContent (trimBreaks : Bool) (content : Str) : Str :=
  let content := trimSpace (removeNonASCII content)
  let content := reduceLinebreaks content
  if trimBreaks then replaceWhitespaces content else content

/-! ## `populateRules` -/

/-- The text after the first occurrence of `pat`. -/
def afterFirst (pat : Str) : Str → Option Str
  | [] => if pat.isPrefixOf [] then some [] else none
  | c :: cs => if pat.isPrefixOf (c :: cs) then some ((c :: cs).drop pat.length) else afterFirst pat cs

/-- The text before the first occurrence of `pat`. -/
def beforeFirst (pat : Str) : Str → Option Str
  | [] => if pat.isPrefixOf [] then some [] else none
  | c :: cs => if pat.isPrefixOf (c :: cs) then some [] else (beforeFirst pat cs).map (fun r => c :: r)

/-- Go `finalRegexString`: the span pattern built from the two headings. -/
def finalRegexString (sectionTitle nextSectionTitle : Str) : Str :=
  let regEscape1 := quoteMeta sectionTitle
  let regEscape2 := quoteMeta nextSectionTitle
  let s := replaceAll
    ("(?<=".toList ++ regEscape1 ++ "\\n)(?:(?:.|\\n|\\r)*?)(?=".toList ++ regEscape2 ++ ")".toList)
    "\r\n".toList "\\r\\n".toList
  replaceAll s "\n".toList "\\n".toList

/-- Go `searchRegex.FindStringMatch(content)` and `match.String()` for the
pattern `(?<=T\n)(?:(?:.|\n|\r)*?)(?=N)` with the literal texts `T`
(`sectionTitle`) and `N` (`nextSectionTitle`): the match starts at the first
position preceded by `T` and a line feed and lazily extends to the first
position from there on where `N` follows; `none` is the `nil` match. -/
def searchRegexFind (sectionTitle nextSectionTitle content : Str) : Option Str :=
  (afterFirst (sectionTitle ++ ['\n']) content).bind (beforeFirst nextSectionTitle)

/-- The variables of `populateRules` that its loop changes. -/
structure PopState where
  rules : List Rule
  ruleErrors : List Str
  sectionErrors : List Str
deriving DecidableEq, Repr

/-- The inner loop of `populateRules` over the body headings:
`(sectionTitle, nextSectionTitle)` for the rule `ruleID`, where `isLast` is
`i == len(rulesIn)-1` and `nextID` is `rulesIn[i+1].ID`. -/
def findSectionTitles (sectionTitles : List Str) (ruleID : Str) (isLast : Bool) (nextID : Str) :
    Str × Str :=
  sectionTitles.foldl
    (fun acc sv =>
      let sectionTitle := if hasPrefix sv (ruleID ++ " ".toList) then sv else acc.1
      let nextSectionTitle :=
        if isLast then "Appendix:".toList
        else if hasPrefix sv (nextID ++ " ".toList) then sv else acc.2
      (sectionTitle, nextSectionTitle))
    ([], [])

/-- The body of the outer loop of `populateRules` for one rule, where
`isLast` is `i == len(rulesIn)-1` and `nextID` is `rulesIn[i+1].ID`: the rule
as the iteration leaves it, what it appends to `ruleErrors`, and what it
appends to `sectionErrors`. -/
def populateRule (sectionTitles : List Str) (ruleIDToName : StrMap) (content : Str)
    (noRuleRegexClean : CleanRegexp) (trimBreaks : Bool) (rule : Rule) (isLast : Bool)
    (nextID : Str) : Rule × List Str × List Str :=
  let ruleID := rule.ID
  let rule := { rule with Location := getRuleLocation ruleIDToName ruleID }
  let titles := findSectionTitles sectionTitles ruleID isLast nextID
  let finalRegex := finalRegexString titles.1 titles.2
  match searchRegexFind titles.1 titles.2 content with
  | none => (rule, [], [finalRegex])
  | some span =>
    let sections := findNamedValuesByRegex span sectionRegex
    if sections.length = 0 then (rule, [rule.ID], [])
    else
      let secs := sections.foldl
        (fun m sec =>
          mapSet m (sectionKeyName sec.name)
            (noRuleRegexClean.replaceAllEmpty (sectionContent trimBreaks sec.value)))
        rule.Sections
      ({ rule with Sections := secs }, [], [])

/-- Go `rulesIn[i+1].ID`, read only when rule `i` is not the last one. -/
def nextRuleID (rules : List Rule) (i : Nat) : Str :=
  match rules[i + 1]? with
  | some next => next.ID
  | none => []

/-- One iteration `i` of the outer loop of `populateRules`. -/
def populateStep (sectionTitles : List Str) (ruleIDToName : StrMap) (content : Str)
    (noRuleRegexClean : CleanRegexp) (trimBreaks : Bool) (st : PopState) (i : Nat) : PopState :=
  match st.rules[i]? with
  | none => st
  | some rule =>
    let out := populateRule sectionTitles ruleIDToName content noRuleRegexClean trimBreaks rule
      (decide (i = st.rules.length - 1)) (nextRuleID st.rules i)
    { rules := st.rules.set i out.1
      ruleErrors := st.ruleErrors ++ out.2.1
      sectionErrors := st.sectionErrors ++ out.2.2 }

/-- Go `populateRules`: `(rulesOut, ruleErrors, sectionErrors)`. -/
def populateRules (rulesIn : List Rule) (sectionTitles : List Str) (ruleIDToName : StrMap)
    (content : Str) (noRuleRegexClean : CleanRegexp) (trimBreaks : Bool) :
    List Rule × List Str × List Str :=
  let st := (List.range rulesIn.length).foldl
    (populateStep sectionTitles ruleIDToName content noRuleRegexClean trimBreaks)
    { rules := rulesIn, ruleErrors := [], sectionErrors := [] }
  (st.rules, st.ruleErrors, st.sectionErrors)

/-! ## `cropTitles` -/

/-- The digit class of `regexp2` patterns on ASCII text, `0`-`9`.  (The class
also holds the decimal digits of other scripts; the embedding is exact on
text whose digits are ASCII.) -/
def isDigitNet (c : Char) : Bool := c.isDigit

/-- The class `[1-9]` of the lookbehind of `titleCropRegex`. -/
def isDigit19 (c : Char) : Bool := decide ('1' ≤ c ∧ c ≤ '9')

/-- An optional leading character of a class, taken when it is there. -/
def skipOptional (p : Char → Bool) : Str → Str
  | [] => []
  | c :: cs => if p c then cs else c :: cs

/-- The match of `\s?[.]+\s?[\d]+$` at the start of the text, as `regexp2`
finds it: an optional whitespace character, all the dots that follow, an
optional whitespace character, all the digits that follow, and then the end
of the text or a line feed that ends the text.  No other split can match,
since a dot is no whitespace and a digit is no dot.  Returns the text left
after the match. -/
def titleCropMatch (s : Str) : Option Str :=
  let s1 := skipOptional isUnicodeSpace s
  let dots := s1.takeWhile (fun c => c = '.')
  let s2 := s1.dropWhile (fun c => c = '.')
  let s3 := skipOptional isUnicodeSpace s2
  let digits := s3.takeWhile isDigitNet
  let s4 := s3.dropWhile isDigitNet
  if 1 ≤ dots.length ∧ 1 ≤ digits.length ∧ (s4 = [] ∨ s4 = ['\n']) then some s4 else none

/-- Worker of `titleCropRegexReplace`; `prev19` says that the previous
character is one of `1`-`9`, where the lookbehind `(?<![1-9])` forbids a
match to start. -/
def titleCropRegexReplaceAux : Bool → Str → Str
  | _, [] => []
  | prev19, c :: cs =>
    if prev19 then c :: titleCropRegexReplaceAux (isDigit19 c) cs
    else
      match titleCropMatch (c :: cs) with
      | some rest => rest
      | none => c :: titleCropRegexReplaceAux (isDigit19 c) cs

/-- Go `titleCropRegex.Replace(s, "", 0, -1)` for
`(?<![1-9])\s?[.]+\s?[\d]+$`: the leftmost match is removed; it ends the
text, so there is no further match. -/
def titleCropRegexReplace (s : Str) : Str := titleCropRegexReplaceAux false s

/-- The text is a match of `\s?[\d]+` up to its end. -/
def isTrailingNumber (rest : Str) : Bool :=
  let r := skipOptional isSpaceRE rest
  !r.isEmpty && r.all isDigitRE

/-- Group 1 of `titleCropRegex2`, `^(.+?)(?:\s?[\d]+$)?$`: the shortest
non-empty beginning without line feed after which the text ends or only a
trailing number follows; `none` when the pattern does not match. -/
def titleCropRegex2Group1 : Str → Option Str
  | [] => none
  | c :: cs =>
    if c = '\n' then none
    else if cs.isEmpty || isTrailingNumber cs then some [c]
    else (titleCropRegex2Group1 cs).map (fun g => c :: g)

/-- The body of the loop of `cropTitles` for one title; `none` stands for the
run-time panic of `FindStringSubmatch(...)[1]` when `titleCropRegex2` does
not match. -/
def cropTitle (s : Str) : Option Str :=
  let s := titleCropRegexReplace s
  let s := replaceAll s "\r\n".toList "\n".toList
  let s := replaceAll s "\n".toList " ".toList
  titleCropRegex2Group1 s

/-- Go `cropTitles`. -/
def cropTitles : List Str → Option (List Str)
  | [] => some []
  | s :: rest =>
    match cropTitle s with
    | none => none
    | some t => (cropTitles rest).map (fun ts => t :: ts)

/-! ## `writeResultFile`: the CSV records -/

/-- The list `sectionNames` of `writeResultFile`. -/
def sectionNames : List Str :=
  [ "Profile Applicability".toList, "Description".toList, "Rationale".toList, "Audit".toList,
    "Remediation".toList, "Impact".toList, "Default Value".toList, "References".toList,
    "CIS Controls".toList ]

/-- The header loop of `writeResultFile`: the first record with the section
names appended, and the list `sectionKeyNames`. -/
def csvHeaderLoop : List Str × List Str :=
  sectionNames.foldl
    (fun acc sec => (acc.1 ++ [sec], acc.2 ++ [sectionKeyName sec]))
    (["ID".toList, "Name".toList, "Location".toList, "Automated".toList], [])

/-- Go `fmt.Sprintf("%t", b)`. -/
def sprintfBool (b : Bool) : Str := if b then "true".toList else "false".toList

/-- The location string that `writeResultFile` builds for a rule. -/
def locationString (location : List Location) : Str :=
  let locationstr := location.foldl
    (fun acc l => acc ++ l.ID ++ " ".toList ++ l.Name ++ ", ".toList) []
  trimSuffix locationstr ", ".toList

/-- The CSV record that `writeResultFile` builds for a rule. -/
def csvRecord (sectionKeyNames : List Str) (rule : Rule) : List Str :=
  let csvrecord := [rule.ID, rule.Name]
  let csvrecord := csvrecord ++ [locationString rule.Location]
  let csvrecord := csvrecord ++ [sprintfBool rule.Automated]
  sectionKeyNames.foldl
    (fun acc sectionKey =>
      match mapGet rule.Sections sectionKey with
      | some val => acc ++ [val]
      | none => acc ++ [" ".toList])
    csvrecord

/-- A compiled `regexp2` pattern, given by what the function reads of it: the
texts `m.String()` of the successive matches that `FindStringMatch` and
`FindNextMatch` yield on an input, in order. -/
abbrev Regexp2 := Str → List Str

/-- Go `regexp2FindAllString`: the loop appends the text of every match; the
final test reads `matches[0]` and `matches[len(matches)-1]`, which panics on
an empty slice (the value `none`), and drops the last element when the two
are equal. -/
def regexp2FindAllString (re : Regexp2) (s : Str) : Option (List Str) :=
  let matches_ := (re s).foldl (fun acc m => acc ++ [m]) []
  match matches_.head?, matches_.getLast? with
  | some first, some last => if first = last then some matches_.dropLast else some matches_
  | _, _ => none

/-- The `regexp2` pattern `[0-9]`: its successive matches are the digits of
the input, one character each. -/
def digitPattern : Regexp2 := fun s => (s.filter isDigitRE).map (fun c => [c])

/-! ## Auxiliary notions used in the statements -/

/-- The entries of `findNamedValuesByRegex` as the specification words them:
one entry per match, named by the matched text, holding the text from the end
of the match to the start of the next match, or to the end of the span for
the last match. -/
def namedValuesOfHits (s : Str) : List (Nat × Nat) → List namedValue
  | [] => []
  | [hit] => [{ name := slice s hit.1 hit.2, value := s.drop hit.2 }]
  | hit :: next :: rest =>
    { name := slice s hit.1 hit.2, value := slice s hit.2 next.1 }
      :: namedValuesOfHits s (next :: rest)

/-- The rule without content that `getD` falls back to. -/
def emptyRule : Rule := { ID := [], Name := [], Automated := false, Location := [], Sections := [] }

/-- The two headings `(sectionTitle, nextSectionTitle)` that `populateRules`
picks for rule `i` of `rulesIn`. -/
def ruleHeadings (rulesIn : List Rule) (sectionTitles : List Str) (i : Nat) : Str × Str :=
  findSectionTitles sectionTitles (rulesIn.getD i emptyRule).ID
    (decide (i = rulesIn.length - 1)) (nextRuleID rulesIn i)

/-- What the loop body of `populateRules` yields for rule `i` of `rulesIn`. -/
def ruleOutcome (sectionTitles : List Str) (ruleIDToName : StrMap) (content : Str)
    (noRuleRegexClean : CleanRegexp) (trimBreaks : Bool) (rulesIn : List Rule) (i : Nat) :
    Rule × List Str × List Str :=
  populateRule sectionTitles ruleIDToName content noRuleRegexClean trimBreaks
    (rulesIn.getD i emptyRule) (decide (i = rulesIn.length - 1)) (nextRuleID rulesIn i)

/-- The span of rule `i` in the body text, `none` when it is not found. -/
def ruleSpan (rulesIn : List Rule) (sectionTitles : List Str) (content : Str) (i : Nat) :
    Option Str :=
  searchRegexFind (ruleHeadings rulesIn sectionTitles i).1
    (ruleHeadings rulesIn sectionTitles i).2 content

/-- Puts a text in front of the first alternative. -/
def prependFirst (l : Str) : List Str → List Str
  | [] => [l]
  | p :: ps => (l ++ p) :: ps

/-- The `<id> <name>` texts of the titles that `splitTitle` does not classify
as rules (the chapter entries), in title order. -/
def chapterTexts (titles : List Str) : List Str :=
  titles.filterMap (fun t =>
    if (splitTitle t).isActualRule then none
    else some ((splitTitle t).id ++ " ".toList ++ (splitTitle t).name))

/-- The nine section keys of the output. -/
def sectionKeys : List Str :=
  [ "profile_applicability".toList, "description".toList, "rationale".toList, "audit".toList,
    "remediation".toList, "impact".toList, "default_value".toList, "references".toList,
    "cis_controls".toList ]

/-- The characters of the class `\s`. -/
def spaceChars : List Char := ['\t', '\n', '\x0c', '\r', ' ']

/-- The texts that a label of `sectionRegex` matches. -/
def labelTexts : List LabelAtom → List Str
  | [] => [[]]
  | LabelAtom.lit a :: as => (labelTexts as).map (fun t => a :: t)
  | LabelAtom.space :: as => spaceChars.flatMap (fun c => (labelTexts as).map (fun t => c :: t))

/-- The rule that `prepareRules` builds from a title classified as a rule. -/
def ruleOfTitle (t : Str) : Rule :=
  { ID := (splitTitle t).id, Name := (splitTitle t).name, Automated := (splitTitle t).automated,
    Location := [], Sections := [] }

/-- The titles that `splitTitle` classifies as rules, in title order. -/
def ruleTitles (titles : List Str) : List Str :=
  titles.filter (fun t => (splitTitle t).isActualRule)

/-- The section cells of a CSV record as the amended C18 words them: for each
of the nine keys the stored text, or a single space when the key is missing. -/
def sectionCells (sections : StrMap) : List Str :=
  sectionKeys.map (fun k =>
    match mapGet sections k with
    | some val => val
    | none => " ".toList)

/-- One location entry as the CSV shows it, `id name`. -/
def renderLocation (l : Location) : Str := l.ID ++ " ".toList ++ l.Name

/-- The function `sectionKeyName` with the rune mapping of `strings.ToLower`
as a parameter: `sectionKeyName` is `sectionKeyNameWith Char.toLower`. -/
def sectionKeyNameWith (lower : Char → Char) (name : Str) : Str :=
  whitespaceReplaceAll ((stringsTrim name " :\t\n".toList).map lower) "_".toList

/-- What a maximal run of `n` line feeds becomes: one line feed when the run
has three or more, the run itself otherwise. -/
def lineFeedRun (n : Nat) : Str := if 3 ≤ n then ['\n'] else List.replicate n '\n'

/-- Worker of `collapseLineFeeds`; `n` line feeds of the current run have
been read. -/
def collapseLineFeedsAux : Nat → Str → Str
  | n, [] => lineFeedRun n
  | n, c :: cs =>
    if c = '\n' then collapseLineFeedsAux (n + 1) cs
    else lineFeedRun n ++ c :: collapseLineFeedsAux 0 cs

/-- The text with every maximal run of three or more line feeds replaced by
one line feed, and the shorter runs kept. -/
def collapseLineFeeds (s : Str) : Str := collapseLineFeedsAux 0 s

/-- The text with every line feed written as the two characters `\n`, and
every carriage return that stands before a line feed written as the two
characters `\r`. -/
def escapeLineBreaks : Str → Str
  | [] => []
  | c :: cs =>
    if c = '\n' then '\\' :: 'n' :: escapeLineBreaks cs
    else if c = '\r' ∧ cs.head? = some '\n' then '\\' :: 'r' :: escapeLineBreaks cs
    else c :: escapeLineBreaks cs

/-- A text without a border: no proper non-empty ending of it is also a
beginning of it. -/
def unbordered (s : Str) : Bool :=
  (List.range s.length).all (fun k => k == 0 || !(s.drop k).isPrefixOf s)


/-! ## Lemmas on the `strings` helpers -/

theorem stringsSplit_ne_nil (s : Str) (c : Char) : stringsSplit s c ≠ [] := by
  induction s with
  | nil => simp [stringsSplit]
  | cons a t ih =>
    simp only [stringsSplit]
    split
    · simp
    · split <;> simp

theorem stringsJoin_split (s : Str) (c : Char) : stringsJoin (stringsSplit s c) [c] = s := by
  induction s with
  | nil => simp [stringsSplit, stringsJoin]
  | cons a t ih =>
    simp only [stringsSplit]
    split
    · rename_i h
      subst h
      cases hs : stringsSplit t a with
      | nil => exact absurd hs (stringsSplit_ne_nil t a)
      | cons p ps =>
        rw [hs] at ih
        simp [stringsJoin, ih]
    · cases hs : stringsSplit t c with
      | nil => exact absurd hs (stringsSplit_ne_nil t c)
      | cons p ps =>
        rw [hs] at ih
        cases ps with
        | nil => simpa [stringsJoin] using ih
        | cons q qs => simp only [stringsJoin] at ih ⊢; simp [← ih]

theorem stringsSplit_of_not_mem (a : Str) (c : Char) (h : c ∉ a) : stringsSplit a c = [a] := by
  induction a with
  | nil => simp [stringsSplit]
  | cons x t ih =>
    have hx : x ≠ c := fun e => h (by simp [e])
    have ht : c ∉ t := fun e => h (by simp [e])
    simp [stringsSplit, hx, ih ht]

theorem stringsSplit_append (a rest : Str) (c : Char) (h : c ∉ a) :
    stringsSplit (a ++ c :: rest) c = a :: stringsSplit rest c := by
  induction a with
  | nil => simp [stringsSplit]
  | cons x t ih =>
    have hx : x ≠ c := fun e => h (by simp [e])
    have ht : c ∉ t := fun e => h (by simp [e])
    simp [stringsSplit, hx, ih ht]

theorem stringsJoin_take_drop (sep : Str) (parts : List Str) (k : Nat) (hk : 0 < k)
    (hlt : k < parts.length) :
    stringsJoin (parts.take k) sep ++ sep ++ stringsJoin (parts.drop k) sep
      = stringsJoin parts sep := by
  induction parts generalizing k with
  | nil => simp at hlt
  | cons a t ih =>
    cases t with
    | nil => simp at hlt; omega
    | cons b u =>
      cases k with
      | zero => omega
      | succ j =>
        cases j with
        | zero => simp [stringsJoin]
        | succ i =>
          have h2 := ih (i + 1) (by omega) (by simpa using hlt)
          simp only [List.take_succ_cons, List.drop_succ_cons] at h2 ⊢
          simp only [stringsJoin]
          rw [← h2]
          simp [List.append_assoc]

theorem getRuleLocation_foldl (m : StrMap) (parts : List Str) (l : List Nat) (init : List Location) :
    l.foldl
      (fun loc i =>
        match mapGet m (stringsJoin (parts.take (i + 1)) ['.']) with
        | some parentName =>
          loc ++ [{ ID := stringsJoin (parts.take (i + 1)) ['.'], Name := parentName }]
        | none => loc)
      init
    = init ++ l.filterMap (fun i =>
        (mapGet m (stringsJoin (parts.take (i + 1)) ['.'])).map
          (fun nm => { ID := stringsJoin (parts.take (i + 1)) ['.'], Name := nm })) := by
  induction l generalizing init with
  | nil => simp
  | cons i t ih =>
    simp only [List.foldl_cons, List.filterMap_cons]
    rw [ih]
    cases mapGet m (stringsJoin (parts.take (i + 1)) ['.']) <;> simp

theorem getRuleLocation_eq_locationSpec (m : StrMap) (r : Str) :
    getRuleLocation m r = locationSpec m r := by
  unfold getRuleLocation locationSpec
  simp only []
  rw [getRuleLocation_foldl, List.range'_eq_map_range, List.filterMap_map]
  simp only [List.nil_append]
  congr 1
  funext i
  simp [Function.comp, Nat.add_comm]

theorem mem_locationSpec (m : StrMap) (r : Str) (e : Location) (he : e ∈ locationSpec m r) :
    ∃ k, 0 < k ∧ k < (stringsSplit r '.').length ∧
      e.ID = stringsJoin ((stringsSplit r '.').take k) ['.'] ∧ mapGet m e.ID = some e.Name := by
  unfold locationSpec at he
  simp only [List.mem_filterMap, List.mem_range'_1] at he
  obtain ⟨k, ⟨hk1, hk2⟩, hm⟩ := he
  cases hg : mapGet m (stringsJoin ((stringsSplit r '.').take k) ['.']) with
  | none => simp [hg] at hm
  | some nm =>
    simp [hg] at hm
    refine ⟨k, by omega, by omega, ?_, ?_⟩
    · rw [← hm]
    · rw [← hm]; exact hg

theorem stringsJoin_take_length_lt (parts : List Str) (k k' : Nat) (hk : 0 < k) (hkk : k < k')
    (hk' : k' ≤ parts.length) :
    (stringsJoin (parts.take k) ['.']).length < (stringsJoin (parts.take k') ['.']).length := by
  have h := stringsJoin_take_drop ['.'] (parts.take k') k hk (by simp; omega)
  rw [List.take_take, Nat.min_eq_left (Nat.le_of_lt hkk)] at h
  rw [← h]
  simp

/-- C1: `getRuleLocation` returns, in increasing prefix length, exactly the
proper dotted prefixes `p1.….pk` (`k = 1 .. n-1`) of the rule ID that are keys
of the map, each with its name from the map; the rule ID itself never
appears, an absent prefix yields no entry, for `a.b.c` with `a` and `a.b` in
the map the result is `[(a, m[a]), (a.b, m[a.b])]`, and an ID without a dot
has the empty location. -/
theorem getRuleLocation_spec (m : StrMap) (r : Str) :
    getRuleLocation m r = locationSpec m r ∧
    (∀ e ∈ getRuleLocation m r,
        mapGet m e.ID = some e.Name ∧ e.ID ≠ r ∧ (e.ID ++ ['.']) <+: r) ∧
    (getRuleLocation m r).Pairwise (fun x y => x.ID.length < y.ID.length) ∧
    (∀ a b c na nb, '.' ∉ a → '.' ∉ b → '.' ∉ c → r = a ++ '.' :: (b ++ '.' :: c) →
        mapGet m a = some na → mapGet m (a ++ '.' :: b) = some nb →
        getRuleLocation m r = [⟨a, na⟩, ⟨a ++ '.' :: b, nb⟩]) ∧
    ('.' ∉ r → getRuleLocation m r = []) := by
  refine ⟨getRuleLocation_eq_locationSpec m r, ?_, ?_, ?_, ?_⟩
  · intro e he
    rw [getRuleLocation_eq_locationSpec] at he
    obtain ⟨k, hk0, hkn, hid, hget⟩ := mem_locationSpec m r e he
    have hj := stringsJoin_take_drop ['.'] (stringsSplit r '.') k hk0 hkn
    rw [stringsJoin_split, ← hid] at hj
    refine ⟨hget, ?_, ?_⟩
    · intro heq
      have hl := congrArg List.length hj
      rw [heq] at hl
      simp at hl
    · exact ⟨stringsJoin (List.drop k (stringsSplit r '.')) ['.'], hj⟩
  · rw [getRuleLocation_eq_locationSpec]
    unfold locationSpec
    simp only []
    rw [List.pairwise_filterMap]
    refine List.Pairwise.imp_of_mem ?_ (List.pairwise_lt_range' 1 ((stringsSplit r '.').length - 1))
    intro k k' hk hk' hlt b hb b' hb'
    simp only [List.mem_range'_1] at hk hk'
    simp only [Option.mem_def, Option.map_eq_some'] at hb hb'
    obtain ⟨_, _, rfl⟩ := hb
    obtain ⟨_, _, rfl⟩ := hb'
    exact stringsJoin_take_length_lt _ k k' (by omega) hlt (by omega)
  · intro a b c na nb ha hb hc hr hma hmb
    subst hr
    unfold getRuleLocation
    simp only []
    rw [stringsSplit_append a _ '.' ha, stringsSplit_append b _ '.' hb,
      stringsSplit_of_not_mem c '.' hc]
    simp [List.range_succ, stringsJoin, hma, hmb]
  · intro hr
    unfold getRuleLocation
    simp only []
    rw [stringsSplit_of_not_mem r '.' hr]
    simp

/-- Witness for C1 on the map `1 ↦ A, 1.2 ↦ B` and the rule ID `1.2.3`. -/
theorem getRuleLocation_spec_witness :
    getRuleLocation [("1".toList, "A".toList), ("1.2".toList, "B".toList)] "1.2.3".toList
      = [⟨"1".toList, "A".toList⟩, ⟨"1.2".toList, "B".toList⟩] :=
  (getRuleLocation_spec [("1".toList, "A".toList), ("1.2".toList, "B".toList)] "1.2.3".toList).2.2.2.1
    "1".toList "2".toList "3".toList "A".toList "B".toList
    (by decide) (by decide) (by decide) (by decide) (by decide) (by decide)

/-! ## `splitTitle`: classification -/

theorem hasSuffixAny_iff (t : Str) (l : List Str) :
    hasSuffixAny t l = true ↔ ∃ s ∈ l, s <:+ t := by
  induction l with
  | nil => simp [hasSuffixAny]
  | cons a rest ih =>
    simp only [hasSuffixAny, hasSuffix]
    by_cases h : a.isSuffixOf t = true
    · simp only [h, if_true, true_iff]
      exact ⟨a, by simp, List.isSuffixOf_iff_suffix.mp h⟩
    · simp only [h, if_false, ih, List.mem_cons, Bool.false_eq_true]
      constructor
      · rintro ⟨s, hs, hst⟩
        exact ⟨s, Or.inr hs, hst⟩
      · rintro ⟨s, hs | hs, hst⟩
        · subst hs
          exact absurd (List.isSuffixOf_iff_suffix.mpr hst) h
        · exact ⟨s, hs, hst⟩

theorem splitTitle_isActualRule (title : Str) :
    (splitTitle title).isActualRule = hasSuffixAny title rStr := by
  unfold splitTitle
  simp only []
  split <;> rfl

theorem splitTitle_automated (title : Str) :
    (splitTitle title).automated
      = (hasSuffixAny title rStr && hasSuffixAny title (rStr.take 2)) := by
  unfold splitTitle
  simp only []
  split <;> rfl

theorem splitTitle_err (title : Str) : (splitTitle title).err = none := by
  unfold splitTitle
  simp only []
  split <;> rfl

/-- No status suffix is a suffix of another one. -/
theorem rStr_suffix_eq : ∀ s ∈ rStr, ∀ s' ∈ rStr, s <:+ s' → s = s' := by
  decide

theorem rStr_unique_suffix (t s s' : Str) (hs : s ∈ rStr) (hs' : s' ∈ rStr)
    (h : s <:+ t) (h' : s' <:+ t) : s = s' := by
  rcases Nat.le_total s.length s'.length with hl | hl
  · exact rStr_suffix_eq s hs s' hs' (List.suffix_of_suffix_length_le h h' hl)
  · exact (rStr_suffix_eq s' hs' s hs (List.suffix_of_suffix_length_le h' h hl)).symm

/-- C3: `splitTitle` reports an actual rule exactly for the titles that end
with one of `(Automated)`, `(Scored)`, `(Manual)`, `(Not Scored)`, and an
automated one exactly for those that end with `(Automated)` or `(Scored)`;
a title ending in `(Manual)` or `(Not Scored)` is a rule that is not
automated, and `1 Initial Setup` is not a rule. -/
theorem splitTitle_classification (title : Str) :
    ((splitTitle title).isActualRule = true ↔
      ("(Automated)".toList <:+ title ∨ "(Scored)".toList <:+ title ∨
        "(Manual)".toList <:+ title ∨ "(Not Scored)".toList <:+ title)) ∧
    ((splitTitle title).automated = true ↔
      ("(Automated)".toList <:+ title ∨ "(Scored)".toList <:+ title)) ∧
    (("(Manual)".toList <:+ title ∨ "(Not Scored)".toList <:+ title) →
      (splitTitle title).isActualRule = true ∧ (splitTitle title).automated = false) ∧
    (splitTitle "1 Initial Setup".toList).isActualRule = false := by
  have hrule : (splitTitle title).isActualRule = true ↔
      ("(Automated)".toList <:+ title ∨ "(Scored)".toList <:+ title ∨
        "(Manual)".toList <:+ title ∨ "(Not Scored)".toList <:+ title) := by
    rw [splitTitle_isActualRule, hasSuffixAny_iff]
    simp [rStr]
  have hauto : (splitTitle title).automated = true ↔
      ("(Automated)".toList <:+ title ∨ "(Scored)".toList <:+ title) := by
    rw [splitTitle_automated, Bool.and_eq_true, hasSuffixAny_iff, hasSuffixAny_iff]
    simp only [rStr, List.take, List.mem_cons, List.mem_singleton, exists_eq_or_imp,
      exists_eq_left, List.not_mem_nil, false_and, exists_false, or_false]
    tauto
  refine ⟨hrule, hauto, ?_, by decide⟩
  intro h
  refine ⟨hrule.mpr (by tauto), ?_⟩
  cases hb : (splitTitle title).automated with
  | false => rfl
  | true =>
    exfalso
    have ha := hauto.mp hb
    have key : ∀ s ∈ rStr, ∀ s' ∈ rStr, s <:+ title → s' <:+ title → s = s' :=
      fun s hs s' hs' => rStr_unique_suffix title s s' hs hs'
    rcases h with h | h <;> rcases ha with ha | ha
    · exact absurd (key _ (by decide) _ (by decide) h ha) (by decide)
    · exact absurd (key _ (by decide) _ (by decide) h ha) (by decide)
    · exact absurd (key _ (by decide) _ (by decide) h ha) (by decide)
    · exact absurd (key _ (by decide) _ (by decide) h ha) (by decide)

/-- Witness for C3 on the title `1.1 Some Control (Manual)`. -/
theorem splitTitle_classification_witness :
    (splitTitle "1.1 Some Control (Manual)".toList).isActualRule = true ∧
    (splitTitle "1.1 Some Control (Manual)".toList).automated = false :=
  (splitTitle_classification "1.1 Some Control (Manual)".toList).2.2.1
    (Or.inl (List.isSuffixOf_iff_suffix.mp (by decide)))

/-- C5: on a title the ID/name pattern does not match, `splitTitle` returns
no error (its `err` result is `nil` for every title), and for
`Foo (Automated)` the flags `isActualRule` and `automated` come back `true`
next to the empty id and name. -/
theorem splitTitle_failed_match_returns_nil_error :
    (∀ title, (splitTitle title).err = none) ∧
    titleIDRegexFindStringSubmatch "Foo ".toList = none ∧
    splitTitle "Foo (Automated)".toList
      = { id := [], name := [], isActualRule := true, automated := true, err := none } := by
  refine ⟨splitTitle_err, by decide, by decide⟩

/-- C4: `prepareRules` does not skip a title that cannot be split.  For the
titles `Foo` and `Bar (Manual)`, neither of which the ID/name pattern
matches, the map gets the entry `"" ↦ ""`, a rule with empty ID and name is
appended, the chapter count is 1 and the cleanup pattern gets the
alternative `" "`. -/
theorem prepareRules_keeps_unsplittable_titles :
    (splitTitle "Foo".toList).id = [] ∧ (splitTitle "Bar (Manual)".toList).id = [] ∧
    prepareRules ["Foo".toList, "Bar (Manual)".toList]
      = (1, [([], [])],
          { source := "( )[\\s\\S]*".toList, alts := [" ".toList] },
          [{ ID := [], Name := [], Automated := false, Location := [], Sections := [] }]) := by
  refine ⟨by decide, by decide, by decide⟩

/-! ## `splitTitle`: id and name of a well-formed rule title -/

theorem replaceAllAux_skip_all (old new : Str) (n : Nat) (s : Str) (h : s.length ≤ n) :
    replaceAllAux old new n s = [] := by
  induction s generalizing n with
  | nil => cases n <;> simp [replaceAllAux]
  | cons c cs ih =>
    cases n with
    | zero => simp at h
    | succ k =>
      simp only [replaceAllAux]
      exact ih k (by simpa using h)

theorem replaceAll_self (old : Str) : replaceAll old old [] = [] := by
  cases old with
  | nil => simp [replaceAll, replaceAllAux]
  | cons c cs =>
    have hp : (c :: cs).isPrefixOf (c :: cs) = true :=
      List.isPrefixOf_iff_prefix.mpr (List.prefix_refl _)
    unfold replaceAll
    simp only [replaceAllAux, hp, if_true, List.nil_append]
    exact replaceAllAux_skip_all _ _ _ _ (by simp)

/-- Removing every occurrence of `old` from `a ++ old` leaves `a` when `old`
occurs at no earlier place. -/
theorem replaceAll_append_self (old a : Str)
    (h : ∀ a2, a2 ≠ [] → a2 <:+ a → ¬ old <+: a2 ++ old) :
    replaceAll (a ++ old) old [] = a := by
  induction a with
  | nil => simpa using replaceAll_self old
  | cons x t ih =>
    have hx : old.isPrefixOf (x :: (t ++ old)) = false := by
      cases hb : old.isPrefixOf (x :: (t ++ old)) with
      | false => rfl
      | true =>
        exact absurd (List.isPrefixOf_iff_prefix.mp hb)
          (h (x :: t) (by simp) (List.suffix_refl _))
    have iht := ih (fun a2 hne hsuf => h a2 hne (hsuf.trans (List.suffix_cons x t)))
    unfold replaceAll at iht ⊢
    show replaceAllAux old [] 0 (x :: (t ++ old)) = x :: t
    simp only [replaceAllAux, hx, Bool.false_eq_true, if_false, iht]

theorem no_early_occurrence (s a : Str) (hub : unbordered s = true) (hinf : ¬ s <:+: a) :
    ∀ a2, a2 ≠ [] → a2 <:+ a → ¬ s <+: a2 ++ s := by
  intro a2 hne hsuf hpre
  rcases Nat.lt_or_ge a2.length s.length with hlt | hge
  · have h1 : a2 <+: s :=
      List.prefix_of_prefix_length_le (List.prefix_append a2 s) hpre (Nat.le_of_lt hlt)
    obtain ⟨r, hr⟩ := h1
    have h2 : a2 ++ r <+: a2 ++ s := by rw [hr]; exact hpre
    have h3 : r <+: s := (List.prefix_append_right_inj a2).mp h2
    have hdrop : s.drop a2.length = r := by rw [← hr]; simp
    have hk : a2.length ∈ List.range s.length := List.mem_range.mpr hlt
    have hall := List.all_eq_true.mp hub a2.length hk
    have hpos : 0 < a2.length := List.length_pos.mpr hne
    have hb : (s.drop a2.length).isPrefixOf s = true := by
      rw [hdrop]; exact List.isPrefixOf_iff_prefix.mpr h3
    simp [hb] at hall
    first
      | omega
      | exact hne hall
  · have h1 : s <+: a2 :=
      List.prefix_of_prefix_length_le hpre (List.prefix_append a2 s) hge
    exact hinf (h1.isInfix.trans hsuf.isInfix)

theorem occurs_append_of_head_not_mem (h : Char) (tl x y : Str) (hx : h ∉ x)
    (hinf : (h :: tl) <:+: x ++ y) : (h :: tl) <:+: y := by
  induction x with
  | nil => simpa using hinf
  | cons a x' ih =>
    rw [List.cons_append, List.infix_cons_iff] at hinf
    rcases hinf with hpre | hrest
    · obtain ⟨r, hr⟩ := hpre
      simp only [List.cons_append, List.cons.injEq] at hr
      exact absurd (by simp [hr.1]) hx
    · exact ih (fun hm => hx (List.mem_cons_of_mem a hm)) hrest

theorem occurs_concat_of_last_ne (s y : Str) (c l : Char) (hl : s.getLast? = some l) (hne : l ≠ c)
    (hinf : s <:+: y ++ [c]) : s <:+: y := by
  obtain ⟨p, q, hpq⟩ := hinf
  rcases List.eq_nil_or_concat q with hq | ⟨q', d, hq⟩
  · subst hq
    simp only [List.append_nil] at hpq
    have h1 : (p ++ s).getLast? = some c := by rw [hpq]; simp
    have hsne : s ≠ [] := by
      intro h0; subst h0; simp at hl
    rw [List.getLast?_append_of_ne_nil p hsne, hl] at h1
    exact absurd (Option.some.inj h1) hne
  · subst hq
    have h2 : p ++ s ++ q' ++ [d] = y ++ [c] := by simpa [List.append_assoc] using hpq
    have h3 := List.append_inj_left' h2 (by simp)
    exact ⟨p, q', h3⟩

/-- What the proofs use of the four status suffixes. -/
theorem rStr_shape : ∀ s ∈ rStr,
    unbordered s = true ∧ s.head? = some '(' ∧ s.getLast? = some ')' := by
  decide

theorem isDigitRE_bounds (c : Char) (h : isDigitRE c = true) : 48 ≤ c.toNat ∧ c.toNat ≤ 57 := by
  unfold isDigitRE Char.isDigit at h
  simp only [Bool.and_eq_true, decide_eq_true_eq, ge_iff_le] at h
  have h1 : (48 : UInt32).toNat ≤ c.val.toNat := UInt32.le_def.mp h.1
  have h2 : c.val.toNat ≤ (57 : UInt32).toNat := UInt32.le_def.mp h.2
  exact ⟨h1, h2⟩

theorem isDigitRE_not_space (c : Char) (h : isDigitRE c = true) :
    isSpaceRE c = false ∧ isUnicodeSpace c = false ∧ c ≠ '(' ∧ c ≠ '\n' ∧ c ≠ '.' := by
  have hb := isDigitRE_bounds c h
  refine ⟨?_, ?_, ?_, ?_, ?_⟩
  · unfold isSpaceRE
    simp only [Bool.or_eq_false_iff, decide_eq_false_iff_not]
    refine ⟨⟨⟨⟨?_, ?_⟩, ?_⟩, ?_⟩, ?_⟩ <;> (rintro rfl; revert h; decide)
  · unfold isUnicodeSpace
    have hsp : c ≠ ' ' := by rintro rfl; revert h; decide
    simp only [Bool.or_eq_false_iff, Bool.and_eq_false_iff, decide_eq_false_iff_not, hsp,
      not_false_eq_true, and_true, true_and]
    omega
  · rintro rfl; revert h; decide
  · rintro rfl; revert h; decide
  · rintro rfl; revert h; decide

theorem titleIDScan_digits (g rest : Str) (pd : Bool) (hne : g ≠ [])
    (hd : ∀ c ∈ g, isDigitRE c = true) :
    titleIDScan pd (g ++ rest) = (g ++ (titleIDScan true rest).1, (titleIDScan true rest).2) := by
  induction g generalizing pd with
  | nil => exact absurd rfl hne
  | cons c t ih =>
    have hc : isDigitRE c = true := hd c (by simp)
    cases t with
    | nil => simp [titleIDScan, hc]
    | cons d u =>
      have h2 := ih true (by simp) (fun x hx => hd x (List.mem_cons_of_mem c hx))
      simp only [List.cons_append] at h2 ⊢
      simp only [titleIDScan, hc, if_true]
      simp only [titleIDScan] at h2
      rw [h2]

theorem titleIDScan_join (groups : List Str) (rest : Str) (pd : Bool) (hne : groups ≠ [])
    (hd : ∀ g ∈ groups, g ≠ [] ∧ ∀ c ∈ g, isDigitRE c = true) :
    titleIDScan pd (stringsJoin groups ['.'] ++ rest)
      = (stringsJoin groups ['.'] ++ (titleIDScan true rest).1, (titleIDScan true rest).2) := by
  induction groups generalizing pd with
  | nil => exact absurd rfl hne
  | cons g t ih =>
    have hg := hd g (by simp)
    cases t with
    | nil => simpa [stringsJoin] using titleIDScan_digits g rest pd hg.1 hg.2
    | cons g2 u =>
      have h2 := ih false (by simp) (fun x hx => hd x (List.mem_cons_of_mem g hx))
      have hdot : isDigitRE '.' = false := by decide
      simp only [stringsJoin, List.append_assoc]
      rw [titleIDScan_digits g _ pd hg.1 hg.2]
      simp only [List.singleton_append, titleIDScan, hdot, Bool.false_eq_true, if_false,
        decide_True, Bool.and_self, if_true]
      simp only [List.append_eq, List.nil_append]
      rw [h2]

theorem titleIDScan_space (rest : Str) :
    titleIDScan true (' ' :: rest) = ([], ' ' :: rest) := by
  have h1 : isDigitRE ' ' = false := by decide
  simp [titleIDScan, h1]

theorem stringsJoin_digits_chars (groups : List Str)
    (hd : ∀ g ∈ groups, g ≠ [] ∧ ∀ c ∈ g, isDigitRE c = true) :
    ∀ c ∈ stringsJoin groups ['.'], isDigitRE c = true ∨ c = '.' := by
  induction groups with
  | nil => simp [stringsJoin]
  | cons g t ih =>
    cases t with
    | nil =>
      intro c hc
      simp only [stringsJoin] at hc
      exact Or.inl ((hd g (by simp)).2 c hc)
    | cons g2 u =>
      intro c hc
      simp only [stringsJoin, List.mem_append, List.mem_singleton] at hc
      rcases hc with (hc | hc) | hc
      · exact Or.inl ((hd g (by simp)).2 c hc)
      · exact Or.inr hc
      · exact ih (fun x hx => hd x (List.mem_cons_of_mem g hx)) c hc

theorem stringsJoin_digits_head (groups : List Str) (hne : groups ≠ [])
    (hd : ∀ g ∈ groups, g ≠ [] ∧ ∀ c ∈ g, isDigitRE c = true) :
    ∃ c t, stringsJoin groups ['.'] = c :: t ∧ isDigitRE c = true := by
  cases groups with
  | nil => exact absurd rfl hne
  | cons g t =>
    have hg := hd g (by simp)
    cases g with
    | nil => exact absurd rfl hg.1
    | cons c u =>
      cases t with
      | nil => exact ⟨c, u, by simp [stringsJoin], hg.2 c (by simp)⟩
      | cons g2 v =>
        exact ⟨c, u ++ '.' :: stringsJoin (g2 :: v) ['.'], by simp [stringsJoin], hg.2 c (by simp)⟩

/-- The ID/name pattern on `id ++ " " ++ rest` for a dotted numeric `id`:
group 1 is the id, group 2 the remaining text. -/
theorem titleIDRegex_dotted (groups : List Str) (rest : Str) (hne : groups ≠ [])
    (hd : ∀ g ∈ groups, g ≠ [] ∧ ∀ c ∈ g, isDigitRE c = true) (hn : '\n' ∉ rest) :
    titleIDRegexFindStringSubmatch (stringsJoin groups ['.'] ++ ' ' :: rest)
      = some (stringsJoin groups ['.'], ' ' :: rest) := by
  obtain ⟨c, t, hct, hc⟩ := stringsJoin_digits_head groups hne hd
  have hscan := titleIDScan_join groups (' ' :: rest) false hne hd
  rw [titleIDScan_space] at hscan
  have hnl : (stringsJoin groups ['.'] ++ ' ' :: rest).contains '\n' = false := by
    cases hb : (stringsJoin groups ['.'] ++ ' ' :: rest).contains '\n' with
    | false => rfl
    | true =>
      exfalso
      have hm : '\n' ∈ stringsJoin groups ['.'] ++ ' ' :: rest := by
        simpa using hb
      simp only [List.mem_append, List.mem_cons] at hm
      rcases hm with hm | hm | hm
      · rcases stringsJoin_digits_chars groups hd _ hm with h1 | h1
        · exact absurd h1 (by decide)
        · exact absurd h1 (by decide)
      · exact absurd hm (by decide)
      · exact hn hm
  unfold titleIDRegexFindStringSubmatch
  rw [hct] at hnl hscan ⊢
  simp only [List.cons_append] at hnl hscan ⊢
  simp only [hc, hnl, Bool.not_false, Bool.and_self, if_true, hscan]
  simp

theorem whitespaceReplaceAux_of_no_space (repl l : Str) (b : Bool)
    (h : ∀ c ∈ l, isSpaceRE c = false) : whitespaceReplaceAux repl b l = l := by
  induction l generalizing b with
  | nil => simp [whitespaceReplaceAux]
  | cons c t ih =>
    have hc := h c (by simp)
    simp [whitespaceReplaceAux, hc, ih false (fun x hx => h x (List.mem_cons_of_mem c hx))]

theorem trimSpace_of_no_space (l : Str) (h : ∀ c ∈ l, isUnicodeSpace c = false) :
    trimSpace l = l := by
  unfold trimSpace
  have h1 : l.dropWhile isUnicodeSpace = l := by
    cases l with
    | nil => rfl
    | cons c t => simp [List.dropWhile, h c (by simp)]
  rw [h1]
  rcases List.eq_nil_or_concat l with h0 | ⟨t, c, h0⟩
  · subst h0; rfl
  · rw [List.concat_eq_append] at h0
    subst h0
    have hc : isUnicodeSpace c = false := h c (by simp)
    exact List.rdropWhile_concat_neg _ _ _ (by simp [hc])

theorem trimSpace_cons_space (y : Str) : trimSpace (' ' :: y) = trimSpace y := by
  have h : isUnicodeSpace ' ' = true := by decide
  simp [trimSpace, List.dropWhile, h]

theorem trimSpace_concat_space (y : Str) : trimSpace (y ++ [' ']) = trimSpace y := by
  have h : isUnicodeSpace ' ' = true := by decide
  unfold trimSpace
  rw [List.dropWhile_append]
  by_cases he : (List.dropWhile isUnicodeSpace y).isEmpty = true
  · have h0 : List.dropWhile isUnicodeSpace y = [] := List.isEmpty_iff.mp he
    simp [h0, List.dropWhile, h, List.rdropWhile]
  · simp only [he, Bool.false_eq_true, if_false]
    exact List.rdropWhile_concat_pos _ _ _ h

theorem whitespaceReplaceAux_dropWhile (x : Str) :
    (whitespaceReplaceAux [' '] true x).dropWhile isUnicodeSpace
      = (whitespaceReplaceAux [' '] false x).dropWhile isUnicodeSpace := by
  have h : isUnicodeSpace ' ' = true := by decide
  cases x with
  | nil => rfl
  | cons c t =>
    by_cases hc : isSpaceRE c = true
    · simp [whitespaceReplaceAux, hc, List.dropWhile, h]
    · simp [whitespaceReplaceAux, hc]

theorem whitespaceReplaceAux_concat_space (x : Str) (b : Bool) :
    whitespaceReplaceAux [' '] b (x ++ [' ']) = whitespaceReplaceAux [' '] b x ∨
    whitespaceReplaceAux [' '] b (x ++ [' ']) = whitespaceReplaceAux [' '] b x ++ [' '] := by
  have h : isSpaceRE ' ' = true := by decide
  induction x generalizing b with
  | nil => cases b <;> simp [whitespaceReplaceAux, h]
  | cons c t ih =>
    by_cases hc : isSpaceRE c = true
    · rcases ih true with h1 | h1
      · left; cases b <;> simp [whitespaceReplaceAux, hc, h1]
      · right; cases b <;> simp [whitespaceReplaceAux, hc, h1]
    · rcases ih false with h1 | h1
      · left; simp [whitespaceReplaceAux, hc, h1]
      · right; simp [whitespaceReplaceAux, hc, h1]

/-- Normalising `" " ++ name ++ " "` gives the same text as normalising `name`. -/
theorem trimSpace_replaceWhitespaces_padded (name : Str) :
    trimSpace (replaceWhitespaces (' ' :: (name ++ [' '])))
      = trimSpace (replaceWhitespaces name) := by
  have h : isSpaceRE ' ' = true := by decide
  have e1 : replaceWhitespaces (' ' :: (name ++ [' ']))
      = ' ' :: whitespaceReplaceAux [' '] true (name ++ [' ']) := by
    simp [replaceWhitespaces, whitespaceReplaceAll, whitespaceReplaceAux, h]
  rw [e1, trimSpace_cons_space]
  have e2 : trimSpace (whitespaceReplaceAux [' '] true (name ++ [' ']))
      = trimSpace (whitespaceReplaceAux [' '] false (name ++ [' '])) := by
    unfold trimSpace
    rw [whitespaceReplaceAux_dropWhile]
  rw [e2]
  unfold replaceWhitespaces whitespaceReplaceAll
  rcases whitespaceReplaceAux_concat_space name false with h1 | h1
  · rw [h1]
  · rw [h1, trimSpace_concat_space]

theorem removeSuffixAny_eq (t s : Str) (l : List Str) (hs : s ∈ l) (hsuf : s <:+ t)
    (huniq : ∀ s' ∈ l, s' <:+ t → s' = s) : removeSuffixAny t l = replaceAll t s [] := by
  induction l with
  | nil => simp at hs
  | cons a rest ih =>
    simp only [removeSuffixAny, hasSuffix]
    by_cases ha : a.isSuffixOf t = true
    · have := huniq a (by simp) (List.isSuffixOf_iff_suffix.mp ha)
      subst this
      simp [ha]
    · simp only [ha, Bool.false_eq_true, if_false]
      rcases List.mem_cons.mp hs with h1 | h1
      · subst h1
        exact absurd (List.isSuffixOf_iff_suffix.mpr hsuf) ha
      · exact ih h1 (fun s' hs' => huniq s' (List.mem_cons_of_mem a hs'))

/-- C2: for a dotted numeric id (digit groups joined by single dots), a name
without line feed that contains none of the four status-suffix texts, and a
status suffix `s`, `splitTitle (id ++ " " ++ name ++ " " ++ s)` returns that
id, and as name the input name with every run of whitespace (as the program's
`whitespace` pattern reads it) collapsed to one space and trimmed
(`strings.TrimSpace`); it reports a rule and no error.  In particular
`splitTitle "1.1 Some Control (Automated)"` has id `1.1` and name
`Some Control`. -/
theorem splitTitle_rule_title (groups : List Str) (name s : Str)
    (hne : groups ≠ []) (hd : ∀ g ∈ groups, g ≠ [] ∧ ∀ c ∈ g, isDigitRE c = true)
    (hn : '\n' ∉ name) (hfree : ∀ s' ∈ rStr, ¬ s' <:+: name) (hs : s ∈ rStr) :
    splitTitle (stringsJoin groups ['.'] ++ " ".toList ++ name ++ " ".toList ++ s)
      = { id := stringsJoin groups ['.']
          name := trimSpace (replaceWhitespaces name)
          isActualRule := true
          automated := decide (s ∈ rStr.take 2)
          err := none } ∧
    splitTitle "1.1 Some Control (Automated)".toList
      = { id := "1.1".toList, name := "Some Control".toList, isActualRule := true,
          automated := true, err := none } := by
  refine ⟨?_, by decide⟩
  obtain ⟨hub, hhead, hlast⟩ := rStr_shape s hs
  set ident := stringsJoin groups ['.'] with hident
  have htitle : ident ++ " ".toList ++ name ++ " ".toList ++ s
      = (ident ++ ' ' :: (name ++ [' '])) ++ s := by simp
  rw [htitle]
  set a := ident ++ ' ' :: (name ++ [' ']) with ha
  have hsuf : s <:+ a ++ s := List.suffix_append a s
  -- the title ends with `s` and with no other status suffix
  have hany : hasSuffixAny (a ++ s) rStr = true := (hasSuffixAny_iff _ _).mpr ⟨s, hs, hsuf⟩
  have huniq : ∀ s' ∈ rStr, s' <:+ a ++ s → s' = s :=
    fun s' hs' h' => rStr_unique_suffix (a ++ s) s' s hs' hs h' hsuf
  have hauto : hasSuffixAny (a ++ s) (rStr.take 2) = decide (s ∈ rStr.take 2) := by
    by_cases hm : s ∈ rStr.take 2
    · rw [decide_eq_true hm]
      exact (hasSuffixAny_iff _ _).mpr ⟨s, hm, hsuf⟩
    · rw [decide_eq_false hm]
      cases hb : hasSuffixAny (a ++ s) (rStr.take 2) with
      | false => rfl
      | true =>
        obtain ⟨s', hs', h'⟩ := (hasSuffixAny_iff _ _).mp hb
        have := huniq s' (List.mem_of_mem_take hs') h'
        subst this
        exact absurd hs' hm
  -- `s` does not occur in the text before it
  obtain ⟨tl, htl⟩ : ∃ tl, s = '(' :: tl := by
    cases s with
    | nil => simp at hhead
    | cons c tl => simp at hhead; exact ⟨tl, by rw [hhead]⟩
  have hparen : '(' ∉ ident ++ [' '] := by
    intro hm
    simp only [List.mem_append, List.mem_singleton] at hm
    rcases hm with hm | hm
    · rcases stringsJoin_digits_chars groups hd _ hm with h1 | h1
      · exact absurd h1 (by decide)
      · exact absurd h1 (by decide)
    · exact absurd hm (by decide)
  have hinf : ¬ s <:+: a := by
    intro hin
    have h1 : s <:+: (ident ++ [' ']) ++ (name ++ [' ']) := by simpa [ha] using hin
    rw [htl] at h1
    have h2 := occurs_append_of_head_not_mem '(' tl _ _ hparen h1
    rw [← htl] at h2
    exact hfree s hs (occurs_concat_of_last_ne s name ' ' ')' hlast (by decide) h2)
  have hrem : removeSuffixAny (a ++ s) rStr = a := by
    rw [removeSuffixAny_eq (a ++ s) s rStr hs hsuf huniq]
    exact replaceAll_append_self s a (no_early_occurrence s a hub hinf)
  have hn' : '\n' ∉ name ++ [' '] := by
    intro hm
    simp only [List.mem_append, List.mem_singleton] at hm
    rcases hm with hm | hm
    · exact hn hm
    · exact absurd hm (by decide)
  have hfind := titleIDRegex_dotted groups (name ++ [' ']) hne hd hn'
  have hid : trimSpace (replaceWhitespaces ident) = ident := by
    have hchars := stringsJoin_digits_chars groups hd
    have e1 : replaceWhitespaces ident = ident := by
      apply whitespaceReplaceAux_of_no_space
      intro c hc
      rcases hchars c hc with h1 | h1
      · exact (isDigitRE_not_space c h1).1
      · subst h1; decide
    rw [e1]
    apply trimSpace_of_no_space
    intro c hc
    rcases hchars c hc with h1 | h1
    · exact (isDigitRE_not_space c h1).2.1
    · subst h1; decide
  unfold splitTitle
  simp only [hany, hauto, hrem, if_true, Bool.true_and]
  rw [ha, hfind]
  simp only [hid, trimSpace_replaceWhitespaces_padded]

/-- Witness for C2 on the id `1.1`, the name `Some  Control` (two spaces) and
the suffix `(Manual)`. -/
theorem splitTitle_rule_title_witness :
    splitTitle "1.1 Some  Control (Manual)".toList
      = { id := "1.1".toList, name := "Some Control".toList, isActualRule := true,
          automated := false, err := none } :=
  (splitTitle_rule_title ["1".toList, "1".toList] "Some  Control".toList "(Manual)".toList
    (by decide) (by decide) (by decide) (by decide) (by decide)).1

/-! ## `findNamedValuesByRegex` -/

theorem foldl_append_singleton_eq_map {α β : Type} (g : α → β) (l : List α) (init : List β) :
    l.foldl (fun result h => result ++ [g h]) init = init ++ l.map g := by
  induction l generalizing init with
  | nil => simp
  | cons a t ih => simp [ih]

theorem range_map_namedValues (s : Str) (hits : List (Nat × Nat)) :
    (List.range hits.length).map (fun h =>
      ({ name := slice s (hits.getD h (0, 0)).1 (hits.getD h (0, 0)).2
         value := if h ≠ hits.length - 1 then
             slice s (hits.getD h (0, 0)).2 (hits.getD (h + 1) (0, 0)).1
           else s.drop (hits.getD h (0, 0)).2 } : namedValue))
    = namedValuesOfHits s hits := by
  induction hits with
  | nil => simp [namedValuesOfHits]
  | cons hit rest ih =>
    cases rest with
    | nil => simp [namedValuesOfHits, List.range_succ]
    | cons next u =>
      rw [List.length_cons, List.range_succ_eq_map, List.map_cons, List.map_map]
      simp only [namedValuesOfHits]
      rw [← ih]
      congr 1
      · simp

/-- The result of `findNamedValuesByRegex` is the list of entries of the hits
of its pattern. -/
theorem findNamedValuesByRegex_eq (s : Str) (r : Str → List (Nat × Nat)) :
    findNamedValuesByRegex s r = namedValuesOfHits s (r s) := by
  unfold findNamedValuesByRegex
  simp only []
  rw [foldl_append_singleton_eq_map, List.nil_append]
  exact range_map_namedValues s (r s)

theorem namedValuesOfHits_length (s : Str) (hits : List (Nat × Nat)) :
    (namedValuesOfHits s hits).length = hits.length := by
  induction hits with
  | nil => rfl
  | cons hit rest ih =>
    cases rest with
    | nil => rfl
    | cons next u => simp only [namedValuesOfHits, List.length_cons] at ih ⊢; rw [ih]

theorem matchLabel_length (label : List LabelAtom) (s r : Str)
    (h : matchLabel label s = some r) : s.length = label.length + r.length := by
  induction label generalizing s with
  | nil => simp [matchLabel] at h; simp [h]
  | cons a as ih =>
    cases s with
    | nil => simp [matchLabel] at h
    | cons c cs =>
      cases a with
      | lit x =>
        simp only [matchLabel] at h
        split at h
        · have := ih cs h; simp [this]; omega
        · cases h
      | space =>
        simp only [matchLabel] at h
        split at h
        · have := ih cs h; simp [this]; omega
        · cases h

theorem matchSectionAlt_bounds (label : List LabelAtom) (s : Str) (n : Nat)
    (h : matchSectionAlt label s = some n) : 0 < n ∧ n ≤ s.length := by
  unfold matchSectionAlt at h
  split at h
  · rename_i rest hm
    have hl := matchLabel_length label s _ hm
    have hw : (rest.takeWhile isSpaceRE).length ≤ rest.length :=
      (List.takeWhile_sublist _).length_le
    simp only [] at h
    split at h
    · cases h
      simp only [List.length_cons] at hl
      omega
    · cases h
  · cases h

theorem sectionRegexMatchLen_bounds (s : Str) (n : Nat)
    (h : sectionRegexMatchLen s = some n) : 0 < n ∧ n ≤ s.length := by
  unfold sectionRegexMatchLen at h
  obtain ⟨label, _, hl⟩ := List.exists_of_findSome?_eq_some h
  exact matchSectionAlt_bounds label s n hl

/-- The hits of the scan: each is a match of the pattern, they follow each
other without overlap, and the pattern matches at no position between them. -/
theorem sectionRegexScan_spec (cs : Str) : ∀ skip pos,
    (∀ h ∈ sectionRegexScan skip pos cs,
      pos + skip ≤ h.1 ∧ h.1 < h.2 ∧ h.2 ≤ pos + cs.length ∧
        sectionRegexMatchLen (cs.drop (h.1 - pos)) = some (h.2 - h.1)) ∧
    (sectionRegexScan skip pos cs).Pairwise (fun h1 h2 => h1.2 ≤ h2.1) ∧
    (∀ p, pos + skip ≤ p → p < pos + cs.length →
      (∀ h ∈ sectionRegexScan skip pos cs, p < h.1 ∨ h.2 ≤ p) →
      sectionRegexMatchLen (cs.drop (p - pos)) = none) := by
  induction cs with
  | nil =>
    intro skip pos
    refine ⟨by simp [sectionRegexScan], by simp [sectionRegexScan], ?_⟩
    intro p h1 h2
    simp at h2
    omega
  | cons c t ih =>
    intro skip pos
    have shift : ∀ q, pos + 1 ≤ q → (c :: t).drop (q - pos) = t.drop (q - (pos + 1)) := by
      intro q hq
      have e : q - pos = (q - (pos + 1)) + 1 := by omega
      rw [e, List.drop_succ_cons]
    cases skip with
    | succ k =>
      obtain ⟨i1, i2, i3⟩ := ih k (pos + 1)
      simp only [sectionRegexScan]
      refine ⟨?_, i2, ?_⟩
      · intro h hh
        obtain ⟨a1, a2, a3, a4⟩ := i1 h hh
        refine ⟨by omega, a2, by simp only [List.length_cons]; omega, ?_⟩
        rw [shift h.1 (by omega)]
        exact a4
      · intro p hp1 hp2 hcov
        rw [shift p (by omega)]
        exact i3 p (by omega) (by simp only [List.length_cons] at hp2; omega) hcov
    | zero =>
      cases hm : sectionRegexMatchLen (c :: t) with
      | none =>
        obtain ⟨i1, i2, i3⟩ := ih 0 (pos + 1)
        simp only [sectionRegexScan, hm]
        refine ⟨?_, i2, ?_⟩
        · intro h hh
          obtain ⟨a1, a2, a3, a4⟩ := i1 h hh
          refine ⟨by omega, a2, by simp only [List.length_cons]; omega, ?_⟩
          rw [shift h.1 (by omega)]
          exact a4
        · intro p hp1 hp2 hcov
          rcases Nat.eq_or_lt_of_le hp1 with hpe | hpl
          · have : p = pos := by omega
            subst this
            simpa using hm
          · rw [shift p (by omega)]
            exact i3 p (by omega) (by simp only [List.length_cons] at hp2; omega) hcov
      | some n =>
        obtain ⟨hn0, hnl⟩ := sectionRegexMatchLen_bounds _ _ hm
        obtain ⟨i1, i2, i3⟩ := ih (n - 1) (pos + 1)
        simp only [sectionRegexScan, hm]
        refine ⟨?_, ?_, ?_⟩
        · intro h hh
          rcases List.mem_cons.mp hh with he | hh'
          · subst he
            refine ⟨by omega, by simp only []; omega, by simp only []; omega, ?_⟩
            simp only [Nat.sub_self, List.drop_zero, Nat.add_sub_cancel_left]
            exact hm
          · obtain ⟨a1, a2, a3, a4⟩ := i1 h hh'
            refine ⟨by omega, a2, by simp only [List.length_cons]; omega, ?_⟩
            rw [shift h.1 (by omega)]
            exact a4
        · rw [List.pairwise_cons]
          refine ⟨?_, i2⟩
          intro h hh
          obtain ⟨a1, _, _, _⟩ := i1 h hh
          simp only []
          omega
        · intro p hp1 hp2 hcov
          have hc := hcov (pos, pos + n) (List.mem_cons_self _ _)
          simp only [] at hc
          have hge : pos + n ≤ p := by omega
          rw [shift p (by omega)]
          exact i3 p (by omega) (by simp only [List.length_cons] at hp2; omega)
            (fun h hh => hcov h (List.mem_cons_of_mem _ hh))

theorem namedValuesOfHits_two (A x R y : Str) :
    namedValuesOfHits (A ++ (x ++ (R ++ y)))
        [(0, A.length), (A.length + x.length, A.length + x.length + R.length)]
      = [{ name := A, value := x }, { name := R, value := y }] := by
  have d1 : (A ++ (x ++ (R ++ y))).drop A.length = x ++ (R ++ y) := List.drop_left _ _
  have d2 : (A ++ (x ++ (R ++ y))).drop (A.length + x.length) = R ++ y := by
    rw [← List.drop_drop, d1, List.drop_left]
  have d3 : (A ++ (x ++ (R ++ y))).drop (A.length + x.length + R.length) = y := by
    rw [← List.drop_drop, d2, List.drop_left]
  simp only [namedValuesOfHits, slice, List.drop_zero, Nat.sub_zero, d1, d2, d3,
    Nat.add_sub_cancel_left, List.take_left]

/-- C7: `findNamedValuesByRegex(s, sectionRegex)` returns one entry per
successive non-overlapping label match in `s`, in order of occurrence: entry
`i` is named by the text of match `i` and holds the text from the end of match
`i` to the start of match `i+1`, or to the end of `s` for the last match.  The
matches are matches of the label pattern, follow each other without overlap,
and no position outside them starts a match.  For a span with `Audit:` then
`Remediation:` as its two matches, the text between them goes to the audit
entry and all remaining text to the remediation entry. -/
theorem findNamedValuesByRegex_spec (s : Str) :
    findNamedValuesByRegex s sectionRegex = namedValuesOfHits s (sectionRegex s) ∧
    (findNamedValuesByRegex s sectionRegex).length = (sectionRegex s).length ∧
    (∀ h ∈ sectionRegex s, h.1 < h.2 ∧ h.2 ≤ s.length ∧
      sectionRegexMatchLen (s.drop h.1) = some (h.2 - h.1)) ∧
    (sectionRegex s).Pairwise (fun h1 h2 => h1.2 ≤ h2.1) ∧
    (∀ p, p < s.length → (∀ h ∈ sectionRegex s, p < h.1 ∨ h.2 ≤ p) →
      sectionRegexMatchLen (s.drop p) = none) ∧
    (∀ x y : Str, s = "Audit: ".toList ++ (x ++ ("Remediation: ".toList ++ y)) →
      sectionRegex s = [(0, 7), (7 + x.length, 7 + x.length + 13)] →
      findNamedValuesByRegex s sectionRegex
        = [{ name := "Audit: ".toList, value := x },
           { name := "Remediation: ".toList, value := y }]) := by
  obtain ⟨h1, h2, h3⟩ := sectionRegexScan_spec s 0 0
  refine ⟨findNamedValuesByRegex_eq s sectionRegex, ?_, ?_, h2, ?_, ?_⟩
  · rw [findNamedValuesByRegex_eq, namedValuesOfHits_length]
  · intro h hh
    obtain ⟨_, a2, a3, a4⟩ := h1 h hh
    exact ⟨a2, by simpa using a3, by simpa using a4⟩
  · intro p hp hcov
    simpa using h3 p (by omega) (by omega) hcov
  · intro x y hs hhits
    rw [findNamedValuesByRegex_eq, hhits, hs]
    exact namedValuesOfHits_two "Audit: ".toList x "Remediation: ".toList y

/-- Witness for C7 on the span `Audit: run the check` / `Remediation: fix it`. -/
theorem findNamedValuesByRegex_spec_witness :
    findNamedValuesByRegex "Audit: run the check\nRemediation: fix it".toList sectionRegex
      = [{ name := "Audit: ".toList, value := "run the check\n".toList },
         { name := "Remediation: ".toList, value := "fix it".toList }] :=
  (findNamedValuesByRegex_spec "Audit: run the check\nRemediation: fix it".toList).2.2.2.2.2
    "run the check\n".toList "fix it".toList (by decide) (by decide)

/-! ## `populateRules` as a rule-by-rule map -/

theorem populateRule_keeps (sectionTitles : List Str) (m : StrMap) (content : Str)
    (re : CleanRegexp) (trim : Bool) (rule : Rule) (isLast : Bool) (nextID : Str) :
    (populateRule sectionTitles m content re trim rule isLast nextID).1.ID = rule.ID ∧
    (populateRule sectionTitles m content re trim rule isLast nextID).1.Name = rule.Name ∧
    (populateRule sectionTitles m content re trim rule isLast nextID).1.Automated
      = rule.Automated := by
  unfold populateRule
  simp only []
  split
  · exact ⟨rfl, rfl, rfl⟩
  · split <;> exact ⟨rfl, rfl, rfl⟩

/-- The loop of `populateRules`, run over the rules `todo` that follow the
rules `done` already handled, handles each rule as the loop body does on the
input list. -/
theorem populateRules_loop (sectionTitles : List Str) (m : StrMap) (content : Str)
    (re : CleanRegexp) (trim : Bool) (todo : List Rule) :
    ∀ (done done' : List Rule) (es1 es2 : List Str), done'.length = done.length →
      (List.range' done.length todo.length).foldl
        (populateStep sectionTitles m content re trim)
        { rules := done' ++ todo, ruleErrors := es1, sectionErrors := es2 }
      = { rules := done' ++ (List.range' done.length todo.length).map (fun i =>
            (populateRule sectionTitles m content re trim ((done ++ todo).getD i emptyRule)
              (decide (i = (done ++ todo).length - 1)) (nextRuleID (done ++ todo) i)).1)
          ruleErrors := es1 ++ (List.range' done.length todo.length).flatMap (fun i =>
            (populateRule sectionTitles m content re trim ((done ++ todo).getD i emptyRule)
              (decide (i = (done ++ todo).length - 1)) (nextRuleID (done ++ todo) i)).2.1)
          sectionErrors := es2 ++ (List.range' done.length todo.length).flatMap (fun i =>
            (populateRule sectionTitles m content re trim ((done ++ todo).getD i emptyRule)
              (decide (i = (done ++ todo).length - 1)) (nextRuleID (done ++ todo) i)).2.2) } := by
  induction todo with
  | nil => intro done done' es1 es2 _; simp
  | cons r rest ih =>
    intro done done' es1 es2 hlen
    have hget : (done' ++ r :: rest)[done.length]? = some r := by
      rw [← hlen, List.getElem?_append_right (Nat.le_refl _)]; simp
    have hgetD : (done ++ r :: rest).getD done.length emptyRule = r := by
      rw [List.getD_eq_getElem?_getD, List.getElem?_append_right (Nat.le_refl _)]; simp
    have hnext : nextRuleID (done' ++ r :: rest) done.length
        = nextRuleID (done ++ r :: rest) done.length := by
      unfold nextRuleID
      have e1 : (done' ++ r :: rest)[done.length + 1]? = rest[0]? := by
        rw [← hlen, List.getElem?_append_right (by omega)]
        simp
      have e2 : (done ++ r :: rest)[done.length + 1]? = rest[0]? := by
        rw [List.getElem?_append_right (by omega)]
        simp
      rw [e1, e2]
    have hl : (done' ++ r :: rest).length = (done ++ r :: rest).length := by
      simp [hlen]
    have hset : (done' ++ r :: rest).set done.length
          (populateRule sectionTitles m content re trim r
            (decide (done.length = (done ++ r :: rest).length - 1))
            (nextRuleID (done ++ r :: rest) done.length)).1
        = (done' ++ [(populateRule sectionTitles m content re trim r
            (decide (done.length = (done ++ r :: rest).length - 1))
            (nextRuleID (done ++ r :: rest) done.length)).1]) ++ rest := by
      rw [← hlen]
      simp [List.set_append]
    have hstep : populateStep sectionTitles m content re trim
          { rules := done' ++ r :: rest, ruleErrors := es1, sectionErrors := es2 } done.length
        = { rules := (done' ++ [(populateRule sectionTitles m content re trim r
                (decide (done.length = (done ++ r :: rest).length - 1))
                (nextRuleID (done ++ r :: rest) done.length)).1]) ++ rest
            ruleErrors := es1 ++ (populateRule sectionTitles m content re trim r
                (decide (done.length = (done ++ r :: rest).length - 1))
                (nextRuleID (done ++ r :: rest) done.length)).2.1
            sectionErrors := es2 ++ (populateRule sectionTitles m content re trim r
                (decide (done.length = (done ++ r :: rest).length - 1))
                (nextRuleID (done ++ r :: rest) done.length)).2.2 } := by
      unfold populateStep
      simp only [hget, hnext, hl, hset]
    have ih' := ih (done ++ [r]) (done' ++ [(populateRule sectionTitles m content re trim r
                (decide (done.length = (done ++ r :: rest).length - 1))
                (nextRuleID (done ++ r :: rest) done.length)).1])
      (es1 ++ (populateRule sectionTitles m content re trim r
                (decide (done.length = (done ++ r :: rest).length - 1))
                (nextRuleID (done ++ r :: rest) done.length)).2.1)
      (es2 ++ (populateRule sectionTitles m content re trim r
                (decide (done.length = (done ++ r :: rest).length - 1))
                (nextRuleID (done ++ r :: rest) done.length)).2.2)
      (by simp [hlen])
    have happ : (done ++ [r]) ++ rest = done ++ r :: rest := by simp
    rw [happ] at ih'
    have hlen1 : (done ++ [r]).length = done.length + 1 := by simp
    rw [hlen1] at ih'
    simp only [List.length_cons, List.range'_succ, List.foldl_cons, hstep, List.map_cons,
      List.flatMap_cons, hgetD]
    rw [ih']
    simp only [List.append_assoc, List.singleton_append]

theorem populateRules_eq (sectionTitles : List Str) (m : StrMap) (content : Str)
    (re : CleanRegexp) (trim : Bool) (rulesIn : List Rule) :
    populateRules rulesIn sectionTitles m content re trim
      = ((List.range rulesIn.length).map (fun i =>
            (ruleOutcome sectionTitles m content re trim rulesIn i).1),
         (List.range rulesIn.length).flatMap (fun i =>
            (ruleOutcome sectionTitles m content re trim rulesIn i).2.1),
         (List.range rulesIn.length).flatMap (fun i =>
            (ruleOutcome sectionTitles m content re trim rulesIn i).2.2)) := by
  have h := populateRules_loop sectionTitles m content re trim rulesIn [] [] [] [] rfl
  simp only [List.length_nil, List.nil_append] at h
  unfold populateRules
  simp only [List.range_eq_range', h]
  rfl

theorem range_map_getD {α : Type} (l : List α) (d : α) :
    (List.range l.length).map (fun i => l.getD i d) = l := by
  apply List.ext_getElem
  · simp
  · intro i h1 h2
    simp [List.getD_eq_getElem?_getD, h2]

/-- C9: `populateRules` returns as many rules as it receives, and its i-th
rule has the ID, Name and Automated flag of the i-th input rule, for every
rule list, heading list, map, body text and cleanup pattern: no rule is
dropped, duplicated or reordered. -/
theorem populateRules_keeps_rules (rulesIn : List Rule) (sectionTitles : List Str) (m : StrMap)
    (content : Str) (re : CleanRegexp) (trim : Bool) :
    (populateRules rulesIn sectionTitles m content re trim).1.length = rulesIn.length ∧
    (populateRules rulesIn sectionTitles m content re trim).1.map
        (fun r => (r.ID, r.Name, r.Automated))
      = rulesIn.map (fun r => (r.ID, r.Name, r.Automated)) := by
  rw [populateRules_eq]
  refine ⟨by simp, ?_⟩
  simp only [List.map_map]
  have hk : ∀ i, ((fun r : Rule => (r.ID, r.Name, r.Automated)) ∘ fun i =>
        (ruleOutcome sectionTitles m content re trim rulesIn i).1) i
      = (fun i => (fun r : Rule => (r.ID, r.Name, r.Automated)) (rulesIn.getD i emptyRule)) i := by
    intro i
    obtain ⟨h1, h2, h3⟩ := populateRule_keeps sectionTitles m content re trim
      (rulesIn.getD i emptyRule) (decide (i = rulesIn.length - 1)) (nextRuleID rulesIn i)
    simp only [Function.comp, ruleOutcome, h1, h2, h3]
  rw [funext hk]
  have h2 := congrArg (List.map (fun r : Rule => (r.ID, r.Name, r.Automated)))
    (range_map_getD rulesIn emptyRule)
  rw [List.map_map] at h2
  exact h2

theorem flatMap_eq_filterMap {α β : Type} (g : α → List β) (f : α → Option β) (l : List α)
    (h : ∀ a, g a = (f a).toList) : l.flatMap g = l.filterMap f := by
  induction l with
  | nil => rfl
  | cons a t ih =>
    rw [List.flatMap_cons, List.filterMap_cons, ih, h a]
    cases f a <;> rfl

/-- The three ways the loop body of `populateRules` ends for a rule. -/
theorem populateRule_outcome (sectionTitles : List Str) (m : StrMap) (content : Str)
    (re : CleanRegexp) (trim : Bool) (rule : Rule) (isLast : Bool) (nextID : Str) :
    let t := findSectionTitles sectionTitles rule.ID isLast nextID
    let out := populateRule sectionTitles m content re trim rule isLast nextID
    out.2.1 = (match searchRegexFind t.1 t.2 content with
      | some span => if sectionRegex span = [] then some rule.ID else none
      | none => none).toList ∧
    out.2.2 = (match searchRegexFind t.1 t.2 content with
      | some _ => none
      | none => some (finalRegexString t.1 t.2)).toList ∧
    ((searchRegexFind t.1 t.2 content = none ∨
        ∃ span, searchRegexFind t.1 t.2 content = some span ∧ sectionRegex span = []) →
      out.1.Sections = rule.Sections) := by
  intro t out
  cases hsp : searchRegexFind t.1 t.2 content with
  | none =>
    have hout : out = ({ rule with Location := getRuleLocation m rule.ID }, [],
        [finalRegexString t.1 t.2]) := by
      show populateRule sectionTitles m content re trim rule isLast nextID = _
      unfold populateRule
      simp only []
      rw [hsp]
    rw [hout]
    simp
  | some span =>
    by_cases hz : sectionRegex span = []
    · have hout : out = ({ rule with Location := getRuleLocation m rule.ID }, [rule.ID], []) := by
        show populateRule sectionTitles m content re trim rule isLast nextID = _
        unfold populateRule
        simp only []
        rw [hsp]
        simp [findNamedValuesByRegex_eq, namedValuesOfHits_length, hz]
      rw [hout]
      simp [hz]
    · have hlen : (findNamedValuesByRegex span sectionRegex).length ≠ 0 := by
        rw [findNamedValuesByRegex_eq, namedValuesOfHits_length]
        exact fun h0 => hz (List.length_eq_zero.mp h0)
      have hout : out.2.1 = [] ∧ out.2.2 = [] := by
        show (populateRule sectionTitles m content re trim rule isLast nextID).2.1 = [] ∧
          (populateRule sectionTitles m content re trim rule isLast nextID).2.2 = []
        unfold populateRule
        simp only []
        rw [hsp]
        simp only [hlen, if_false]
        simp
      refine ⟨by rw [hout.1]; simp [hz], by rw [hout.2]; simp, ?_⟩
      rintro (h | ⟨sp, h1, h2⟩)
      · cases h
      · cases h1
        exact absurd h2 hz

theorem prepareLoop_sections (titles : List Str) :
    ∀ r ∈ (prepareLoop titles).rules, r.Sections = [] ∧ r.Location = [] := by
  unfold prepareLoop
  have key : ∀ (l : List Str) (st : PrepState),
      (∀ r ∈ st.rules, r.Sections = [] ∧ r.Location = []) →
      ∀ r ∈ (l.foldl prepareStep st).rules, r.Sections = [] ∧ r.Location = [] := by
    intro l
    induction l with
    | nil => intro st h; simpa using h
    | cons t rest ih =>
      intro st h
      rw [List.foldl_cons]
      apply ih
      unfold prepareStep
      simp only []
      split
      · exact h
      · split
        · intro r hr
          simp only [List.mem_append, List.mem_singleton] at hr
          rcases hr with hr | hr
          · exact h r hr
          · subst hr; exact ⟨rfl, rfl⟩
        · exact h
  exact key titles _ (by simp)

theorem replaceAll_lf_append (a b new : Str) :
    replaceAll (a ++ b) "\n".toList new
      = replaceAll a "\n".toList new ++ replaceAll b "\n".toList new := by
  have hold : ("\n".toList : Str) = ['\n'] := rfl
  rw [hold]
  unfold replaceAll
  induction a with
  | nil => rfl
  | cons c t ih =>
    by_cases hc : c = '\n'
    · subst hc
      simp [replaceAllAux, List.isPrefixOf, ih]
    · have h2 : ('\n' == c) = false := by simp [Ne.symm hc]
      simp [replaceAllAux, List.isPrefixOf, h2, ih]

theorem replaceAll_breaks (n : Nat) : ∀ s : Str, s.length ≤ n →
    replaceAll (replaceAll s "\r\n".toList "\\r\\n".toList) "\n".toList "\\n".toList
      = escapeLineBreaks s := by
  induction n with
  | zero =>
    intro s hs
    have : s = [] := List.length_eq_zero.mp (by omega)
    subst this
    rfl
  | succ k ih =>
    intro s hs
    cases s with
    | nil => rfl
    | cons c cs =>
      have hlen : cs.length ≤ k := by simp at hs; omega
      by_cases hpre : c = '\r' ∧ cs.head? = some '\n'
      · obtain ⟨hc, hh⟩ := hpre
        cases cs with
        | nil => simp at hh
        | cons x xs =>
          simp at hh
          subst hc; subst hh
          have hxs : xs.length ≤ k := by simp at hlen; omega
          have e1 : replaceAll ('\r' :: '\n' :: xs) "\r\n".toList "\\r\\n".toList
              = "\\r\\n".toList ++ replaceAll xs "\r\n".toList "\\r\\n".toList := by
            simp [replaceAll, replaceAllAux, List.isPrefixOf]
          rw [e1, replaceAll_lf_append, ih xs hxs]
          have e2 : replaceAll "\\r\\n".toList "\n".toList "\\n".toList = "\\r\\n".toList := by
            decide
          rw [e2]
          simp [escapeLineBreaks]
      · have hno : ("\r\n".toList).isPrefixOf (c :: cs) = false := by
          cases hb : ("\r\n".toList).isPrefixOf (c :: cs) with
          | false => rfl
          | true =>
            exfalso
            apply hpre
            have hp := List.isPrefixOf_iff_prefix.mp hb
            obtain ⟨r, hr⟩ := hp
            have hr2 : '\r' :: '\n' :: r = c :: cs := hr
            injection hr2 with h1 h2
            exact ⟨h1.symm, by rw [← h2]; rfl⟩
        have e1 : replaceAll (c :: cs) "\r\n".toList "\\r\\n".toList
            = [c] ++ replaceAll cs "\r\n".toList "\\r\\n".toList := by
          unfold replaceAll
          simp only [replaceAllAux, hno, Bool.false_eq_true, if_false, List.singleton_append]
        rw [e1, replaceAll_lf_append, ih cs (by omega)]
        by_cases hc : c = '\n'
        · subst hc
          have e2 : replaceAll ['\n'] "\n".toList "\\n".toList = "\\n".toList := by decide
          rw [e2]
          simp [escapeLineBreaks]
        · have e2 : replaceAll [c] "\n".toList "\\n".toList = [c] := by
            have h2 : ('\n' == c) = false := by simp [Ne.symm hc]
            have hold : ("\n".toList : Str) = ['\n'] := rfl
            rw [hold]
            simp [replaceAll, replaceAllAux, List.isPrefixOf, h2]
          rw [e2]
          simp [escapeLineBreaks, hc, hpre]

theorem escapeLineBreaks_append (a b : Str)
    (h : a.getLast? ≠ some '\r' ∨ b.head? ≠ some '\n') :
    escapeLineBreaks (a ++ b) = escapeLineBreaks a ++ escapeLineBreaks b := by
  induction a with
  | nil => rfl
  | cons c t ih =>
    cases t with
    | nil =>
      have hcond : ¬ (c = '\r' ∧ b.head? = some '\n') := by
        intro ⟨h1, h2⟩
        rcases h with h | h
        · exact h (by simp [h1])
        · exact h h2
      by_cases hc : c = '\n'
      · simp [escapeLineBreaks, hc]
      · simp only [List.singleton_append, escapeLineBreaks, hc, if_false, hcond, List.head?_nil]
        simp
        exact fun h1 h2 => hcond ⟨h1, h2⟩
    | cons x u =>
      have h2 : (x :: u).getLast? ≠ some '\r' ∨ b.head? ≠ some '\n' := by
        rcases h with h | h
        · left; rw [List.getLast?_cons_cons] at h; exact h
        · right; exact h
      have ih2 := ih h2
      have e : c :: x :: u ++ b = c :: ((x :: u) ++ b) := rfl
      rw [e]
      by_cases hc : c = '\n'
      · simp only [escapeLineBreaks, hc, if_true] at ih2 ⊢
        rw [ih2]; rfl
      · by_cases hr : c = '\r' ∧ x = '\n'
        · have hr1 : c = '\r' ∧ ((x :: u) ++ b).head? = some '\n' := by
            simp [hr.1, hr.2]
          have hr2 : c = '\r' ∧ (x :: u).head? = some '\n' := by simp [hr.1, hr.2]
          rw [escapeLineBreaks, if_neg hc, if_pos hr1, ih2]
          conv_rhs => rw [escapeLineBreaks, if_neg hc, if_pos hr2]
          rfl
        · have hr1 : ¬ (c = '\r' ∧ ((x :: u) ++ b).head? = some '\n') := by
            simpa using hr
          have hr2 : ¬ (c = '\r' ∧ (x :: u).head? = some '\n') := by simpa using hr
          rw [escapeLineBreaks, if_neg hc, if_neg hr1, ih2]
          conv_rhs => rw [escapeLineBreaks, if_neg hc, if_neg hr2]
          rfl

/-- The span pattern as text: the two headings, escaped by `QuoteMeta` and
with their line breaks written as `\r` and `\n`, inside the fixed parts of
the pattern. -/
theorem finalRegexString_eq (T N : Str) :
    finalRegexString T N
      = "(?<=".toList ++ escapeLineBreaks (quoteMeta T)
        ++ "\\n)(?:(?:.|\\n|\\r)*?)(?=".toList ++ escapeLineBreaks (quoteMeta N) ++ ")".toList := by
  unfold finalRegexString
  simp only []
  rw [replaceAll_breaks _ _ (Nat.le_refl _)]
  rw [escapeLineBreaks_append _ ")".toList (Or.inr (by decide))]
  rw [escapeLineBreaks_append _ (quoteMeta N) (Or.inl (by
    rw [List.getLast?_append_of_ne_nil _ (by decide)]; decide))]
  rw [escapeLineBreaks_append _ "\\n)(?:(?:.|\\n|\\r)*?)(?=".toList (Or.inr (by decide))]
  rw [escapeLineBreaks_append "(?<=".toList (quoteMeta T) (Or.inl (by decide))]
  have e1 : escapeLineBreaks "(?<=".toList = "(?<=".toList := by decide
  have e2 : escapeLineBreaks "\\n)(?:(?:.|\\n|\\r)*?)(?=".toList
      = "\\n)(?:(?:.|\\n|\\r)*?)(?=".toList := by decide
  have e3 : escapeLineBreaks ")".toList = ")".toList := by decide
  rw [e1, e2, e3]

/-- C10: in `populateRules`, the rule-error list holds, in rule order, the
IDs of exactly the rules whose span is located in the body but holds no match
of the section-label pattern, and the span-error list holds, in rule order,
the failed pattern of exactly the rules whose span is not found; so a rule of
the first kind adds nothing to the span-error list and the loop goes on to the
next rule.  In both cases the rule's Sections are the ones it had on entry,
which are empty for the rules that `prepareRules` builds.  The failed pattern
is the text `(?<=T\n)(?:(?:.|\n|\r)*?)(?=N)`, where `T` and `N` are the two
headings of the rule, escaped by `QuoteMeta` and with their line breaks
written as `\r` and `\n`. -/
theorem populateRules_error_lists (rulesIn : List Rule) (sectionTitles : List Str) (m : StrMap)
    (content : Str) (re : CleanRegexp) (trim : Bool) :
    (populateRules rulesIn sectionTitles m content re trim).2.1
      = (List.range rulesIn.length).filterMap (fun i =>
          match ruleSpan rulesIn sectionTitles content i with
          | some span => if sectionRegex span = [] then some (rulesIn.getD i emptyRule).ID else none
          | none => none) ∧
    (populateRules rulesIn sectionTitles m content re trim).2.2
      = (List.range rulesIn.length).filterMap (fun i =>
          match ruleSpan rulesIn sectionTitles content i with
          | some _ => none
          | none => some (finalRegexString (ruleHeadings rulesIn sectionTitles i).1
              (ruleHeadings rulesIn sectionTitles i).2)) ∧
    (∀ i, i < rulesIn.length →
      (ruleSpan rulesIn sectionTitles content i = none ∨
        ∃ span, ruleSpan rulesIn sectionTitles content i = some span ∧ sectionRegex span = []) →
      ((populateRules rulesIn sectionTitles m content re trim).1.getD i emptyRule).Sections
        = (rulesIn.getD i emptyRule).Sections) ∧
    (∀ titles, ∀ r ∈ (prepareRules titles).2.2.2, r.Sections = []) ∧
    (∀ T N, finalRegexString T N
      = "(?<=".toList ++ escapeLineBreaks (quoteMeta T)
        ++ "\\n)(?:(?:.|\\n|\\r)*?)(?=".toList ++ escapeLineBreaks (quoteMeta N)
        ++ ")".toList) := by
  rw [populateRules_eq]
  refine ⟨?_, ?_, ?_, ?_, finalRegexString_eq⟩
  · apply flatMap_eq_filterMap
    intro i
    exact (populateRule_outcome sectionTitles m content re trim (rulesIn.getD i emptyRule)
      (decide (i = rulesIn.length - 1)) (nextRuleID rulesIn i)).1
  · apply flatMap_eq_filterMap
    intro i
    exact (populateRule_outcome sectionTitles m content re trim (rulesIn.getD i emptyRule)
      (decide (i = rulesIn.length - 1)) (nextRuleID rulesIn i)).2.1
  · intro i hi hcase
    have h := (populateRule_outcome sectionTitles m content re trim (rulesIn.getD i emptyRule)
      (decide (i = rulesIn.length - 1)) (nextRuleID rulesIn i)).2.2 hcase
    simp only [List.getD_eq_getElem?_getD, List.getElem?_map, List.getElem?_range hi,
      Option.map_some', Option.getD_some]
    simpa [ruleOutcome, List.getD_eq_getElem?_getD] using h
  · intro titles r hr
    exact (prepareLoop_sections titles r hr).1

/-! ## The cleanup pattern and the section keys -/

theorem replaceAllEmpty_eq_self (re : CleanRegexp) (text : Str)
    (h : ∀ a ∈ re.alts, ¬ a <:+: text) : re.replaceAllEmpty text = text := by
  induction text with
  | nil => rfl
  | cons c cs ih =>
    have hno : re.alts.any (fun a => a.isPrefixOf (c :: cs)) = false := by
      cases hb : re.alts.any (fun a => a.isPrefixOf (c :: cs)) with
      | false => rfl
      | true =>
        obtain ⟨a, ha, hp⟩ := List.any_eq_true.mp hb
        exact absurd (List.isPrefixOf_iff_prefix.mp hp).isInfix (h a ha)
    have ih' := ih (fun a ha hin => h a ha (hin.trans (List.suffix_cons c cs).isInfix))
    simp only [CleanRegexp.replaceAllEmpty, hno, Bool.false_eq_true, if_false, ih']

/-- C6: for the title list `1.1 Foo (Automated)`, which holds no chapter
entry, `prepareRules` returns the pattern `()[\s\S]*`; replacing its matches
by the empty string empties every text, and `populateRules` stores the empty
text for the section `Audit: run the check`, which contains no chapter
title. -/
theorem prepareRules_cleanup_without_chapters :
    (prepareRules ["1.1 Foo (Automated)".toList]).2.2.1
      = { source := "()[\\s\\S]*".toList, alts := [[]] } ∧
    (∀ text, (prepareRules ["1.1 Foo (Automated)".toList]).2.2.1.replaceAllEmpty text = []) ∧
    (populateRules (prepareRules ["1.1 Foo (Automated)".toList]).2.2.2
        ["1.1 Foo (Automated)".toList] (prepareRules ["1.1 Foo (Automated)".toList]).2.1
        "\n\n1.1 Foo (Automated)\nAudit: run the check\nAppendix: x".toList
        (prepareRules ["1.1 Foo (Automated)".toList]).2.2.1 false).1
      = [{ ID := "1.1".toList, Name := "Foo".toList, Automated := true, Location := [],
           Sections := [("audit".toList, [])] }] := by
  have h1 : (prepareRules ["1.1 Foo (Automated)".toList]).2.2.1
      = { source := "()[\\s\\S]*".toList, alts := [[]] } := by decide
  refine ⟨h1, ?_, by decide⟩
  intro text
  rw [h1]
  cases text with
  | nil => rfl
  | cons c cs => simp [CleanRegexp.replaceAllEmpty]

/-- C8: the text `Audit:` followed by a carriage return and a line feed is a
match of the section-label pattern, and `sectionKeyName` turns it into the
key `audit:_`, which is none of the nine keys and differs from
`sectionKeyName "Audit"`, the key of the CSV column; `populateRules` stores
the section under that key. -/
theorem sectionKeyName_carriage_return :
    sectionRegex "Audit:\r\nrun the check".toList = [(0, 8)] ∧
    sectionKeyName "Audit:\r\n".toList = "audit:_".toList ∧
    sectionKeyName "Audit".toList = "audit".toList ∧
    (populateRules
        [{ ID := "1.1".toList, Name := "Foo".toList, Automated := true, Location := [],
           Sections := [] }]
        ["1.1 Foo (Automated)".toList] []
        "\n\n1.1 Foo (Automated)\nAudit:\r\nrun the check\nAppendix: x".toList
        (mustCompileClean "1 Setup".toList) false).1
      = [{ ID := "1.1".toList, Name := "Foo".toList, Automated := true, Location := [],
           Sections := [("audit:_".toList, "run the check".toList)] }] := by
  refine ⟨by decide, by decide, by decide, by decide⟩

/-- Witness for C10: the span of rule 1.1 is located and holds no section
label; the span of rule 1.2 is not found, since the body has no `Appendix:`
after its heading. -/
theorem populateRules_error_lists_witness :
    (populateRules
      [{ ID := "1.1".toList, Name := "Foo".toList, Automated := true, Location := [],
         Sections := [] },
       { ID := "1.2".toList, Name := "Bar".toList, Automated := false, Location := [],
         Sections := [] }]
      ["1.1 Foo (Automated)".toList, "1.2 Bar (Manual)".toList] []
      "\n\n1.1 Foo (Automated)\nplain text\n1.2 Bar (Manual)\nAudit: look".toList
      (mustCompileClean "1 Setup".toList) false).2.1 = ["1.1".toList] ∧
    (populateRules
      [{ ID := "1.1".toList, Name := "Foo".toList, Automated := true, Location := [],
         Sections := [] },
       { ID := "1.2".toList, Name := "Bar".toList, Automated := false, Location := [],
         Sections := [] }]
      ["1.1 Foo (Automated)".toList, "1.2 Bar (Manual)".toList] []
      "\n\n1.1 Foo (Automated)\nplain text\n1.2 Bar (Manual)\nAudit: look".toList
      (mustCompileClean "1 Setup".toList) false).2.2
      = ["(?<=1\\.2 Bar \\(Manual\\)\\n)(?:(?:.|\\n|\\r)*?)(?=Appendix:)".toList] ∧
    ((populateRules
      [{ ID := "1.1".toList, Name := "Foo".toList, Automated := true, Location := [],
         Sections := [] },
       { ID := "1.2".toList, Name := "Bar".toList, Automated := false, Location := [],
         Sections := [] }]
      ["1.1 Foo (Automated)".toList, "1.2 Bar (Manual)".toList] []
      "\n\n1.1 Foo (Automated)\nplain text\n1.2 Bar (Manual)\nAudit: look".toList
      (mustCompileClean "1 Setup".toList) false).1.getD 0 emptyRule).Sections = [] ∧
    ((populateRules
      [{ ID := "1.1".toList, Name := "Foo".toList, Automated := true, Location := [],
         Sections := [] },
       { ID := "1.2".toList, Name := "Bar".toList, Automated := false, Location := [],
         Sections := [] }]
      ["1.1 Foo (Automated)".toList, "1.2 Bar (Manual)".toList] []
      "\n\n1.1 Foo (Automated)\nplain text\n1.2 Bar (Manual)\nAudit: look".toList
      (mustCompileClean "1 Setup".toList) false).1.getD 1 emptyRule).Sections = [] ∧
    finalRegexString "1.1 Foo\nbar (Manual)".toList "Appendix:".toList
      = "(?<=1\\.1 Foo\\nbar \\(Manual\\)\\n)(?:(?:.|\\n|\\r)*?)(?=Appendix:)".toList := by
  have h := populateRules_error_lists
      [{ ID := "1.1".toList, Name := "Foo".toList, Automated := true, Location := [],
         Sections := [] },
       { ID := "1.2".toList, Name := "Bar".toList, Automated := false, Location := [],
         Sections := [] }]
      ["1.1 Foo (Automated)".toList, "1.2 Bar (Manual)".toList] []
      "\n\n1.1 Foo (Automated)\nplain text\n1.2 Bar (Manual)\nAudit: look".toList
      (mustCompileClean "1 Setup".toList) false
  exact ⟨h.1.trans (by decide), h.2.1.trans (by decide),
    (h.2.2.1 0 (by decide) (Or.inr ⟨"plain text\n".toList, by decide, by decide⟩)).trans
      (by decide),
    (h.2.2.1 1 (by decide) (Or.inl (by decide))).trans (by decide),
    (h.2.2.2.2 _ _).trans (by decide)⟩

/-! ## The alternatives of the cleanup pattern -/

theorem parseAlternation_plain (c : Char) (rest : Str) (h1 : c ≠ '\\') (h2 : c ≠ '|') :
    parseAlternation (c :: rest) = pushFirst c (parseAlternation rest) := by
  cases rest with
  | nil => simp [parseAlternation, h2, pushFirst]
  | cons d cs => simp [parseAlternation, h1, h2]

theorem parseAlternation_escaped (c : Char) (rest : Str) :
    parseAlternation ('\\' :: c :: rest) = pushFirst c (parseAlternation rest) := by
  simp [parseAlternation]

theorem parseAlternation_bar (rest : Str) :
    parseAlternation ('|' :: rest) = [] :: parseAlternation rest := by
  cases rest with
  | nil => simp [parseAlternation]
  | cons d cs =>
    have h : ('|' : Char) ≠ '\\' := by decide
    simp [parseAlternation, h]

theorem pushFirst_prependFirst (c : Char) (l : Str) (ps : List Str) :
    pushFirst c (prependFirst l ps) = prependFirst (c :: l) ps := by
  cases ps <;> simp [pushFirst, prependFirst]

theorem pushFirst_eq_prependFirst (c : Char) (ps : List Str) (h : ps ≠ []) :
    pushFirst c ps = prependFirst [c] ps := by
  cases ps with
  | nil => exact absurd rfl h
  | cons p t => simp [pushFirst, prependFirst]

theorem parseAlternation_ne_nil (s : Str) : parseAlternation s ≠ [] := by
  have key : ∀ n (s : Str), s.length ≤ n → parseAlternation s ≠ [] := by
    intro n
    induction n with
    | zero =>
      intro s hs
      have : s = [] := List.length_eq_zero.mp (Nat.le_zero.mp hs)
      subst this
      simp [parseAlternation]
    | succ k ih =>
      intro s hs
      cases s with
      | nil => simp [parseAlternation]
      | cons c rest =>
        cases rest with
        | nil => simp only [parseAlternation]; split <;> simp
        | cons d cs =>
          have h1 := ih cs (by simp at hs; omega)
          have h2 := ih (d :: cs) (by simp at hs ⊢; omega)
          simp only [parseAlternation]
          split
          · cases hp : parseAlternation cs <;> simp [pushFirst]
          · split
            · simp
            · cases hp : parseAlternation (d :: cs) <;> simp [pushFirst]
  exact key s.length s (Nat.le_refl _)

/-- Reading back a `QuoteMeta` output gives the quoted text. -/
theorem parseAlternation_quoteMeta (l rest : Str) :
    parseAlternation (quoteMeta l ++ rest) = prependFirst l (parseAlternation rest) := by
  induction l with
  | nil =>
    cases hp : parseAlternation rest with
    | nil => exact absurd hp (parseAlternation_ne_nil rest)
    | cons p t => simp [quoteMeta, prependFirst, hp]
  | cons c t ih =>
    by_cases hc : c ∈ "\\.+*?()|[]\x7b\x7d^$".toList
    · simp only [quoteMeta, hc, if_true, List.cons_append]
      rw [parseAlternation_escaped, ih, pushFirst_prependFirst]
    · have h1 : c ≠ '\\' := fun e => hc (by rw [e]; decide)
      have h2 : c ≠ '|' := fun e => hc (by rw [e]; decide)
      simp only [quoteMeta, hc, if_false, List.cons_append]
      rw [parseAlternation_plain c _ h1 h2, ih, pushFirst_prependFirst]

theorem quoteMeta_append (a b : Str) : quoteMeta (a ++ b) = quoteMeta a ++ quoteMeta b := by
  induction a with
  | nil => rfl
  | cons c t ih =>
    simp only [List.cons_append, quoteMeta]
    split <;> simp [ih]

theorem quoteMeta_not_bar (l rest : Str) :
    ("|".toList).isPrefixOf (quoteMeta l ++ ' ' :: rest) = false := by
  have hb : ("|".toList : Str) = ['|'] := rfl
  rw [hb]
  cases l with
  | nil => simp [quoteMeta, List.isPrefixOf]
  | cons c t =>
    by_cases hc : c ∈ "\\.+*?()|[]\x7b\x7d^$".toList
    · simp only [quoteMeta, hc, if_true, List.cons_append]
      simp [List.isPrefixOf]
    · have h2 : c ≠ '|' := fun e => hc (by rw [e]; decide)
      simp only [quoteMeta, hc, if_false, List.cons_append]
      simp [List.isPrefixOf, h2, Ne.symm h2]

theorem parseAlternation_entries (ls : List Str) :
    parseAlternation ((ls.map (fun L => '|' :: quoteMeta L)).flatten) = [] :: ls := by
  induction ls with
  | nil => simp [parseAlternation]
  | cons L t ih =>
    simp only [List.map_cons, List.flatten_cons, List.cons_append]
    rw [parseAlternation_bar, parseAlternation_quoteMeta, ih]
    simp [prependFirst]

theorem prepareLoop_noRuleString (titles : List Str) :
    (prepareLoop titles).noRuleString
      = ((chapterTexts titles).map (fun L => '|' :: quoteMeta L)).flatten := by
  have key : ∀ (l : List Str) (st : PrepState),
      (l.foldl prepareStep st).noRuleString
        = st.noRuleString ++ ((chapterTexts l).map (fun L => '|' :: quoteMeta L)).flatten := by
    intro l
    induction l with
    | nil => intro st; simp [chapterTexts]
    | cons t rest ih =>
      intro st
      rw [List.foldl_cons, ih]
      have hq : quoteMeta ((splitTitle t).id ++ " ".toList ++ (splitTitle t).name)
          = quoteMeta (splitTitle t).id ++ " ".toList ++ quoteMeta (splitTitle t).name := by
        rw [quoteMeta_append, quoteMeta_append]
        rfl
      unfold prepareStep chapterTexts
      simp only [splitTitle_err, List.filterMap_cons]
      by_cases hr : (splitTitle t).isActualRule = true
      · simp [hr]
      · simp only [hr, Bool.false_eq_true, if_false, List.map_cons, List.flatten_cons, hq]
        simp [List.append_assoc]
  unfold prepareLoop
  rw [key]
  simp

/-- The alternatives of the cleanup pattern are the `<id> <name>` texts of the
chapter entries; without any chapter entry the only alternative is the empty
text. -/
theorem prepareRules_alts (titles : List Str) :
    (prepareRules titles).2.2.1.alts
      = if chapterTexts titles = [] then [[]] else chapterTexts titles := by
  unfold prepareRules
  simp only [mustCompileClean, prepareLoop_noRuleString]
  cases hch : chapterTexts titles with
  | nil => simp [trimPrefix, hasPrefix, parseAlternation]
  | cons L t =>
    simp only [List.map_cons, List.flatten_cons, reduceCtorEq, if_false]
    have e1 : trimPrefix ('|' :: quoteMeta L ++ (t.map (fun L => '|' :: quoteMeta L)).flatten)
        "|".toList = quoteMeta L ++ (t.map (fun L => '|' :: quoteMeta L)).flatten := by
      simp [trimPrefix, hasPrefix]
    rw [e1]
    have hL : ∃ t' ∈ titles, L = (splitTitle t').id ++ " ".toList ++ (splitTitle t').name := by
      have hm : L ∈ chapterTexts titles := by rw [hch]; simp
      unfold chapterTexts at hm
      simp only [List.mem_filterMap] at hm
      obtain ⟨t', ht', hsome⟩ := hm
      split at hsome
      · cases hsome
      · exact ⟨t', ht', (Option.some.inj hsome).symm⟩
    obtain ⟨t', _, hLeq⟩ := hL
    have e2 : trimPrefix (quoteMeta L ++ (t.map (fun L => '|' :: quoteMeta L)).flatten)
        "|".toList = quoteMeta L ++ (t.map (fun L => '|' :: quoteMeta L)).flatten := by
      have hnb : ("|".toList).isPrefixOf
          (quoteMeta L ++ (t.map (fun L => '|' :: quoteMeta L)).flatten) = false := by
        rw [hLeq, quoteMeta_append, quoteMeta_append, List.append_assoc, List.append_assoc]
        exact quoteMeta_not_bar _ _
      unfold trimPrefix hasPrefix
      rw [hnb]
      simp
    rw [e2, parseAlternation_quoteMeta, parseAlternation_entries]
    simp [prependFirst]

/-- With at least one chapter entry, a text that contains no chapter's
`<id> <name>` text comes back unchanged from the cleanup. -/
theorem cleanup_keeps_text_without_chapter (titles : List Str) (text : Str)
    (hch : chapterTexts titles ≠ [])
    (hfree : ∀ a ∈ chapterTexts titles, ¬ a <:+: text) :
    (prepareRules titles).2.2.1.replaceAllEmpty text = text := by
  apply replaceAllEmpty_eq_self
  rw [prepareRules_alts]
  simpa [hch] using hfree

/-! ## Section keys of labels followed by plain whitespace -/

theorem isSpaceRE_mem_spaceChars (c : Char) (h : isSpaceRE c = true) : c ∈ spaceChars := by
  unfold isSpaceRE at h
  simp only [Bool.or_eq_true, decide_eq_true_eq] at h
  unfold spaceChars
  simp only [List.mem_cons, List.mem_singleton, List.not_mem_nil, or_false]
  tauto

theorem matchLabel_mem_labelTexts (label : List LabelAtom) (L : Str)
    (h : matchLabel label L = some []) : L ∈ labelTexts label := by
  induction label generalizing L with
  | nil =>
    simp only [matchLabel, Option.some.injEq] at h
    subst h
    simp [labelTexts]
  | cons a as ih =>
    cases L with
    | nil => simp [matchLabel] at h
    | cons c cs =>
      cases a with
      | lit x =>
        simp only [matchLabel] at h
        split at h
        · rename_i hx
          subst hx
          simp only [labelTexts, List.mem_map]
          exact ⟨cs, ih cs h, rfl⟩
        · cases h
      | space =>
        simp only [matchLabel] at h
        split at h
        · rename_i hx
          simp only [labelTexts, List.mem_flatMap, List.mem_map]
          exact ⟨c, isSpaceRE_mem_spaceChars c hx, cs, ih cs h, rfl⟩
        · cases h

theorem stringsTrim_append_cutset (L ws cutset : Str) (a b : Char)
    (hh : L.head? = some a) (ha : a ∉ cutset) (hl : L.getLast? = some b) (hb : b ∉ cutset)
    (hws : ∀ c ∈ ws, c ∈ cutset) : stringsTrim (L ++ ws) cutset = L := by
  unfold stringsTrim
  have h1 : (L ++ ws).dropWhile (fun c => decide (c ∈ cutset)) = L ++ ws := by
    cases L with
    | nil => simp at hh
    | cons c t =>
      simp only [List.head?_cons, Option.some.injEq] at hh
      subst hh
      simp [List.dropWhile, ha]
  rw [h1]
  have h2 : ∀ (w : Str), (∀ c ∈ w, c ∈ cutset) →
      (L ++ w).rdropWhile (fun c => decide (c ∈ cutset)) = L := by
    intro w
    induction w using List.reverseRecOn with
    | nil =>
      intro _
      rcases List.eq_nil_or_concat L with h0 | ⟨t, c, h0⟩
      · subst h0; simp at hh
      · rw [List.concat_eq_append] at h0
        subst h0
        have hl2 : (t ++ [c]).getLast? = some c := by simp
        rw [hl2] at hl
        have hcb : c = b := Option.some.inj hl
        subst hcb
        simp only [List.append_nil]
        exact List.rdropWhile_concat_neg _ _ _ (by simp [hb])
    | append_singleton w c ih =>
      intro hw
      rw [← List.append_assoc, List.rdropWhile_concat_pos _ _ _ (by simp [hw c (by simp)])]
      exact ih (fun x hx => hw x (by simp [hx]))
  exact h2 ws hws

/-- Every text of a section label is keyed by one of the nine keys when only
the colon and a run of the cutset follow it. -/
theorem labelTexts_keys : ∀ label ∈ sectionLabels, ∀ L ∈ labelTexts label,
    (∃ a, L.head? = some a ∧ a ∉ " :\t\n".toList) ∧
    (∃ b, L.getLast? = some b ∧ b ∉ " :\t\n".toList) ∧
    whitespaceReplaceAll (toLower L) "_".toList ∈ sectionKeys := by
  decide

/-- The key of a matched label text whose whitespace run holds only spaces,
tabs and line feeds is one of the nine section keys. -/
theorem sectionKeyName_of_plain_whitespace (label : List LabelAtom) (L ws : Str)
    (hlabel : label ∈ sectionLabels) (hm : matchLabel label L = some [])
    (hws : ∀ c ∈ ws, c = ' ' ∨ c = '\t' ∨ c = '\n') :
    sectionKeyName (L ++ ':' :: ws) ∈ sectionKeys := by
  obtain ⟨⟨a, ha1, ha2⟩, ⟨b, hb1, hb2⟩, hkey⟩ :=
    labelTexts_keys label hlabel L (matchLabel_mem_labelTexts label L hm)
  have hcut : ∀ c ∈ ':' :: ws, c ∈ " :\t\n".toList := by
    intro c hc
    rcases List.mem_cons.mp hc with h | h
    · subst h; decide
    · rcases hws c h with h | h | h <;> (subst h; decide)
  unfold sectionKeyName
  simp only []
  rw [stringsTrim_append_cutset L (':' :: ws) _ a b ha1 ha2 hb1 hb2 hcut]
  exact hkey


/-! ## The rule catalogue of `prepareRules` -/

theorem prepareLoop_rules (titles : List Str) :
    (prepareLoop titles).rules = (ruleTitles titles).map ruleOfTitle ∧
    (prepareLoop titles).noRuleCount
      = (titles.filter (fun t => !(splitTitle t).isActualRule)).length := by
  have key : ∀ (l : List Str) (st : PrepState),
      (l.foldl prepareStep st).rules = st.rules ++ (ruleTitles l).map ruleOfTitle ∧
      (l.foldl prepareStep st).noRuleCount
        = st.noRuleCount + (l.filter (fun t => !(splitTitle t).isActualRule)).length := by
    intro l
    induction l with
    | nil => intro st; simp [ruleTitles]
    | cons t rest ih =>
      intro st
      rw [List.foldl_cons]
      obtain ⟨h1, h2⟩ := ih (prepareStep st t)
      rw [h1, h2]
      unfold prepareStep ruleTitles
      simp only [splitTitle_err, List.filter_cons]
      by_cases hr : (splitTitle t).isActualRule = true
      · simp [hr, ruleOfTitle, ruleTitles]
      · simp only [hr, Bool.false_eq_true, if_false]
        simp [hr, ruleTitles]
        omega
  obtain ⟨h1, h2⟩ := key titles { noRuleCount := 0, ruleIDToName := [], noRuleString := [], rules := [] }
  unfold prepareLoop
  rw [h1, h2]
  simp

/-- C12: the rule sequence returned by `prepareRules` is the subsequence of
the titles that `splitTitle` classifies as rules, in the order of the input,
each turned into a Rule with the id, name and automated flag that
`splitTitle` returns for it and with empty location and empty sections; the
other titles produce no Rule and are counted in `noRuleCount`.  This holds
for every title list, so also for the lists whose titles all split. -/
theorem prepareRules_rule_sequence (titles : List Str) :
    (prepareRules titles).2.2.2
      = (titles.filter (fun t => (splitTitle t).isActualRule)).map (fun t =>
          ({ ID := (splitTitle t).id, Name := (splitTitle t).name,
             Automated := (splitTitle t).automated, Location := [], Sections := [] } : Rule)) ∧
    (prepareRules titles).1
      = (titles.filter (fun t => !(splitTitle t).isActualRule)).length ∧
    (prepareRules titles).2.2.2.length + (prepareRules titles).1 = titles.length := by
  obtain ⟨h1, h2⟩ := prepareLoop_rules titles
  have e1 : (prepareRules titles).2.2.2 = (prepareLoop titles).rules := rfl
  have e2 : (prepareRules titles).1 = (prepareLoop titles).noRuleCount := rfl
  rw [e1, e2, h1, h2]
  refine ⟨rfl, rfl, ?_⟩
  simp only [ruleTitles, List.length_map]
  have := @List.length_eq_length_filter_add Str titles (fun t => (splitTitle t).isActualRule)
  simp only [] at this
  omega

theorem populateRules_ids (rulesIn : List Rule) (sectionTitles : List Str) (m : StrMap)
    (content : Str) (re : CleanRegexp) (trim : Bool) :
    (populateRules rulesIn sectionTitles m content re trim).1.map (fun r => r.ID)
      = rulesIn.map (fun r => r.ID) := by
  rw [populateRules_eq]
  simp only [List.map_map]
  have hk : ∀ i, ((fun r : Rule => r.ID) ∘ fun i =>
        (ruleOutcome sectionTitles m content re trim rulesIn i).1) i
      = (fun i => (fun r : Rule => r.ID) (rulesIn.getD i emptyRule)) i := by
    intro i
    obtain ⟨h1, _, _⟩ := populateRule_keeps sectionTitles m content re trim
      (rulesIn.getD i emptyRule) (decide (i = rulesIn.length - 1)) (nextRuleID rulesIn i)
    simp only [Function.comp, ruleOutcome, h1]
  rw [funext hk]
  have h2 := congrArg (List.map (fun r : Rule => r.ID)) (range_map_getD rulesIn emptyRule)
  rw [List.map_map] at h2
  exact h2

/-- Counterexample to C11: the titles `1.1 A (Automated)` and `1.1 B (Manual)`
give a catalogue in which the rule ID `1.1` appears twice, after
`prepareRules` and after `populateRules`. -/
theorem catalogue_ids_repeat :
    (prepareRules ["1.1 A (Automated)".toList, "1.1 B (Manual)".toList]).2.2.2.map (fun r => r.ID)
      = ["1.1".toList, "1.1".toList] ∧
    ¬ ((populateRules
        (prepareRules ["1.1 A (Automated)".toList, "1.1 B (Manual)".toList]).2.2.2 []
        (prepareRules ["1.1 A (Automated)".toList, "1.1 B (Manual)".toList]).2.1 []
        (prepareRules ["1.1 A (Automated)".toList, "1.1 B (Manual)".toList]).2.2.1 false).1.map
          (fun r => r.ID)).Nodup := by
  refine ⟨by decide, ?_⟩
  rw [populateRules_ids]
  decide

/-- C11, amended: the rule IDs of the catalogue that `prepareRules` builds and
`populateRules` returns are the ids that `splitTitle` gives for the rule
titles, in title order, for every list of titles; so they are pairwise
distinct whenever the rule titles of the list have pairwise distinct ids. -/
theorem catalogue_ids_of_titles (titles sectionTitles : List Str) (content : Str) (trim : Bool) :
    (populateRules (prepareRules titles).2.2.2 sectionTitles (prepareRules titles).2.1 content
        (prepareRules titles).2.2.1 trim).1.map (fun r => r.ID)
      = (ruleTitles titles).map (fun t => (splitTitle t).id) ∧
    (((ruleTitles titles).map (fun t => (splitTitle t).id)).Nodup →
      ((populateRules (prepareRules titles).2.2.2 sectionTitles (prepareRules titles).2.1 content
        (prepareRules titles).2.2.1 trim).1.map (fun r => r.ID)).Nodup) := by
  have e1 : (prepareRules titles).2.2.2 = (prepareLoop titles).rules := rfl
  have hids : (populateRules (prepareRules titles).2.2.2 sectionTitles (prepareRules titles).2.1
        content (prepareRules titles).2.2.1 trim).1.map (fun r => r.ID)
      = (ruleTitles titles).map (fun t => (splitTitle t).id) := by
    rw [populateRules_ids, e1, (prepareLoop_rules titles).1, List.map_map]
    rfl
  exact ⟨hids, fun hdistinct => by rw [hids]; exact hdistinct⟩

/-- Witness for the amended C11 on the titles `1 Setup`, `1.1 A (Automated)`,
`1.2 B (Manual)`. -/
theorem catalogue_ids_of_titles_witness :
    ((populateRules
        (prepareRules ["1 Setup".toList, "1.1 A (Automated)".toList, "1.2 B (Manual)".toList]).2.2.2
        []
        (prepareRules ["1 Setup".toList, "1.1 A (Automated)".toList, "1.2 B (Manual)".toList]).2.1
        []
        (prepareRules ["1 Setup".toList, "1.1 A (Automated)".toList, "1.2 B (Manual)".toList]).2.2.1
        false).1.map (fun r => r.ID)).Nodup :=
  (catalogue_ids_of_titles ["1 Setup".toList, "1.1 A (Automated)".toList, "1.2 B (Manual)".toList]
    [] [] false).2 (by decide)

/-! ## The CSV records of `writeResultFile` -/

theorem csvHeaderLoop_eq :
    csvHeaderLoop
      = (["ID".toList, "Name".toList, "Location".toList, "Automated".toList] ++ sectionNames,
         sectionKeys) := by
  decide

theorem csvRecord_foldl (sections : StrMap) (keys : List Str) (init : List Str) :
    keys.foldl
      (fun acc sectionKey =>
        match mapGet sections sectionKey with
        | some val => acc ++ [val]
        | none => acc ++ [" ".toList])
      init
    = init ++ keys.map (fun k =>
        match mapGet sections k with
        | some val => val
        | none => " ".toList) := by
  induction keys generalizing init with
  | nil => simp
  | cons k rest ih =>
    rw [List.foldl_cons, ih]
    cases h : mapGet sections k <;> simp [h]

theorem csvRecord_eq (rule : Rule) :
    csvRecord csvHeaderLoop.2 rule
      = [rule.ID, rule.Name, locationString rule.Location, sprintfBool rule.Automated]
          ++ sectionCells rule.Sections := by
  unfold csvRecord
  simp only []
  rw [csvRecord_foldl, csvHeaderLoop_eq]
  rfl

/-- Counterexample to C18: a rule whose Sections hold the empty text under the
key `audit` gets the empty text, not a single space, in the audit cell. -/
theorem csvRecord_empty_text_cell :
    (csvRecord csvHeaderLoop.2
        { ID := "1.1".toList, Name := "Foo".toList, Automated := true, Location := [],
          Sections := [("audit".toList, [])] }).getD 7 ['?'] = [] ∧
    (csvRecord csvHeaderLoop.2
        { ID := "1.1".toList, Name := "Foo".toList, Automated := true, Location := [],
          Sections := [("audit".toList, [])] }).getD 7 ['?'] ≠ " ".toList ∧
    csvRecord csvHeaderLoop.2
        { ID := "1.1".toList, Name := "Foo".toList, Automated := true, Location := [],
          Sections := [("audit".toList, [])] }
      = ["1.1".toList, "Foo".toList, [], "true".toList, " ".toList, " ".toList, " ".toList, [],
          " ".toList, " ".toList, " ".toList, " ".toList, " ".toList] := by
  refine ⟨by decide, by decide, by decide⟩

/-- C18, amended: in the CSV record of every rule the four leading cells are
followed by the nine section cells, and the cell of a section is the single
space when the key of the section is missing from the Sections of the rule,
and the stored text otherwise, also when the stored text is empty. -/
theorem csvRecord_section_cells (rule : Rule) :
    csvRecord csvHeaderLoop.2 rule
      = [rule.ID, rule.Name, locationString rule.Location, sprintfBool rule.Automated]
          ++ sectionKeys.map (fun k =>
            match mapGet rule.Sections k with
            | some val => val
            | none => " ".toList) ∧
    sectionKeys = sectionNames.map sectionKeyName ∧
    (∀ i, i < 9 →
      (csvRecord csvHeaderLoop.2 rule).getD (4 + i) []
        = match mapGet rule.Sections (sectionKeys.getD i []) with
          | some val => val
          | none => " ".toList) := by
  refine ⟨csvRecord_eq rule, by decide, ?_⟩
  intro i hi
  rw [csvRecord_eq]
  have hlen : ([rule.ID, rule.Name, locationString rule.Location,
      sprintfBool rule.Automated] : List Str).length = 4 := rfl
  rw [List.getD_eq_getElem?_getD, List.getElem?_append_right (by rw [hlen]; omega), hlen,
    Nat.add_sub_cancel_left]
  unfold sectionCells
  rw [List.getElem?_map]
  have hk : sectionKeys[i]? = some (sectionKeys.getD i []) := by
    rw [List.getD_eq_getElem?_getD]
    have : i < sectionKeys.length := by simpa [sectionKeys] using hi
    rw [List.getElem?_eq_getElem this]
    rfl
  rw [hk]
  simp only [Option.map_some', Option.getD_some]

/-- Witness for the amended C18 on the remediation cell of a rule that stores
the text `fix it` for it. -/
theorem csvRecord_section_cells_witness :
    (csvRecord csvHeaderLoop.2
        { ID := "1.1".toList, Name := "Foo".toList, Automated := true, Location := [],
          Sections := [("remediation".toList, "fix it".toList)] }).getD (4 + 4) []
      = match mapGet [("remediation".toList, "fix it".toList)] (sectionKeys.getD 4 []) with
        | some val => val
        | none => " ".toList :=
  (csvRecord_section_cells
    { ID := "1.1".toList, Name := "Foo".toList, Automated := true, Location := [],
      Sections := [("remediation".toList, "fix it".toList)] }).2.2 4 (by decide)

theorem locationString_foldl (loc : List Location) (init : Str) :
    loc.foldl (fun acc l => acc ++ l.ID ++ " ".toList ++ l.Name ++ ", ".toList) init
      = init ++ (loc.map (fun l => renderLocation l ++ ", ".toList)).flatten := by
  induction loc generalizing init with
  | nil => simp
  | cons l rest ih =>
    rw [List.foldl_cons, ih]
    simp [renderLocation, List.append_assoc]

theorem flatten_with_separator (parts : List Str) (sep : Str) (h : parts ≠ []) :
    (parts.map (fun p => p ++ sep)).flatten = stringsJoin parts sep ++ sep := by
  induction parts with
  | nil => exact absurd rfl h
  | cons a rest ih =>
    cases rest with
    | nil => simp [stringsJoin]
    | cons b u =>
      have h2 := ih (by simp)
      simp only [List.map_cons, List.flatten_cons] at h2 ⊢
      rw [h2]
      simp [stringsJoin, List.append_assoc]

theorem trimSuffix_append (x suf : Str) : trimSuffix (x ++ suf) suf = x := by
  unfold trimSuffix hasSuffix
  have h : suf.isSuffixOf (x ++ suf) = true :=
    List.isSuffixOf_iff_suffix.mpr (List.suffix_append x suf)
  simp [h]

/-- C19: the Location cell of the CSV record of a rule is the list of its
location entries, each rendered as `id name`, joined by `", "` in location
order: the separator stands between entries only, and the cell is the empty
string for an empty location. -/
theorem csvRecord_location_cell (rule : Rule) :
    (csvRecord csvHeaderLoop.2 rule).getD 2 ['?']
      = stringsJoin (rule.Location.map (fun l => l.ID ++ " ".toList ++ l.Name)) ", ".toList ∧
    locationString []  = [] ∧
    (∀ a b : Location, locationString [a, b]
      = a.ID ++ " ".toList ++ a.Name ++ ", ".toList ++ (b.ID ++ " ".toList ++ b.Name)) := by
  have key : ∀ loc : List Location, locationString loc
      = stringsJoin (loc.map (fun l => l.ID ++ " ".toList ++ l.Name)) ", ".toList := by
    intro loc
    unfold locationString
    simp only []
    rw [locationString_foldl, List.nil_append]
    cases loc with
    | nil => rfl
    | cons l rest =>
      have hmap : ((l :: rest).map (fun l => renderLocation l ++ ", ".toList))
          = (((l :: rest).map renderLocation).map (fun p => p ++ ", ".toList)) := by
        rw [List.map_map]; rfl
      rw [hmap, flatten_with_separator _ _ (by simp), trimSuffix_append]
      rfl
  refine ⟨?_, rfl, ?_⟩
  · rw [csvRecord_eq, ← key]
    rfl
  · intro a b
    rw [key]
    simp [stringsJoin, List.append_assoc]

/-! ## `splitTitle` and a status suffix inside the title -/

/-- C20: for `p = "1.1 Foo (Manual) bar "`, which does not end with a status
suffix, and the suffix `(Manual)`, `splitTitle (p ++ s)` removes both
occurrences of `(Manual)` and returns the name `Foo bar`, while `splitTitle p`
returns the name `Foo (Manual) bar`. -/
theorem splitTitle_removes_inner_suffix_text :
    hasSuffixAny "1.1 Foo (Manual) bar ".toList rStr = false ∧
    removeSuffixAny "1.1 Foo (Manual) bar (Manual)".toList rStr = "1.1 Foo  bar ".toList ∧
    (splitTitle "1.1 Foo (Manual) bar (Manual)".toList).name = "Foo bar".toList ∧
    (splitTitle "1.1 Foo (Manual) bar ".toList).name = "Foo (Manual) bar".toList ∧
    (splitTitle "1.1 Foo (Manual) bar (Manual)".toList).name
      ≠ (splitTitle "1.1 Foo (Manual) bar ".toList).name := by
  refine ⟨by decide, by decide, by decide, by decide, by decide⟩

/-- When the text of the status suffix occurs nowhere in `p`, and `p` ends
with no status suffix, `splitTitle (p ++ s)` has the id and name of
`splitTitle p`. -/
theorem splitTitle_suffix_only_at_end (p s : Str) (hs : s ∈ rStr)
    (hend : hasSuffixAny p rStr = false) (hfree : ¬ s <:+: p) :
    (splitTitle (p ++ s)).id = (splitTitle p).id ∧
    (splitTitle (p ++ s)).name = (splitTitle p).name := by
  obtain ⟨hub, _, _⟩ := rStr_shape s hs
  have hsuf : s <:+ p ++ s := List.suffix_append p s
  have hany : hasSuffixAny (p ++ s) rStr = true := (hasSuffixAny_iff _ _).mpr ⟨s, hs, hsuf⟩
  have huniq : ∀ s' ∈ rStr, s' <:+ p ++ s → s' = s :=
    fun s' hs' h' => rStr_unique_suffix (p ++ s) s' s hs' hs h' hsuf
  have hrem : removeSuffixAny (p ++ s) rStr = p := by
    rw [removeSuffixAny_eq (p ++ s) s rStr hs hsuf huniq]
    exact replaceAll_append_self s p (no_early_occurrence s p hub hfree)
  unfold splitTitle
  simp only [hany, hend, hrem, if_true, Bool.false_eq_true, if_false]
  cases titleIDRegexFindStringSubmatch p <;> exact ⟨rfl, rfl⟩

/-! ## Idempotence of `sectionKeyName` -/

theorem whitespaceReplaceAux_mem (b : Bool) (l : Str) :
    ∀ c ∈ whitespaceReplaceAux ['_'] b l, c = '_' ∨ (c ∈ l ∧ isSpaceRE c = false) := by
  induction l generalizing b with
  | nil => simp [whitespaceReplaceAux]
  | cons a t ih =>
    intro c hc
    by_cases ha : isSpaceRE a = true
    · cases b with
      | true =>
        simp only [whitespaceReplaceAux, ha, if_true] at hc
        rcases ih true c hc with h | ⟨h1, h2⟩
        · exact Or.inl h
        · exact Or.inr ⟨List.mem_cons_of_mem a h1, h2⟩
      | false =>
        simp only [whitespaceReplaceAux, ha, if_true, Bool.false_eq_true, if_false,
          List.singleton_append, List.mem_cons] at hc
        rcases hc with h | h
        · exact Or.inl h
        · rcases ih true c h with h | ⟨h1, h2⟩
          · exact Or.inl h
          · exact Or.inr ⟨List.mem_cons_of_mem a h1, h2⟩
    · simp only [whitespaceReplaceAux, ha, Bool.false_eq_true, if_false, List.mem_cons] at hc
      rcases hc with h | h
      · subst h
        exact Or.inr ⟨by simp, by simpa using ha⟩
      · rcases ih false c h with h | ⟨h1, h2⟩
        · exact Or.inl h
        · exact Or.inr ⟨List.mem_cons_of_mem a h1, h2⟩

theorem whitespaceReplaceAux_head (l : Str) (a : Char)
    (h : (whitespaceReplaceAux ['_'] false l).head? = some a) : a = '_' ∨ l.head? = some a := by
  cases l with
  | nil => simp [whitespaceReplaceAux] at h
  | cons c t =>
    by_cases hc : isSpaceRE c = true
    · simp [whitespaceReplaceAux, hc] at h
      exact Or.inl h.symm
    · simp [whitespaceReplaceAux, hc] at h
      exact Or.inr (by simp [h])

theorem whitespaceReplaceAux_false_ne_nil (c : Char) (t : Str) :
    whitespaceReplaceAux ['_'] false (c :: t) ≠ [] := by
  by_cases hc : isSpaceRE c = true <;> simp [whitespaceReplaceAux, hc]

theorem getLast?_cons_of_some (a d : Char) (X : Str) (h : X.getLast? = some d) :
    (a :: X).getLast? = some d := by
  cases X with
  | nil => simp at h
  | cons b Y => rw [List.getLast?_cons_cons]; exact h

theorem whitespaceReplaceAux_last (b : Bool) (l : Str) (d : Char)
    (h : (whitespaceReplaceAux ['_'] b l).getLast? = some d) :
    d = '_' ∨ l.getLast? = some d := by
  induction l generalizing b with
  | nil => simp [whitespaceReplaceAux] at h
  | cons c t ih =>
    by_cases hc : isSpaceRE c = true
    · have key : ∀ X : Str, X = whitespaceReplaceAux ['_'] true t →
          (X.getLast? = some d ∨ (X = [] ∧ d = '_')) → d = '_' ∨ (c :: t).getLast? = some d := by
        intro X hX hcase
        rcases hcase with h1 | ⟨_, h2⟩
        · rw [hX] at h1
          rcases ih true h1 with h3 | h3
          · exact Or.inl h3
          · exact Or.inr (getLast?_cons_of_some c d t h3)
        · exact Or.inl h2
      cases b with
      | true =>
        simp only [whitespaceReplaceAux, hc, if_true] at h
        exact key _ rfl (Or.inl h)
      | false =>
        simp only [whitespaceReplaceAux, hc, if_true, Bool.false_eq_true, if_false,
          List.singleton_append] at h
        cases hX : whitespaceReplaceAux ['_'] true t with
        | nil =>
          rw [hX] at h
          simp at h
          exact Or.inl h.symm
        | cons x Y =>
          rw [hX, List.getLast?_cons_cons] at h
          exact key _ rfl (Or.inl (by rw [hX]; exact h))
    · simp only [whitespaceReplaceAux, hc, Bool.false_eq_true, if_false] at h
      cases t with
      | nil =>
        simp [whitespaceReplaceAux] at h
        exact Or.inr (by simp [h])
      | cons x u =>
        cases hX : whitespaceReplaceAux ['_'] false (x :: u) with
        | nil => exact absurd hX (whitespaceReplaceAux_false_ne_nil x u)
        | cons y Y =>
          rw [hX, List.getLast?_cons_cons] at h
          rcases ih false (by rw [hX]; exact h) with h3 | h3
          · exact Or.inl h3
          · exact Or.inr (getLast?_cons_of_some c d _ h3)

theorem stringsTrim_ends (x cutset : Str) :
    (∀ a, (stringsTrim x cutset).head? = some a → a ∉ cutset) ∧
    (∀ b, (stringsTrim x cutset).getLast? = some b → b ∉ cutset) := by
  unfold stringsTrim
  constructor
  · intro a ha
    have hpre : (List.dropWhile (fun c => decide (c ∈ cutset)) x).rdropWhile
        (fun c => decide (c ∈ cutset)) <+: List.dropWhile (fun c => decide (c ∈ cutset)) x :=
      List.rdropWhile_prefix _ _
    obtain ⟨r, hr⟩ := hpre
    have h2 : (List.dropWhile (fun c => decide (c ∈ cutset)) x).head? = some a := by
      rw [← hr]
      cases hl : (List.dropWhile (fun c => decide (c ∈ cutset)) x).rdropWhile
          (fun c => decide (c ∈ cutset)) with
      | nil => rw [hl] at ha; simp at ha
      | cons y Y => rw [hl] at ha; simpa using ha
    have h3 := List.head?_dropWhile_not (fun c => decide (c ∈ cutset)) x
    rw [h2] at h3
    simpa using h3
  · intro b hb
    have hne : (List.dropWhile (fun c => decide (c ∈ cutset)) x).rdropWhile
        (fun c => decide (c ∈ cutset)) ≠ [] := by
      intro h0; rw [h0] at hb; simp at hb
    have h1 := List.rdropWhile_last_not (fun c => decide (c ∈ cutset))
      (List.dropWhile (fun c => decide (c ∈ cutset)) x) hne
    rw [List.getLast?_eq_getLast _ hne] at hb
    have hb' := Option.some.inj hb
    rw [hb'] at h1
    simpa using h1

theorem stringsTrim_of_ends (l cutset : Str)
    (hh : ∀ a, l.head? = some a → a ∉ cutset) (hl : ∀ b, l.getLast? = some b → b ∉ cutset) :
    stringsTrim l cutset = l := by
  unfold stringsTrim
  have h1 : l.dropWhile (fun c => decide (c ∈ cutset)) = l := by
    cases l with
    | nil => rfl
    | cons c t =>
      have := hh c (by simp)
      simp [List.dropWhile, this]
  rw [h1, List.rdropWhile_eq_self_iff]
  intro hne
  have := hl (l.getLast hne) (List.getLast?_eq_getLast _ hne)
  simpa using this

/-- The key function is idempotent for every rune mapping that is idempotent,
keeps the underscore and maps no character into the trim cutset. -/
theorem sectionKeyNameWith_idempotent (lower : Char → Char)
    (hidem : ∀ c, lower (lower c) = lower c) (hus : lower '_' = '_')
    (hcut : ∀ c, lower c ∈ " :\t\n".toList → c ∈ " :\t\n".toList) (x : Str) :
    sectionKeyNameWith lower (sectionKeyNameWith lower x) = sectionKeyNameWith lower x := by
  obtain ⟨th, tl⟩ := stringsTrim_ends x " :\t\n".toList
  have hy : sectionKeyNameWith lower x
      = whitespaceReplaceAux ['_'] false ((stringsTrim x " :\t\n".toList).map lower) := rfl
  have hmem := whitespaceReplaceAux_mem false ((stringsTrim x " :\t\n".toList).map lower)
  rw [← hy] at hmem
  -- the ends of the key are outside the cutset
  have hus_cut : '_' ∉ " :\t\n".toList := by decide
  have yh : ∀ a, (sectionKeyNameWith lower x).head? = some a → a ∉ " :\t\n".toList := by
    intro a ha
    rw [hy] at ha
    rcases whitespaceReplaceAux_head _ a ha with h | h
    · rw [h]; exact hus_cut
    · rw [List.head?_map] at h
      cases ht : (stringsTrim x " :\t\n".toList).head? with
      | none => rw [ht] at h; simp at h
      | some a0 =>
        rw [ht] at h
        simp only [Option.map_some', Option.some.injEq] at h
        intro hin
        rw [← h] at hin
        exact th a0 ht (hcut a0 hin)
  have yl : ∀ b, (sectionKeyNameWith lower x).getLast? = some b → b ∉ " :\t\n".toList := by
    intro b hb
    rw [hy] at hb
    rcases whitespaceReplaceAux_last false _ b hb with h | h
    · rw [h]; exact hus_cut
    · rw [List.getLast?_map] at h
      cases ht : (stringsTrim x " :\t\n".toList).getLast? with
      | none => rw [ht] at h; simp at h
      | some b0 =>
        rw [ht] at h
        simp only [Option.map_some', Option.some.injEq] at h
        intro hin
        rw [← h] at hin
        exact tl b0 ht (hcut b0 hin)
  have hfix : (sectionKeyNameWith lower x).map lower = sectionKeyNameWith lower x := by
    have : ∀ c ∈ sectionKeyNameWith lower x, lower c = c := by
      intro c hc
      rcases hmem c hc with h | ⟨h1, _⟩
      · rw [h]; exact hus
      · obtain ⟨c0, _, hc0⟩ := List.mem_map.mp h1
        rw [← hc0]; exact hidem c0
    calc (sectionKeyNameWith lower x).map lower
        = (sectionKeyNameWith lower x).map id := List.map_congr_left this
      _ = sectionKeyNameWith lower x := List.map_id _
  have hnosp : ∀ c ∈ sectionKeyNameWith lower x, isSpaceRE c = false := by
    intro c hc
    rcases hmem c hc with h | ⟨_, h2⟩
    · rw [h]; decide
    · exact h2
  have step : sectionKeyNameWith lower (sectionKeyNameWith lower x)
      = whitespaceReplaceAux ['_'] false
          ((stringsTrim (sectionKeyNameWith lower x) " :\t\n".toList).map lower) := rfl
  rw [step, stringsTrim_of_ends _ _ yh yl, hfix]
  exact whitespaceReplaceAux_of_no_space _ _ _ hnosp

theorem toLower_cases (c : Char) :
    Char.toLower c = c ∨ (65 ≤ c.toNat ∧ c.toNat ≤ 90 ∧ Char.toLower c = Char.ofNat (c.toNat + 32)) := by
  unfold Char.toLower
  simp only []
  split
  · rename_i h
    exact Or.inr ⟨h.1, h.2, rfl⟩
  · exact Or.inl rfl

theorem ofNat_lower_facts : ∀ n, 65 ≤ n → n ≤ 90 →
    Char.toLower (Char.ofNat (n + 32)) = Char.ofNat (n + 32) ∧
    Char.ofNat (n + 32) ∉ " :\t\n".toList := by
  intro n h1 h2
  interval_cases n <;> decide

theorem toLower_idempotent (c : Char) : Char.toLower (Char.toLower c) = Char.toLower c := by
  rcases toLower_cases c with h | ⟨h1, h2, h3⟩
  · rw [h, h]
  · rw [h3]
    exact (ofNat_lower_facts c.toNat h1 h2).1

theorem toLower_cutset (c : Char) (h : Char.toLower c ∈ " :\t\n".toList) :
    c ∈ " :\t\n".toList := by
  rcases toLower_cases c with h0 | ⟨h1, h2, h3⟩
  · rw [h0] at h; exact h
  · rw [h3] at h
    exact absurd h (ofNat_lower_facts c.toNat h1 h2).2

/-- C15: `sectionKeyName` is idempotent,
`sectionKeyName (sectionKeyName x) = sectionKeyName x` for every string `x`,
and `sectionKeyName "Default Value:" = "default_value"`.  The idempotence
does not depend on the lower-casing being that of the ASCII range: it holds
for every rune mapping that is idempotent, keeps the underscore and maps no
character into the trim cutset. -/
theorem sectionKeyName_idempotent :
    (∀ x, sectionKeyName (sectionKeyName x) = sectionKeyName x) ∧
    sectionKeyName "Default Value:".toList = "default_value".toList ∧
    (∀ x, sectionKeyName x = sectionKeyNameWith Char.toLower x) ∧
    (∀ lower : Char → Char, (∀ c, lower (lower c) = lower c) → lower '_' = '_' →
      (∀ c, lower c ∈ " :\t\n".toList → c ∈ " :\t\n".toList) →
      ∀ x, sectionKeyNameWith lower (sectionKeyNameWith lower x) = sectionKeyNameWith lower x) := by
  refine ⟨?_, by decide, fun _ => rfl,
    fun lower h1 h2 h3 x => sectionKeyNameWith_idempotent lower h1 h2 h3 x⟩
  intro x
  exact sectionKeyNameWith_idempotent Char.toLower toLower_idempotent (by decide) toLower_cutset x

/-- Witness for C15 with the ASCII lower-casing as rune mapping and the text
`  Default Value: `. -/
theorem sectionKeyName_idempotent_witness :
    sectionKeyNameWith Char.toLower (sectionKeyNameWith Char.toLower "  Default Value: ".toList)
      = sectionKeyNameWith Char.toLower "  Default Value: ".toList :=
  sectionKeyName_idempotent.2.2.2 Char.toLower toLower_idempotent (by decide) toLower_cutset
    "  Default Value: ".toList

/-! ## `sectionContent`: runs of line feeds -/

theorem linebreakMatch_lineFeeds (k : Nat) : ∀ (fuel count : Nat) (last rest : Str),
    (rest = [] ∨ ∃ c t, rest = c :: t ∧ c ≠ '\n' ∧ c ≠ '\r') → k < fuel →
    linebreakMatch fuel count last (List.replicate k '\n' ++ rest)
      = if 3 ≤ count + k then some (if k = 0 then last else ['\n'], rest) else none := by
  induction k with
  | zero =>
    intro fuel count last rest hrest hf
    cases fuel with
    | zero => omega
    | succ f =>
      rcases hrest with h | ⟨c, t, h, hn, hr⟩
      · subst h
        simp [linebreakMatch]
      · subst h
        simp [linebreakMatch, hn, hr]
  | succ k ih =>
    intro fuel count last rest hrest hf
    cases fuel with
    | zero => omega
    | succ f =>
      have h1 := ih f (count + 1) ['\n'] rest hrest (by omega)
      have hnr : ('\n' : Char) ≠ '\r' := by decide
      simp only [List.replicate_succ, List.cons_append, linebreakMatch, hnr, if_false, if_true, h1]
      by_cases h3 : 3 ≤ count + 1 + k
      · have h3' : 3 ≤ count + (k + 1) := by omega
        simp [h3, h3']
      · have h3' : ¬ 3 ≤ count + (k + 1) := by omega
        have h4 : ¬ 3 ≤ count := by omega
        simp [h3, h3', h4]

theorem reduceLinebreaksAux_skip (l rest : Str) :
    reduceLinebreaksAux l.length (l ++ rest) = reduceLinebreaksAux 0 rest := by
  induction l with
  | nil => rfl
  | cons c t ih => simpa [reduceLinebreaksAux] using ih

theorem reduceLinebreaksAux_other (c : Char) (t : Str) (hn : c ≠ '\n') (hr : c ≠ '\r') :
    reduceLinebreaksAux 0 (c :: t) = c :: reduceLinebreaksAux 0 t := by
  have h := linebreakMatch_lineFeeds 0 (t.length + 2) 0 [] (c :: t)
    (Or.inr ⟨c, t, rfl, hn, hr⟩) (by omega)
  simp only [List.replicate_zero, List.nil_append] at h
  simp only [reduceLinebreaksAux, h]
  simp

theorem reduceLinebreaksAux_run (k : Nat) (rest : Str)
    (hrest : rest = [] ∨ ∃ c t, rest = c :: t ∧ c ≠ '\n' ∧ c ≠ '\r') :
    reduceLinebreaksAux 0 (List.replicate k '\n' ++ rest)
      = lineFeedRun k ++ reduceLinebreaksAux 0 rest := by
  have small : ∀ j, j < 3 → reduceLinebreaksAux 0 (List.replicate j '\n' ++ rest)
      = List.replicate j '\n' ++ reduceLinebreaksAux 0 rest := by
    intro j
    induction j with
    | zero => intro _; rfl
    | succ i ih =>
      intro hj
      have h := linebreakMatch_lineFeeds (i + 1) ((List.replicate i '\n' ++ rest).length + 2) 0 []
        rest hrest (by simp; omega)
      have hno : ¬ 3 ≤ 0 + (i + 1) := by omega
      simp only [hno, if_false] at h
      simp only [List.replicate_succ, List.cons_append] at h ⊢
      simp only [reduceLinebreaksAux, h]
      rw [ih (by omega)]
  by_cases hk : 3 ≤ k
  · obtain ⟨j, hj⟩ : ∃ j, k = j + 1 := ⟨k - 1, by omega⟩
    subst hj
    have h := linebreakMatch_lineFeeds (j + 1) ((List.replicate j '\n' ++ rest).length + 2) 0 []
      rest hrest (by simp; omega)
    have hyes : 3 ≤ 0 + (j + 1) := by omega
    simp only [hyes, if_true, Nat.succ_ne_zero, if_false] at h
    simp only [List.replicate_succ, List.cons_append] at h ⊢
    simp only [reduceLinebreaksAux, h, lineFeedRun, hk, if_true]
    have hlen : (List.replicate j '\n' ++ rest).length - rest.length
        = (List.replicate j '\n').length := by simp
    rw [hlen, reduceLinebreaksAux_skip]
  · rw [small k (by omega)]
    simp [lineFeedRun, hk]

theorem collapseLineFeedsAux_run (k n : Nat) (rest : Str) :
    collapseLineFeedsAux n (List.replicate k '\n' ++ rest) = collapseLineFeedsAux (n + k) rest := by
  induction k generalizing n with
  | zero => rfl
  | succ j ih =>
    show collapseLineFeedsAux n ('\n' :: (List.replicate j '\n' ++ rest)) = _
    simp only [collapseLineFeedsAux, if_true]
    rw [ih]
    congr 1
    omega

theorem lineFeed_split (s : Str) :
    ∃ k rest, s = List.replicate k '\n' ++ rest ∧ (rest = [] ∨ ∃ c t, rest = c :: t ∧ c ≠ '\n') := by
  induction s with
  | nil => exact ⟨0, [], rfl, Or.inl rfl⟩
  | cons c t ih =>
    by_cases hc : c = '\n'
    · obtain ⟨k, rest, h1, h2⟩ := ih
      exact ⟨k + 1, rest, by rw [h1, hc]; rfl, h2⟩
    · exact ⟨0, c :: t, rfl, Or.inr ⟨c, t, rfl, hc⟩⟩

/-- Without carriage returns, the replacement by `reduceLinebreakRegex`
collapses each run of three or more line feeds to one line feed. -/
theorem reduceLinebreaks_eq_collapse (s : Str) (hr : '\r' ∉ s) :
    reduceLinebreaks s = collapseLineFeeds s := by
  have key : ∀ n (s : Str), s.length ≤ n → '\r' ∉ s →
      reduceLinebreaksAux 0 s = collapseLineFeedsAux 0 s := by
    intro n
    induction n with
    | zero =>
      intro s hs _
      have : s = [] := List.length_eq_zero.mp (Nat.le_zero.mp hs)
      subst this
      rfl
    | succ m ih =>
      intro s hs hr
      obtain ⟨k, rest, h1, h2⟩ := lineFeed_split s
      subst h1
      rw [collapseLineFeedsAux_run, Nat.zero_add]
      rcases h2 with h0 | ⟨c, t, h0, hn⟩
      · subst h0
        rw [reduceLinebreaksAux_run k [] (Or.inl rfl)]
        simp [reduceLinebreaksAux, collapseLineFeedsAux]
      · subst h0
        have hcr : c ≠ '\r' := by
          intro e
          apply hr
          rw [e]
          simp
        have htr : '\r' ∉ t := fun hm => hr (by simp [hm])
        have hlen : t.length ≤ m := by
          simp only [List.length_append, List.length_replicate, List.length_cons] at hs
          omega
        rw [reduceLinebreaksAux_run k (c :: t) (Or.inr ⟨c, t, rfl, hn, hcr⟩),
          reduceLinebreaksAux_other c t hn hcr, ih t hlen htr]
        simp [collapseLineFeedsAux, hn]
  exact key s.length s (Nat.le_refl _) hr

theorem collapseLineFeedsAux_plain (a rest : Str) (ha : '\n' ∉ a) :
    collapseLineFeedsAux 0 (a ++ rest) = a ++ collapseLineFeedsAux 0 rest := by
  induction a with
  | nil => rfl
  | cons c t ih =>
    have hc : c ≠ '\n' := fun e => ha (by rw [e]; simp)
    have ht : '\n' ∉ t := fun hm => ha (by simp [hm])
    simp [collapseLineFeedsAux, hc, ih ht, lineFeedRun]

theorem removeNonASCII_of_ascii (s : Str) (h : ∀ c ∈ s, c.toNat ≤ 0x7F) : removeNonASCII s = s := by
  unfold removeNonASCII
  rw [List.filter_eq_self]
  intro c hc
  simpa using h c hc

theorem trimSpace_of_ends (l : Str) (a b : Char) (hh : l.head? = some a)
    (ha : isUnicodeSpace a = false) (hl : l.getLast? = some b) (hb : isUnicodeSpace b = false) :
    trimSpace l = l := by
  unfold trimSpace
  have h1 : l.dropWhile isUnicodeSpace = l := by
    cases l with
    | nil => rfl
    | cons c t =>
      simp only [List.head?_cons, Option.some.injEq] at hh
      subst hh
      simp [List.dropWhile, ha]
  rw [h1, List.rdropWhile_eq_self_iff]
  intro hne
  rw [List.getLast?_eq_getLast _ hne] at hl
  have := Option.some.inj hl
  rw [this]
  simp [hb]

theorem mem_trimSpace (l : Str) (c : Char) (h : c ∈ trimSpace l) : c ∈ l := by
  unfold trimSpace at h
  have h1 := (List.rdropWhile_prefix isUnicodeSpace (l.dropWhile isUnicodeSpace)).subset h
  exact (List.dropWhile_suffix isUnicodeSpace).subset h1

/-- Counterexample to C13: `sectionContent` turns a run of four line feeds
into one line feed, not two, and it also changes a run of two line breaks
when they are written as carriage return and line feed. -/
theorem sectionContent_run_becomes_one_break :
    sectionContent false "a\n\n\n\nb".toList = "a\nb".toList ∧
    sectionContent false "a\n\n\n\nb".toList ≠ "a\n\nb".toList ∧
    sectionContent false "a\r\n\r\nb".toList = "a\nb".toList := by
  refine ⟨by decide, by decide, by decide⟩

/-- C13, amended: with the trim-breaks option off and a content without
carriage returns, `sectionContent` returns the content, stripped of its
non-ASCII characters and trimmed, with every maximal run of three or more
consecutive line feeds replaced by exactly one line feed and the runs of one
or two line feeds left as they are: a run of `n` line feeds between two texts
without line breaks becomes `lineFeedRun n`. -/
theorem sectionContent_collapses_line_feeds :
    (∀ content, '\r' ∉ content →
      sectionContent false content = collapseLineFeeds (trimSpace (removeNonASCII content))) ∧
    (∀ (a b : Str) (n : Nat) (x y : Char),
      (∀ c ∈ a ++ b, c.toNat ≤ 0x7F ∧ c ≠ '\n' ∧ c ≠ '\r') →
      a.head? = some x → isUnicodeSpace x = false →
      b.getLast? = some y → isUnicodeSpace y = false →
      sectionContent false (a ++ List.replicate n '\n' ++ b) = a ++ lineFeedRun n ++ b) ∧
    lineFeedRun 1 = "\n".toList ∧ lineFeedRun 2 = "\n\n".toList ∧
    (∀ n, 3 ≤ n → lineFeedRun n = "\n".toList) := by
  have first : ∀ content, '\r' ∉ content →
      sectionContent false content = collapseLineFeeds (trimSpace (removeNonASCII content)) := by
    intro content hr
    have hr2 : '\r' ∉ trimSpace (removeNonASCII content) := by
      intro hm
      have h1 := mem_trimSpace _ _ hm
      unfold removeNonASCII at h1
      exact hr (List.mem_filter.mp h1).1
    unfold sectionContent
    simp only [Bool.false_eq_true, if_false]
    exact reduceLinebreaks_eq_collapse _ hr2
  refine ⟨first, ?_, rfl, rfl, ?_⟩
  · intro a b n x y hchars hx hxs hy hys
    have hbne : b ≠ [] := by
      intro h0; rw [h0] at hy; simp at hy
    have hane : a ≠ [] := by
      intro h0; rw [h0] at hx; simp at hx
    have hcr : '\r' ∉ a ++ List.replicate n '\n' ++ b := by
      intro hm
      simp only [List.mem_append, List.mem_replicate] at hm
      rcases hm with (hm | hm) | hm
      · exact (hchars _ (List.mem_append_left b hm)).2.2 rfl
      · exact absurd hm.2 (by decide)
      · exact (hchars _ (List.mem_append_right a hm)).2.2 rfl
    have hascii : removeNonASCII (a ++ List.replicate n '\n' ++ b)
        = a ++ List.replicate n '\n' ++ b := by
      apply removeNonASCII_of_ascii
      intro c hc
      simp only [List.mem_append, List.mem_replicate] at hc
      rcases hc with (hc | hc) | hc
      · exact (hchars _ (List.mem_append_left b hc)).1
      · rw [hc.2]; decide
      · exact (hchars _ (List.mem_append_right a hc)).1
    have htrim : trimSpace (a ++ List.replicate n '\n' ++ b)
        = a ++ List.replicate n '\n' ++ b := by
      apply trimSpace_of_ends _ x y _ hxs _ hys
      · cases a with
        | nil => exact absurd rfl hane
        | cons c t => simpa using hx
      · rw [List.getLast?_append_of_ne_nil _ hbne]
        exact hy
    rw [first _ hcr, hascii, htrim]
    have han : '\n' ∉ a := fun hm => (hchars _ (List.mem_append_left b hm)).2.1 rfl
    have hbn : '\n' ∉ b := fun hm => (hchars _ (List.mem_append_right a hm)).2.1 rfl
    unfold collapseLineFeeds
    rw [List.append_assoc, collapseLineFeedsAux_plain a _ han, collapseLineFeedsAux_run,
      Nat.zero_add]
    cases b with
    | nil => exact absurd rfl hbne
    | cons c t =>
      have hc : c ≠ '\n' := fun e => hbn (by rw [e]; simp)
      have ht : '\n' ∉ t := fun hm => hbn (by simp [hm])
      have h2 := collapseLineFeedsAux_plain t [] ht
      simp only [List.append_nil] at h2
      simp only [collapseLineFeedsAux, hc, if_false, h2]
      simp [collapseLineFeedsAux, lineFeedRun, List.append_assoc]
  · intro n hn
    simp [lineFeedRun, hn]

/-- Witness for the amended C13 on the content `a`, four line feeds, `b`. -/
theorem sectionContent_collapses_line_feeds_witness :
    sectionContent false "a\n\n\n\nb".toList
      = collapseLineFeeds (trimSpace (removeNonASCII "a\n\n\n\nb".toList)) :=
  sectionContent_collapses_line_feeds.1 "a\n\n\n\nb".toList (by decide)

/-! ## Stored section texts and surrounding whitespace -/

/-- C14: for the titles `1.1 Foo (Automated)`, `2 Services`,
`2.1 Bar (Manual)` and a body in which the chapter heading `2 Services`
follows the audit text of rule 1.1, `sectionContent` trims the section text
to `run the check`, two line feeds, `2 Services`, and the cleanup that
`populateRules` applies afterwards cuts the chapter heading off: the text
stored under `audit` is `run the check` followed by two line feeds, which
ends in whitespace. -/
theorem populateRules_stores_trailing_whitespace :
    sectionContent false "run the check\n\n2 Services\n\n".toList
      = "run the check\n\n2 Services".toList ∧
    (prepareRules ["1.1 Foo (Automated)".toList, "2 Services".toList,
      "2.1 Bar (Manual)".toList]).2.2.1.alts = ["2 Services".toList] ∧
    (populateRules
        (prepareRules ["1.1 Foo (Automated)".toList, "2 Services".toList,
          "2.1 Bar (Manual)".toList]).2.2.2
        ["1.1 Foo (Automated)".toList, "2.1 Bar (Manual)".toList]
        (prepareRules ["1.1 Foo (Automated)".toList, "2 Services".toList,
          "2.1 Bar (Manual)".toList]).2.1
        "\n\n1.1 Foo (Automated)\nAudit: run the check\n\n2 Services\n\n2.1 Bar (Manual)\nAudit: look\nAppendix: x".toList
        (prepareRules ["1.1 Foo (Automated)".toList, "2 Services".toList,
          "2.1 Bar (Manual)".toList]).2.2.1
        false).1.map (fun r => (r.ID, r.Sections))
      = [("1.1".toList, [("audit".toList, "run the check\n\n".toList)]),
         ("2.1".toList, [("audit".toList, "look".toList)])] := by
  refine ⟨by decide, by decide, by decide⟩

/-! ## `cropTitles` -/

theorem skipOptional_cases (p : Char → Bool) (s : Str) :
    skipOptional p s = s ∨ ∃ c, p c = true ∧ s = c :: skipOptional p s := by
  cases s with
  | nil => exact Or.inl rfl
  | cons c t =>
    by_cases hc : p c = true
    · exact Or.inr ⟨c, hc, by simp [skipOptional, hc]⟩
    · exact Or.inl (by simp [skipOptional, hc])

/-- The shape of a match of `\s?[.]+\s?[\d]+$`: whitespace and dots, then
digits, then at most one character. -/
theorem titleCropMatch_shape (s rest : Str) (h : titleCropMatch s = some rest) :
    ∃ pre gs, s = pre ++ gs ++ rest ∧ (∀ x ∈ pre, isUnicodeSpace x = true ∨ x = '.') ∧
      (∀ x ∈ gs, isDigitNet x = true) ∧ rest.length ≤ 1 := by
  unfold titleCropMatch at h
  simp only [] at h
  split at h
  · rename_i hcond
    have hrest := Option.some.inj h
    obtain ⟨_, _, h4⟩ := hcond
    have e2 : skipOptional isUnicodeSpace
          ((skipOptional isUnicodeSpace s).dropWhile (fun c => decide (c = '.')))
        = (skipOptional isUnicodeSpace
            ((skipOptional isUnicodeSpace s).dropWhile (fun c => decide (c = '.')))).takeWhile
            isDigitNet ++ rest := by
      rw [← hrest]
      exact (List.takeWhile_append_dropWhile _ _).symm
    have e1 : skipOptional isUnicodeSpace s
        = (skipOptional isUnicodeSpace s).takeWhile (fun c => decide (c = '.'))
          ++ (skipOptional isUnicodeSpace s).dropWhile (fun c => decide (c = '.')) :=
      (List.takeWhile_append_dropWhile _ _).symm
    have hdots : ∀ x ∈ (skipOptional isUnicodeSpace s).takeWhile (fun c => decide (c = '.')),
        x = '.' := by
      intro x hx
      simpa using List.mem_takeWhile_imp hx
    have hdig : ∀ x ∈ (skipOptional isUnicodeSpace
          ((skipOptional isUnicodeSpace s).dropWhile (fun c => decide (c = '.')))).takeWhile
            isDigitNet, isDigitNet x = true := fun x hx => List.mem_takeWhile_imp hx
    have hlen : rest.length ≤ 1 := by
      rw [← hrest]
      rcases h4 with h4 | h4 <;> rw [h4] <;> simp
    -- put the pieces together
    rcases skipOptional_cases isUnicodeSpace s with a1 | ⟨c1, hc1, a1⟩
    · rcases skipOptional_cases isUnicodeSpace
          ((skipOptional isUnicodeSpace s).dropWhile (fun c => decide (c = '.')))
        with a2 | ⟨c2, hc2, a2⟩
      · refine ⟨(skipOptional isUnicodeSpace s).takeWhile (fun c => decide (c = '.')), _, ?_,
          fun x hx => Or.inr (hdots x hx), hdig, hlen⟩
        rw [List.append_assoc, ← e2, a2, ← e1, a1]
      · refine ⟨(skipOptional isUnicodeSpace s).takeWhile (fun c => decide (c = '.')) ++ [c2], _,
          ?_, ?_, hdig, hlen⟩
        · rw [List.append_assoc, ← e2, List.append_assoc, List.singleton_append, ← a2, ← e1, a1]
        · intro x hx
          rcases List.mem_append.mp hx with hx | hx
          · exact Or.inr (hdots x hx)
          · rw [List.mem_singleton.mp hx]; exact Or.inl hc2
    · rcases skipOptional_cases isUnicodeSpace
          ((skipOptional isUnicodeSpace s).dropWhile (fun c => decide (c = '.')))
        with a2 | ⟨c2, hc2, a2⟩
      · refine ⟨c1 :: (skipOptional isUnicodeSpace s).takeWhile (fun c => decide (c = '.')), _,
          ?_, ?_, hdig, hlen⟩
        · rw [List.append_assoc, ← e2, a2, List.cons_append, ← e1]
          exact a1
        · intro x hx
          rcases List.mem_cons.mp hx with hx | hx
          · rw [hx]; exact Or.inl hc1
          · exact Or.inr (hdots x hx)
      · refine ⟨c1 :: ((skipOptional isUnicodeSpace s).takeWhile (fun c => decide (c = '.'))
            ++ [c2]), _, ?_, ?_, hdig, hlen⟩
        · rw [List.append_assoc, ← e2, List.cons_append, List.append_assoc,
            List.singleton_append, ← a2, ← e1]
          exact a1
        · intro x hx
          rcases List.mem_cons.mp hx with hx | hx
          · rw [hx]; exact Or.inl hc1
          · rcases List.mem_append.mp hx with hx | hx
            · exact Or.inr (hdots x hx)
            · rw [List.mem_singleton.mp hx]; exact Or.inl hc2
  · cases h

theorem titleCropMatch_none_of_foreign (A B : Str) (c : Char)
    (hc : isUnicodeSpace c = false) (hd : c ≠ '.') (hg : isDigitNet c = false)
    (hB : 1 ≤ B.length) : titleCropMatch (A ++ c :: B) = none := by
  cases h : titleCropMatch (A ++ c :: B) with
  | none => rfl
  | some rest =>
    exfalso
    obtain ⟨pre, gs, hs, hpre, hgs, hlen⟩ := titleCropMatch_shape _ _ h
    have hP : ∀ x ∈ pre ++ gs, x ≠ c := by
      intro x hx e
      subst e
      rcases List.mem_append.mp hx with hx | hx
      · rcases hpre x hx with h1 | h1
        · rw [h1] at hc; cases hc
        · exact hd h1
      · rw [hgs x hx] at hg; cases hg
    have p1 : pre ++ gs <+: A ++ c :: B := ⟨rest, hs.symm⟩
    have p2 : A ++ [c] <+: A ++ c :: B := ⟨B, by simp⟩
    rcases Nat.lt_or_ge A.length (pre ++ gs).length with hlt | hge
    · have p3 : A ++ [c] <+: pre ++ gs :=
        List.prefix_of_prefix_length_le p2 p1 (by simp at hlt ⊢; omega)
      exact hP c (p3.subset (by simp)) rfl
    · have hl := congrArg List.length hs
      simp only [List.length_append, List.length_cons] at hl hge
      omega

theorem titleCropMatch_none_of_digit_then_other (A B : Str) (c w : Char)
    (hc : isUnicodeSpace c = false) (hd : c ≠ '.') (hw : isDigitNet w = false)
    (hB : 1 ≤ B.length) : titleCropMatch (A ++ c :: w :: B) = none := by
  cases h : titleCropMatch (A ++ c :: w :: B) with
  | none => rfl
  | some rest =>
    exfalso
    obtain ⟨pre, gs, hs, hpre, hgs, hlen⟩ := titleCropMatch_shape _ _ h
    have p1 : pre <+: A ++ c :: w :: B := ⟨gs ++ rest, by rw [hs, List.append_assoc]⟩
    have p2 : A ++ [c] <+: A ++ c :: w :: B := ⟨w :: B, by simp⟩
    have hprelen : pre.length ≤ A.length := by
      by_contra hcon
      have p3 : A ++ [c] <+: pre :=
        List.prefix_of_prefix_length_le p2 p1 (by simp; omega)
      rcases hpre c (p3.subset (by simp)) with h1 | h1
      · rw [h1] at hc; cases hc
      · exact hd h1
    have p4 : pre <+: A :=
      List.prefix_of_prefix_length_le p1 (List.prefix_append A _) hprelen
    obtain ⟨A', hA'⟩ := p4
    have hs2 : A' ++ c :: w :: B = gs ++ rest := by
      have : pre ++ (A' ++ c :: w :: B) = pre ++ (gs ++ rest) := by
        rw [← List.append_assoc, hA', hs, List.append_assoc]
      exact List.append_cancel_left this
    have q1 : gs <+: A' ++ c :: w :: B := ⟨rest, hs2.symm⟩
    have q2 : A' ++ [c, w] <+: A' ++ c :: w :: B := ⟨B, by simp⟩
    rcases Nat.lt_or_ge (A'.length + 1) gs.length with hlt | hge
    · have q3 : A' ++ [c, w] <+: gs :=
        List.prefix_of_prefix_length_le q2 q1 (by simp; omega)
      have := hgs w (q3.subset (by simp))
      rw [this] at hw; cases hw
    · have hl := congrArg List.length hs2
      simp only [List.length_append, List.length_cons] at hl
      omega

theorem titleCropRegexReplaceAux_after_digit (c : Char) (cs : Str) :
    titleCropRegexReplaceAux true (c :: cs)
      = c :: titleCropRegexReplaceAux (isDigit19 c) cs := rfl

theorem titleCropRegexReplaceAux_try (c : Char) (cs : Str) :
    titleCropRegexReplaceAux false (c :: cs)
      = match titleCropMatch (c :: cs) with
        | some rest => rest
        | none => c :: titleCropRegexReplaceAux (isDigit19 c) cs := rfl

theorem titleCropRegexReplaceAux_scan (A L : Str) :
    ∀ prev, (∀ A1 A2, A = A1 ++ A2 → A2 ≠ [] → titleCropMatch (A2 ++ L) = none) →
      titleCropRegexReplaceAux prev (A ++ L)
        = A ++ titleCropRegexReplaceAux
            (match A.getLast? with
              | some c => isDigit19 c
              | none => prev) L := by
  induction A with
  | nil => intro prev _; rfl
  | cons a t ih =>
    intro prev hno
    have h0 : titleCropMatch (a :: (t ++ L)) = none := hno [] (a :: t) rfl (by simp)
    have ih' := ih (isDigit19 a) (fun A1 A2 hA hne => hno (a :: A1) A2 (by rw [hA]; rfl) hne)
    have hstep : titleCropRegexReplaceAux prev (a :: (t ++ L))
        = a :: titleCropRegexReplaceAux (isDigit19 a) (t ++ L) := by
      cases prev with
      | false => rw [titleCropRegexReplaceAux_try, h0]
      | true => rw [titleCropRegexReplaceAux_after_digit]
    rw [List.cons_append, hstep, ih']
    cases t with
    | nil => rfl
    | cons b u =>
      rw [List.getLast?_cons_cons]
      obtain ⟨x, hx⟩ : ∃ x, (b :: u).getLast? = some x :=
        ⟨(b :: u).getLast (by simp), List.getLast?_eq_getLast _ _⟩
      simp only [hx]
      rfl

theorem takeWhile_dots (d : Nat) (rest : Str) (h : ∀ c, rest.head? = some c → c ≠ '.') :
    (List.replicate d '.' ++ rest).takeWhile (fun c => decide (c = '.')) = List.replicate d '.' ∧
    (List.replicate d '.' ++ rest).dropWhile (fun c => decide (c = '.')) = rest := by
  induction d with
  | zero =>
    cases rest with
    | nil => exact ⟨rfl, rfl⟩
    | cons c t =>
      have := h c rfl
      simp [List.takeWhile, List.dropWhile, this]
  | succ k ih =>
    simp [List.replicate_succ, List.takeWhile, List.dropWhile, ih.1, ih.2]

theorem digits_head (page : Str) (hp : ∀ c ∈ page, isDigitNet c = true) :
    ∀ c, page.head? = some c → isUnicodeSpace c = false ∧ c ≠ '.' := by
  intro c hc
  have hm : c ∈ page := by
    cases page with
    | nil => simp at hc
    | cons x t => simp at hc; simp [hc]
  have hd := isDigitRE_not_space c (hp c hm)
  exact ⟨hd.2.1, hd.2.2.2.2⟩

/-- The pattern `\s?[.]+\s?[\d]+$` matches a dot leader followed by a page
number, up to the end. -/
theorem titleCropMatch_leader (b1 b2 : Bool) (d : Nat) (page : Str) (hd : 1 ≤ d)
    (hne : page ≠ []) (hp : ∀ c ∈ page, isDigitNet c = true) :
    titleCropMatch ((if b1 then [' '] else []) ++ List.replicate d '.'
      ++ (if b2 then [' '] else []) ++ page) = some [] := by
  obtain ⟨k, hk⟩ : ∃ k, d = k + 1 := ⟨d - 1, by omega⟩
  subst hk
  have hsp : isUnicodeSpace ' ' = true := by decide
  have hdot : isUnicodeSpace '.' = false := by decide
  have hph := digits_head page hp
  have s1 : skipOptional isUnicodeSpace ((if b1 then [' '] else []) ++ List.replicate (k + 1) '.'
      ++ (if b2 then [' '] else []) ++ page)
      = List.replicate (k + 1) '.' ++ ((if b2 then [' '] else []) ++ page) := by
    cases b1 <;> simp [skipOptional, hsp, hdot, List.replicate_succ]
  have hhead : ∀ c, ((if b2 then [' '] else []) ++ page).head? = some c → c ≠ '.' := by
    intro c hc
    cases b2 with
    | true =>
      simp at hc
      rw [← hc]; decide
    | false =>
      simp only [Bool.false_eq_true, if_false, List.nil_append] at hc
      exact (hph c hc).2
  obtain ⟨t1, t2⟩ := takeWhile_dots (k + 1) _ hhead
  have s3 : skipOptional isUnicodeSpace ((if b2 then [' '] else []) ++ page) = page := by
    cases b2 with
    | true => simp [skipOptional, hsp]
    | false =>
      cases page with
      | nil => exact absurd rfl hne
      | cons c t =>
        have := (hph c rfl).1
        simp [skipOptional, this]
  have t3 : page.takeWhile isDigitNet = page := List.takeWhile_eq_self_iff.mpr hp
  have t4 : page.dropWhile isDigitNet = [] := List.dropWhile_eq_nil_iff.mpr hp
  have hpl : 1 ≤ page.length := List.length_pos.mpr hne
  unfold titleCropMatch
  simp only [s1, t1, t2, s3, t3, t4, List.length_replicate]
  simp [hpl]

theorem replaceAll_of_absent (s old new : Str) (x : Char) (hx : x ∈ old) (hs : x ∉ s) :
    replaceAll s old new = s := by
  unfold replaceAll
  induction s with
  | nil => rfl
  | cons c t ih =>
    have hno : old.isPrefixOf (c :: t) = false := by
      cases hb : old.isPrefixOf (c :: t) with
      | false => rfl
      | true => exact absurd ((List.isPrefixOf_iff_prefix.mp hb).subset hx) hs
    have ht : x ∉ t := fun hm => hs (List.mem_cons_of_mem c hm)
    simp only [replaceAllAux, hno, Bool.false_eq_true, if_false, ih ht]

theorem isTrailingNumber_last (rest : Str) (h : isTrailingNumber rest = true) :
    ∃ d, rest.getLast? = some d ∧ isDigitRE d = true := by
  unfold isTrailingNumber at h
  simp only [Bool.and_eq_true, Bool.not_eq_true', List.all_eq_true] at h
  obtain ⟨hne, hall⟩ := h
  have hne' : skipOptional isSpaceRE rest ≠ [] := by
    intro h0; rw [h0] at hne; simp at hne
  have hlast : (skipOptional isSpaceRE rest).getLast? = rest.getLast? := by
    rcases skipOptional_cases isSpaceRE rest with h1 | ⟨c, _, h1⟩
    · rw [h1]
    · have e := congrArg List.getLast? h1
      rw [e]
      cases hr : skipOptional isSpaceRE rest with
      | nil => exact absurd hr hne'
      | cons y Y => rw [List.getLast?_cons_cons]
  refine ⟨(skipOptional isSpaceRE rest).getLast hne', ?_, hall _ (List.getLast_mem hne')⟩
  rw [← hlast, List.getLast?_eq_getLast _ hne']

/-- Group 1 of `titleCropRegex2` is the whole text when the text has no line
feed and does not end with a digit. -/
theorem titleCropRegex2Group1_whole (s : Str) (d : Char) (hn : '\n' ∉ s)
    (hl : s.getLast? = some d) (hd : isDigitRE d = false) :
    titleCropRegex2Group1 s = some s := by
  induction s with
  | nil => simp at hl
  | cons c t ih =>
    have hc : c ≠ '\n' := fun e => hn (by rw [e]; simp)
    cases t with
    | nil => simp [titleCropRegex2Group1, hc]
    | cons b u =>
      have hl2 : (b :: u).getLast? = some d := by rw [List.getLast?_cons_cons] at hl; exact hl
      have hno : isTrailingNumber (b :: u) = false := by
        cases hb : isTrailingNumber (b :: u) with
        | false => rfl
        | true =>
          obtain ⟨d', h1, h2⟩ := isTrailingNumber_last _ hb
          rw [hl2] at h1
          rw [← Option.some.inj h1, hd] at h2
          cases h2
      have ih' := ih (fun hm => hn (List.mem_cons_of_mem c hm)) hl2
      simp only [titleCropRegex2Group1, hc, if_false, List.isEmpty_cons, hno, Bool.or_self,
        Bool.false_eq_true] at ih' ⊢
      rw [ih']
      rfl

theorem isDigit19_isDigit (c : Char) (h : isDigit19 c = true) : isDigitNet c = true := by
  unfold isDigit19 at h
  simp only [decide_eq_true_eq] at h
  have h1 : ('1' : Char).val.toNat ≤ c.val.toNat := UInt32.le_def.mp (Char.le_def.mp h.1)
  have h2 : c.val.toNat ≤ ('9' : Char).val.toNat := UInt32.le_def.mp (Char.le_def.mp h.2)
  have e1 : ('1' : Char).val.toNat = 49 := by decide
  have e2 : ('9' : Char).val.toNat = 57 := by decide
  unfold isDigitNet Char.isDigit
  simp only [Bool.and_eq_true, decide_eq_true_eq, ge_iff_le]
  constructor
  · apply UInt32.le_def.mpr
    show 48 ≤ c.val.toNat
    omega
  · apply UInt32.le_def.mpr
    show c.val.toNat ≤ 57
    omega

theorem suffix_ends_with (T A1 A2 : Str) (c : Char) (hT : T = A1 ++ A2) (hne : A2 ≠ [])
    (hl : T.getLast? = some c) : ∃ A2', A2 = A2' ++ [c] := by
  rw [hT, List.getLast?_append_of_ne_nil _ hne] at hl
  rcases List.eq_nil_or_concat A2 with h0 | ⟨A2', x, h0⟩
  · exact absurd h0 hne
  · rw [List.concat_eq_append] at h0
    rw [h0] at hl
    have hl2 : (A2' ++ [x]).getLast? = some x := by simp
    rw [hl2] at hl
    exact ⟨A2', by rw [h0, Option.some.inj hl]⟩

theorem cropTitles_singleton (s t : Str) (h : cropTitle s = some t) :
    cropTitles [s] = some [t] := by
  simp [cropTitles, h]

/-- The title text is left after the crop when its last character is neither
a digit, a dot nor whitespace. -/
theorem cropTitle_plain_end (T page : Str) (c : Char) (b1 b2 : Bool) (d : Nat)
    (hn : '\n' ∉ T) (hl : T.getLast? = some c) (hd : 1 ≤ d) (hne : page ≠ [])
    (hp : ∀ x ∈ page, isDigitNet x = true)
    (hc1 : isDigitNet c = false) (hc2 : c ≠ '.') (hc3 : isUnicodeSpace c = false) :
    cropTitle (T ++ (if b1 then [' '] else []) ++ List.replicate d '.'
      ++ (if b2 then [' '] else []) ++ page) = some T := by
  have hL := titleCropMatch_leader b1 b2 d page hd hne hp
  have hLne : (if b1 then [' '] else []) ++ List.replicate d '.'
      ++ (if b2 then [' '] else []) ++ page ≠ [] := by
    intro h0
    have := congrArg List.length h0
    simp at this
    omega
  have hassoc : T ++ (if b1 then [' '] else []) ++ List.replicate d '.'
        ++ (if b2 then [' '] else []) ++ page
      = T ++ ((if b1 then [' '] else []) ++ List.replicate d '.'
        ++ (if b2 then [' '] else []) ++ page) := by simp [List.append_assoc]
  have h19 : isDigit19 c = false := by
    cases hb : isDigit19 c with
    | false => rfl
    | true => rw [isDigit19_isDigit c hb] at hc1; cases hc1
  have hcrop : titleCropRegexReplace (T ++ ((if b1 then [' '] else []) ++ List.replicate d '.'
      ++ (if b2 then [' '] else []) ++ page)) = T := by
    unfold titleCropRegexReplace
    rw [titleCropRegexReplaceAux_scan]
    · rw [hl]
      simp only [h19]
      cases hLc : (if b1 then [' '] else []) ++ List.replicate d '.'
          ++ (if b2 then [' '] else []) ++ page with
      | nil => exact absurd hLc hLne
      | cons x L' =>
        rw [hLc] at hL
        rw [titleCropRegexReplaceAux_try, hL]
        simp
    · intro A1 A2 hT hA2
      obtain ⟨A2', hA2'⟩ := suffix_ends_with T A1 A2 c hT hA2 hl
      rw [hA2', List.append_assoc, List.singleton_append]
      exact titleCropMatch_none_of_foreign A2' _ c hc3 hc2 hc1 (List.length_pos.mpr hLne)
  unfold cropTitle
  simp only []
  rw [hassoc, hcrop, replaceAll_of_absent T _ _ '\n' (by decide) hn,
    replaceAll_of_absent T _ _ '\n' (by decide) hn]
  exact titleCropRegex2Group1_whole T c hn hl hc1

/-- The title text and the space after it are left after the crop when the
title ends with a digit `1`-`9` and the leader starts with a space. -/
theorem cropTitle_digit_end (T page : Str) (c : Char) (b2 : Bool) (d : Nat)
    (hn : '\n' ∉ T) (hl : T.getLast? = some c) (hd : 1 ≤ d) (hne : page ≠ [])
    (hp : ∀ x ∈ page, isDigitNet x = true) (hc : isDigit19 c = true) :
    cropTitle (T ++ [' '] ++ List.replicate d '.' ++ (if b2 then [' '] else []) ++ page)
      = some (T ++ [' ']) := by
  have hL := titleCropMatch_leader false b2 d page hd hne hp
  simp only [Bool.false_eq_true, if_false, List.nil_append] at hL
  have hLne : List.replicate d '.' ++ (if b2 then [' '] else []) ++ page ≠ [] := by
    intro h0
    have := congrArg List.length h0
    simp at this
    omega
  have hassoc : T ++ [' '] ++ List.replicate d '.' ++ (if b2 then [' '] else []) ++ page
      = T ++ (' ' :: (List.replicate d '.' ++ (if b2 then [' '] else []) ++ page)) := by
    simp [List.append_assoc]
  have hdig := isDigitRE_not_space c (isDigit19_isDigit c hc)
  have hcrop : titleCropRegexReplace
      (T ++ (' ' :: (List.replicate d '.' ++ (if b2 then [' '] else []) ++ page)))
      = T ++ [' '] := by
    unfold titleCropRegexReplace
    rw [titleCropRegexReplaceAux_scan]
    · rw [hl]
      simp only [hc]
      rw [titleCropRegexReplaceAux_after_digit]
      have hsp : isDigit19 ' ' = false := by decide
      rw [hsp]
      cases hLc : List.replicate d '.' ++ (if b2 then [' '] else []) ++ page with
      | nil => exact absurd hLc hLne
      | cons x L' =>
        rw [hLc] at hL
        rw [titleCropRegexReplaceAux_try, hL]
    · intro A1 A2 hT hA2
      obtain ⟨A2', hA2'⟩ := suffix_ends_with T A1 A2 c hT hA2 hl
      rw [hA2', List.append_assoc, List.singleton_append]
      exact titleCropMatch_none_of_digit_then_other A2' _ c ' ' hdig.2.1 hdig.2.2.2.2
        (by decide) (List.length_pos.mpr hLne)
  have hn2 : '\n' ∉ T ++ [' '] := by
    intro hm
    rcases List.mem_append.mp hm with h | h
    · exact hn h
    · exact absurd (List.mem_singleton.mp h) (by decide)
  unfold cropTitle
  simp only []
  rw [hassoc, hcrop, replaceAll_of_absent _ _ _ '\n' (by decide) hn2,
    replaceAll_of_absent _ _ _ '\n' (by decide) hn2]
  exact titleCropRegex2Group1_whole (T ++ [' ']) ' ' hn2 (by simp) (by decide)

theorem skipOptional_append_tail (K : Str) (k : Char) (K1 : Str) (hK : K = k :: K1)
    (hk : isUnicodeSpace k = false) (A : Str) :
    ∃ A1, skipOptional isUnicodeSpace (A ++ K) = A1 ++ K := by
  cases A with
  | nil => exact ⟨[], by rw [hK]; simp [skipOptional, hk]⟩
  | cons a t =>
    by_cases ha : isUnicodeSpace a = true
    · exact ⟨t, by simp [skipOptional, ha]⟩
    · exact ⟨a :: t, by simp [skipOptional, ha]⟩

theorem dropWhile_append_tail (p : Char → Bool) (K : Str) (k : Char) (K1 : Str)
    (hK : K = k :: K1) (hk : p k = false) (A : Str) :
    ∃ A1, (A ++ K).dropWhile p = A1 ++ K := by
  induction A with
  | nil => exact ⟨[], by rw [hK]; simp [List.dropWhile, hk]⟩
  | cons a t ih =>
    by_cases ha : p a = true
    · obtain ⟨A1, h⟩ := ih
      exact ⟨A1, by simp [List.dropWhile, ha, h]⟩
    · exact ⟨a :: t, by simp [List.dropWhile, ha]⟩

theorem dropWhile_dots_append (A rest : Str) (h : ∀ c, rest.head? = some c → c ≠ '.') :
    (∃ Z, (A ++ '.' :: rest).dropWhile (fun c => decide (c = '.')) = Z ++ '.' :: rest) ∨
    ((A ++ '.' :: rest).dropWhile (fun c => decide (c = '.')) = rest) := by
  induction A with
  | nil =>
    right
    have := (takeWhile_dots 1 rest h).2
    simpa using this
  | cons a t ih =>
    by_cases ha : a = '.'
    · rcases ih with ⟨Z, hZ⟩ | hr
      · exact Or.inl ⟨Z, by simp [List.dropWhile, ha, hZ]⟩
      · exact Or.inr (by simp [List.dropWhile, ha, hr])
    · exact Or.inl ⟨a :: t, by simp [List.dropWhile, ha]⟩

/-- The pattern `\s?[.]+\s?[\d]+$` has no match that starts before a dot
which is followed by a space and a further dot. -/
theorem titleCropMatch_none_of_dot_space_dot (A B : Str) :
    titleCropMatch (A ++ '.' :: ' ' :: '.' :: B) = none := by
  have hdotws : isUnicodeSpace '.' = false := by decide
  have hdotdig : isDigitNet '.' = false := by decide
  obtain ⟨A1, h1⟩ := skipOptional_append_tail ('.' :: ' ' :: '.' :: B) '.' (' ' :: '.' :: B) rfl
    hdotws A
  have hhead : ∀ c, (' ' :: '.' :: B).head? = some c → c ≠ '.' := by
    intro c hc
    simp at hc
    rw [← hc]; decide
  unfold titleCropMatch
  simp only [h1]
  rcases dropWhile_dots_append A1 (' ' :: '.' :: B) hhead with ⟨Z, hZ⟩ | hr
  · rw [hZ]
    obtain ⟨Z1, h3⟩ := skipOptional_append_tail ('.' :: ' ' :: '.' :: B) '.' (' ' :: '.' :: B) rfl
      hdotws Z
    rw [h3]
    obtain ⟨Z2, h4⟩ := dropWhile_append_tail isDigitNet ('.' :: ' ' :: '.' :: B) '.'
      (' ' :: '.' :: B) rfl hdotdig Z1
    rw [h4]
    have hne1 : Z2 ++ '.' :: ' ' :: '.' :: B ≠ [] := by simp
    have hne2 : Z2 ++ '.' :: ' ' :: '.' :: B ≠ ['\n'] := by
      intro e
      have := congrArg List.length e
      simp at this
      omega
    simp [hne2]
  · rw [hr]
    have hsp : isUnicodeSpace ' ' = true := by decide
    simp [skipOptional, hsp, List.takeWhile, hdotdig]

/-- The title text is left after the crop when it ends with a character that
is no digit, the leader is a match, and no match starts inside the title
text. -/
theorem cropTitle_of_no_inner_match (T L : Str) (c : Char) (hn : '\n' ∉ T)
    (hl : T.getLast? = some c) (hc : isDigitNet c = false)
    (hL : titleCropMatch L = some []) (hLne : L ≠ [])
    (hno : ∀ A1 A2, T = A1 ++ A2 → A2 ≠ [] → titleCropMatch (A2 ++ L) = none) :
    cropTitle (T ++ L) = some T := by
  have h19 : isDigit19 c = false := by
    cases hb : isDigit19 c with
    | false => rfl
    | true => rw [isDigit19_isDigit c hb] at hc; cases hc
  have hcrop : titleCropRegexReplace (T ++ L) = T := by
    unfold titleCropRegexReplace
    rw [titleCropRegexReplaceAux_scan T L false hno]
    rw [hl]
    simp only [h19]
    cases hLc : L with
    | nil => exact absurd hLc hLne
    | cons x L1 =>
      rw [hLc] at hL
      rw [titleCropRegexReplaceAux_try, hL]
      simp
  unfold cropTitle
  simp only []
  rw [hcrop, replaceAll_of_absent T _ _ '\n' (by decide) hn,
    replaceAll_of_absent T _ _ '\n' (by decide) hn]
  exact titleCropRegex2Group1_whole T c hn hl hc

/-- The title text is left after the crop when it ends with a dot and the
leader starts with a space. -/
theorem cropTitle_dot_end_spaced (T page : Str) (b2 : Bool) (d : Nat)
    (hn : '\n' ∉ T) (hl : T.getLast? = some '.') (hd : 1 ≤ d) (hne : page ≠ [])
    (hp : ∀ x ∈ page, isDigitNet x = true) :
    cropTitle (T ++ [' '] ++ List.replicate d '.' ++ (if b2 then [' '] else []) ++ page)
      = some T := by
  have hL := titleCropMatch_leader true b2 d page hd hne hp
  simp only [if_true] at hL
  obtain ⟨k, hk⟩ : ∃ k, d = k + 1 := ⟨d - 1, by omega⟩
  have hassoc : T ++ [' '] ++ List.replicate d '.' ++ (if b2 then [' '] else []) ++ page
      = T ++ ([' '] ++ List.replicate d '.' ++ (if b2 then [' '] else []) ++ page) := by
    simp [List.append_assoc]
  rw [hassoc]
  apply cropTitle_of_no_inner_match T _ '.' hn hl (by decide) hL (by simp)
  intro A1 A2 hT hA2
  obtain ⟨A3, hA3⟩ := suffix_ends_with T A1 A2 '.' hT hA2 hl
  rw [hA3, hk]
  have e : A3 ++ ['.'] ++ ([' '] ++ List.replicate (k + 1) '.' ++ (if b2 then [' '] else [])
        ++ page)
      = A3 ++ '.' :: ' ' :: '.' :: (List.replicate k '.' ++ (if b2 then [' '] else []) ++ page) := by
    simp [List.replicate_succ, List.append_assoc]
  rw [e]
  exact titleCropMatch_none_of_dot_space_dot A3 _

/-- The title text is left after the crop when it ends with a digit `1`-`9`
and one dot, and the leader starts with a dot. -/
theorem cropTitle_digit_dot_end (X page : Str) (y : Char) (b2 : Bool) (d : Nat)
    (hn : '\n' ∉ X ++ [y, '.']) (hd : 1 ≤ d) (hne : page ≠ [])
    (hp : ∀ x ∈ page, isDigitNet x = true) (hy : isDigit19 y = true) :
    cropTitle (X ++ [y, '.'] ++ List.replicate d '.' ++ (if b2 then [' '] else []) ++ page)
      = some (X ++ [y, '.']) := by
  have hL := titleCropMatch_leader false b2 d page hd hne hp
  simp only [Bool.false_eq_true, if_false, List.nil_append] at hL
  have hLne : List.replicate d '.' ++ (if b2 then [' '] else []) ++ page ≠ [] := by
    intro h0
    have := congrArg List.length h0
    simp at this
    omega
  have hassoc : X ++ [y, '.'] ++ List.replicate d '.' ++ (if b2 then [' '] else []) ++ page
      = (X ++ [y]) ++ ('.' :: (List.replicate d '.' ++ (if b2 then [' '] else []) ++ page)) := by
    simp [List.append_assoc]
  have hdig := isDigitRE_not_space y (isDigit19_isDigit y hy)
  have hlast : (X ++ [y]).getLast? = some y := by simp
  have hcrop : titleCropRegexReplace
      ((X ++ [y]) ++ ('.' :: (List.replicate d '.' ++ (if b2 then [' '] else []) ++ page)))
      = X ++ [y, '.'] := by
    unfold titleCropRegexReplace
    rw [titleCropRegexReplaceAux_scan]
    · rw [hlast]
      simp only [hy]
      rw [titleCropRegexReplaceAux_after_digit]
      have hsp : isDigit19 '.' = false := by decide
      rw [hsp]
      cases hLc : List.replicate d '.' ++ (if b2 then [' '] else []) ++ page with
      | nil => exact absurd hLc hLne
      | cons x L1 =>
        rw [hLc] at hL
        rw [titleCropRegexReplaceAux_try, hL]
        simp
    · intro A1 A2 hT hA2
      obtain ⟨A3, hA3⟩ := suffix_ends_with (X ++ [y]) A1 A2 y hT hA2 hlast
      rw [hA3, List.append_assoc, List.singleton_append]
      exact titleCropMatch_none_of_digit_then_other A3 _ y '.' hdig.2.1 hdig.2.2.2.2
        (by decide) (List.length_pos.mpr hLne)
  unfold cropTitle
  simp only []
  rw [hassoc, hcrop, replaceAll_of_absent _ _ _ '\n' (by decide) hn,
    replaceAll_of_absent _ _ _ '\n' (by decide) hn]
  exact titleCropRegex2Group1_whole (X ++ [y, '.']) '.' hn (by simp) (by decide)

/-- Counterexample to C16: for the entry `1.1 Max sessions 10 .... 7` the
number `10` of the name is stripped with the page number; for
`1.1 Ensure TLS 1.2..... 23`, where no space stands before the leader, one
dot of the leader is left; for `1.1 Foo etc..... 5` the dot that ends the
title text is removed with the leader. -/
theorem cropTitles_changes_title_text :
    cropTitles ["1.1 Max sessions 10 .... 7".toList] = some ["1.1 Max sessions".toList] ∧
    cropTitles ["1.1 Ensure TLS 1.2..... 23".toList] = some ["1.1 Ensure TLS 1.2.".toList] ∧
    cropTitles ["1.1 Foo etc..... 5".toList] = some ["1.1 Foo etc".toList] := by
  refine ⟨by decide, by decide, by decide⟩

/-- C16, amended: for every title text `T` without line feed and every ToC
entry formed as `T`, a dot leader (optional space, one or more dots, optional
space) and a page number, `cropTitles` returns exactly `T` when the last
character of `T` is neither a digit nor whitespace and, in case it is a dot,
the leader starts with a space or the character before that dot is a digit
`1`-`9`; and it returns `T` followed by the space of the leader when `T` ends
with a digit `1`-`9` and the leader starts with a space. -/
theorem cropTitles_removes_leader (T page : Str) (c : Char) (b1 b2 : Bool) (d : Nat)
    (hn : '\n' ∉ T) (hl : T.getLast? = some c) (hd : 1 ≤ d) (hne : page ≠ [])
    (hp : ∀ x ∈ page, isDigitNet x = true) :
    (isDigitNet c = false → isUnicodeSpace c = false →
      (c = '.' → b1 = true ∨ ∃ X y, T = X ++ [y, '.'] ∧ isDigit19 y = true) →
      cropTitles [T ++ (if b1 then [' '] else []) ++ List.replicate d '.'
        ++ (if b2 then [' '] else []) ++ page] = some [T]) ∧
    (isDigit19 c = true →
      cropTitles [T ++ [' '] ++ List.replicate d '.' ++ (if b2 then [' '] else []) ++ page]
        = some [T ++ [' ']]) := by
  constructor
  · intro hc1 hc3 hdot
    apply cropTitles_singleton
    by_cases hc2 : c = '.'
    · subst hc2
      cases b1 with
      | true => exact cropTitle_dot_end_spaced T page b2 d hn hl hd hne hp
      | false =>
        rcases hdot rfl with hb | ⟨X, y, hT, hy⟩
        · cases hb
        · subst hT
          simp only [Bool.false_eq_true, if_false, List.append_nil]
          exact cropTitle_digit_dot_end X page y b2 d hn hd hne hp hy
    · exact cropTitle_plain_end T page c b1 b2 d hn hl hd hne hp hc1 hc2 hc3
  · intro hc
    exact cropTitles_singleton _ _ (cropTitle_digit_end T page c b2 d hn hl hd hne hp hc)

/-- Witness for the amended C16 on the entries `1.1 Ensure foo ..... 23`,
`1.1 Foo etc. .... 5` and `1.1 Use TLS 1...... 5`. -/
theorem cropTitles_removes_leader_witness :
    cropTitles ["1.1 Ensure foo".toList ++ (if true then [' '] else []) ++ List.replicate 5 '.'
      ++ (if true then [' '] else []) ++ "23".toList] = some ["1.1 Ensure foo".toList] ∧
    cropTitles ["1.1 Foo etc.".toList ++ (if true then [' '] else []) ++ List.replicate 4 '.'
      ++ (if true then [' '] else []) ++ "5".toList] = some ["1.1 Foo etc.".toList] ∧
    cropTitles ["1.1 Use TLS 1.".toList ++ (if false then [' '] else []) ++ List.replicate 5 '.'
      ++ (if true then [' '] else []) ++ "5".toList] = some ["1.1 Use TLS 1.".toList] :=
  ⟨(cropTitles_removes_leader "1.1 Ensure foo".toList "23".toList 'o' true true 5
      (by decide) (by decide) (by decide) (by decide) (by decide)).1
      (by decide) (by decide) (fun h => absurd h (by decide)),
   (cropTitles_removes_leader "1.1 Foo etc.".toList "5".toList '.' true true 4
      (by decide) (by decide) (by decide) (by decide) (by decide)).1
      (by decide) (by decide) (fun _ => Or.inl rfl),
   (cropTitles_removes_leader "1.1 Use TLS 1.".toList "5".toList '.' false true 5
      (by decide) (by decide) (by decide) (by decide) (by decide)).1
      (by decide) (by decide) (fun _ => Or.inr ⟨"1.1 Use TLS ".toList, '1', rfl, by decide⟩)⟩


/-! ## `regexp2FindAllString` and `FindAllString` -/

theorem regexp2FindAllString_eq (re : Regexp2) (s : Str) :
    regexp2FindAllString re s
      = match (re s).head?, (re s).getLast? with
        | some first, some last => if first = last then some (re s).dropLast else some (re s)
        | _, _ => none := by
  have h : (re s).foldl (fun acc m => acc ++ [m]) [] = re s := by
    rw [foldl_append_singleton_eq_map (fun m => m) (re s) []]
    simp
  unfold regexp2FindAllString
  simp only [h]

/-- C21: with the pattern `[0-9]`, on `1 2 1` the successive matches are `1`,
`2`, `1` and the function returns `1`, `2` only; on `7`, with exactly one
match, it returns no text; on `x`, with no match, it panics at `matches[0]`. -/
theorem regexp2FindAllString_loses_matches :
    digitPattern "1 2 1".toList = ["1".toList, "2".toList, "1".toList] ∧
    regexp2FindAllString digitPattern "1 2 1".toList = some ["1".toList, "2".toList] ∧
    digitPattern "7".toList = ["7".toList] ∧
    regexp2FindAllString digitPattern "7".toList = some [] ∧
    digitPattern "x".toList = [] ∧
    regexp2FindAllString digitPattern "x".toList = none := by
  refine ⟨by decide, by decide, by decide, by decide, by decide, by decide⟩

/-- The texts of all matches are returned, in order, whenever the first and
the last text differ. -/
theorem regexp2FindAllString_of_distinct_ends (re : Regexp2) (s : Str)
    (h : (re s).head? ≠ (re s).getLast?) : regexp2FindAllString re s = some (re s) := by
  rw [regexp2FindAllString_eq]
  cases hms : re s with
  | nil => rw [hms] at h; simp at h
  | cons a t =>
    obtain ⟨l, hl⟩ : ∃ l, (a :: t).getLast? = some l :=
      ⟨(a :: t).getLast (by simp), List.getLast?_eq_getLast _ _⟩
    rw [hl]
    simp only [List.head?_cons]
    have : a ≠ l := fun e => h (by rw [hms, hl, e]; rfl)
    simp [this]

/-! ## `populateRules`: a rule without body heading -/

/-- C22: for the titles `1 Setup`, `1.1 Foo (Automated)`, `1.2 Bar (Manual)`,
a heading list that holds only the heading of rule 1.2, and a body with text
before that heading, no heading starts with `1.1 `, so `sectionTitle` stays
empty for rule 1.1; the span of rule 1.1 then starts after the first line
feed of the body and ends at the heading of rule 1.2, and rule 1.1 is
returned with the section `audit` holding the text `stray text` that stands
there, while neither error list names it. -/
theorem populateRules_fills_rule_without_heading :
    (prepareRules ["1 Setup".toList, "1.1 Foo (Automated)".toList,
      "1.2 Bar (Manual)".toList]).2.2.2.map (fun r => (r.ID, r.Sections))
      = [("1.1".toList, []), ("1.2".toList, [])] ∧
    ruleHeadings
        (prepareRules ["1 Setup".toList, "1.1 Foo (Automated)".toList,
          "1.2 Bar (Manual)".toList]).2.2.2
        ["1.2 Bar (Manual)".toList] 0
      = ([], "1.2 Bar (Manual)".toList) ∧
    ruleSpan
        (prepareRules ["1 Setup".toList, "1.1 Foo (Automated)".toList,
          "1.2 Bar (Manual)".toList]).2.2.2
        ["1.2 Bar (Manual)".toList]
        "Intro\nAudit: stray text\n\n1.2 Bar (Manual)\nAudit: look\nAppendix: x".toList 0
      = some "Audit: stray text\n\n".toList ∧
    (populateRules
        (prepareRules ["1 Setup".toList, "1.1 Foo (Automated)".toList,
          "1.2 Bar (Manual)".toList]).2.2.2
        ["1.2 Bar (Manual)".toList]
        (prepareRules ["1 Setup".toList, "1.1 Foo (Automated)".toList,
          "1.2 Bar (Manual)".toList]).2.1
        "Intro\nAudit: stray text\n\n1.2 Bar (Manual)\nAudit: look\nAppendix: x".toList
        (prepareRules ["1 Setup".toList, "1.1 Foo (Automated)".toList,
          "1.2 Bar (Manual)".toList]).2.2.1
        false).1.map (fun r => (r.ID, r.Sections))
      = [("1.1".toList, [("audit".toList, "stray text".toList)]),
         ("1.2".toList, [("audit".toList, "look".toList)])] ∧
    (populateRules
        (prepareRules ["1 Setup".toList, "1.1 Foo (Automated)".toList,
          "1.2 Bar (Manual)".toList]).2.2.2
        ["1.2 Bar (Manual)".toList]
        (prepareRules ["1 Setup".toList, "1.1 Foo (Automated)".toList,
          "1.2 Bar (Manual)".toList]).2.1
        "Intro\nAudit: stray text\n\n1.2 Bar (Manual)\nAudit: look\nAppendix: x".toList
        (prepareRules ["1 Setup".toList, "1.1 Foo (Automated)".toList,
          "1.2 Bar (Manual)".toList]).2.2.1
        false).2 = ([], []) := by
  refine ⟨by decide, by decide, by decide, by decide, by decide⟩
end CisExtractor
